import Mathlib

/-!
# The log view of `logv/logview.go`

A shallow embedding of the event store of `LogView`: the doubly linked list of
`logEventLine` values, appending, wrapping, unwrapping, offsets and the span
builder of the highlighter.

Go pointers are addresses into an explicit heap (`LogView.heap`); `nil` is
`none`.  The screen is the list of the cells set so far, in the order of the
calls of `SetCell`.  An operation returns `Except Fault _`: a runtime panic of the Go
program is an `error`.  Loops that walk the list carry a step budget, and
`Fault.outOfFuel` marks an exhausted budget.

Integers: lengths, page sizes, counts and slice bounds are bounded by the
sizes of the messages held in memory and never wrap, so they are natural
numbers and integers.  The one place where a value of the type reaches an
overflow is the negation of the offset in `atOffset`, which wraps
(`wrapInt`).
-/

set_option autoImplicit false

namespace Logv

/-! ## Data model -/

/-- The ways an operation can fail to return. -/
inductive Fault where
  /-- A nil (or dangling) pointer was dereferenced. -/
  | nilDereference
  /-- A slice was indexed out of range. -/
  | indexOutOfRange
  /-- The explicit `panic` of `colorize` on a wrapped line. -/
  | cannotColorizeWrappedLine
  /-- The step budget of a list walk ran out (the Go loop would not stop). -/
  | outOfFuel
  deriving DecidableEq, Repr

deriving instance DecidableEq for Except

/-- `LogLevel` is an unsigned integer in the source. -/
abbrev LogLevel := Nat

/-- Default log level. -/
def LogLevelInfo : LogLevel := 0
/-- Level for warnings. -/
def LogLevelWarning : LogLevel := 1
/-- Level for errors. -/
def LogLevelError : LogLevel := 2

/-- `LogEvent` of the source; the timestamp is an integer instant. -/
structure LogEvent where
  EventID : String
  Source : String
  Timestamp : Int
  Level : LogLevel
  Message : String
  deriving DecidableEq, Repr

/-- Go `len` of a string: its number of bytes. -/
def len (s : String) : Nat := s.utf8ByteSize

/-- The bytes of a Go string. -/
def bytes (s : String) : List UInt8 := s.toUTF8.data.toList

/-- Go `s[a:b]` on the bytes of a string. -/
def slice (bs : List UInt8) (a b : Int) : List UInt8 :=
  (bs.drop a.toNat).take (b.toNat - a.toNat)

/-- A `tcell.Color`. -/
abbrev Color := Nat

/-- A `tcell.Style`: foreground, background and attribute mask. -/
structure Style where
  fg : Color
  bg : Color
  attrs : Nat
  deriving DecidableEq, Repr

/-- `tcell.StyleDefault`. -/
def StyleDefault : Style := { fg := 0, bg := 0, attrs := 0 }

/-- `Style.Foreground`: the same style with another foreground. -/
def Style.Foreground (s : Style) (c : Color) : Style := { s with fg := c }

/-- `Style.Background`: the same style with another background. -/
def Style.Background (s : Style) (c : Color) : Style := { s with bg := c }

/-- `Style.Decompose`. -/
def Style.Decompose (s : Style) : Color × Color × Nat := (s.fg, s.bg, s.attrs)

/-- `styledSpan` of the source; `end_` is the field `end`. -/
structure styledSpan where
  start : Int
  end_ : Int
  style : Style
  deriving DecidableEq, Repr

/-- `logEventLine` of the source.  `previous` and `next` are heap addresses,
`end_` is the field `end`, and the embedded `*LogEvent` is held by value (the
source never writes to an event). -/
structure logEventLine where
  LogEvent : LogEvent
  lineID : Nat
  previous : Option Nat
  next : Option Nat
  styleSpans : List styledSpan
  start : Int
  end_ : Int
  order : Int
  lineCount : Nat
  deriving DecidableEq, Repr

/-- A compiled `*regexp.Regexp`, seen through the two methods the log view
calls.  The library guarantees that `SubexpNames` has an entry for the whole
match, and that a submatch result is nil or holds two indices per entry. -/
structure Regexp where
  FindStringSubmatchIndex : String → List Int
  SubexpNames : List String
  names_ne_nil : SubexpNames ≠ []
  index_length : ∀ s, FindStringSubmatchIndex s = [] ∨
    (FindStringSubmatchIndex s).length = 2 * SubexpNames.length

/-- `LogView` of the source, without the embedded box, the focus flag and the
lock, and with the heap that holds its lines.  `pageWidth` and `pageHeight`
only ever receive the width and height of `GetInnerRect`, which are not
negative. -/
structure LogView where
  heap : List logEventLine
  firstEvent : Option Nat
  lastEvent : Option Nat
  top : Option Nat
  eventCount : Nat
  eventLimit : Nat
  highlightingEnabled : Bool
  highlightColors : String → Option Style
  highlightLevels : Bool
  warningBgColor : Color
  errorBgColor : Color
  following : Bool
  showHeader : Bool
  wrap : Bool
  textColor : Color
  backgroundColor : Color
  defaultStyle : Style
  highlightPattern : Option Regexp
  lastWidth : Nat
  lastHeight : Nat
  pageHeight : Nat
  pageWidth : Nat

/-- `NewLogView`; the four colours are constants of the `cview` and `tcell`
libraries. -/
def NewLogView (PrimaryTextColor PrimitiveBackgroundColor ColorSaddleBrown
    ColorIndianRed : Color) : LogView :=
  { heap := []
    firstEvent := none
    lastEvent := none
    top := none
    eventCount := 0
    eventLimit := 0
    highlightingEnabled := true
    highlightColors := fun _ => none
    highlightLevels := false
    warningBgColor := ColorSaddleBrown
    errorBgColor := ColorIndianRed
    following := true
    showHeader := false
    wrap := true
    textColor := PrimaryTextColor
    backgroundColor := PrimitiveBackgroundColor
    defaultStyle :=
      (StyleDefault.Foreground PrimaryTextColor).Background PrimitiveBackgroundColor
    highlightPattern := none
    lastWidth := 0
    lastHeight := 0
    pageHeight := 0
    pageWidth := 0 }

/-! ## Heap access -/

/-- Read through a pointer; a nil pointer panics. -/
def LogView.line (lv : LogView) (p : Option Nat) : Except Fault logEventLine :=
  match p with
  | none => .error .nilDereference
  | some a =>
    match lv.heap[a]? with
    | some l => .ok l
    | none => .error .nilDereference

/-- Write the fields of the line at a pointer; a nil pointer panics. -/
def LogView.update (lv : LogView) (p : Option Nat) (f : logEventLine → logEventLine) :
    Except Fault LogView :=
  match p with
  | none => .error .nilDereference
  | some a =>
    match lv.heap[a]? with
    | some l => .ok { lv with heap := lv.heap.set a (f l) }
    | none => .error .nilDereference

/-- Allocate a line: `&logEventLine{...}`. -/
def LogView.alloc (lv : LogView) (l : logEventLine) : LogView × Nat :=
  ({ lv with heap := lv.heap ++ [l] }, lv.heap.length)

/-- The addresses met by following `next` from a pointer, at most `fuel` of them. -/
def walk (heap : List logEventLine) : Nat → Option Nat → List Nat
  | 0, _ => []
  | _ + 1, none => []
  | fuel + 1, some a =>
    match heap[a]? with
    | none => []
    | some l => a :: walk heap fuel l.next

/-- The addresses of the lines of the list, walking `next` from `firstEvent`. -/
def LogView.lineAddrs (lv : LogView) : List Nat :=
  walk lv.heap lv.heap.length lv.firstEvent

/-- The lines of the list, walking `next` from `firstEvent`. -/
def LogView.lines (lv : LogView) : List logEventLine :=
  lv.lineAddrs.filterMap fun a => lv.heap[a]?

/-! ## The operations of the source -/

/-- `insertAfter` of the source. -/
def insertAfter (lv : LogView) (node : Option Nat) (new : Nat) :
    Except Fault (LogView × Nat) :=
  match node with
  | none =>
    .ok ({ lv with firstEvent := some new, lastEvent := some new, top := some new }, new)
  | some n => do
    let lv1 ← lv.update (some new) fun l => { l with previous := some n }
    let nl ← lv1.line (some n)
    let lv2 ← lv1.update (some new) fun l => { l with next := nl.next }
    let nl2 ← lv2.line (some n)
    let lv3 ← match nl2.next with
      | none => pure lv2
      | some m => lv2.update (some m) fun l => { l with previous := some new }
    let lv4 ← lv3.update (some n) fun l => { l with next := some new }
    let lv5 := if lv4.lastEvent = some n then { lv4 with lastEvent := some new } else lv4
    pure (lv5, new)

/-- The loop of `findFirstWrappedLine`. -/
def findFirstWrappedLine (lv : LogView) : Nat → Nat → Except Fault Nat
  | 0, _ => .error .outOfFuel
  | fuel + 1, event => do
    let e ← lv.line (some event)
    if e.order > 1 then
      match e.previous with
      | some p => findFirstWrappedLine lv fuel p
      | none => pure event
    else
      pure event

/-- The loop of `deleteWrapLines`:
`for next.next != nil && next.next.order > 1 { next = next.next }`. -/
def deleteWrapLoop (lv : LogView) : Nat → Option Nat → Except Fault (Option Nat)
  | 0, _ => .error .outOfFuel
  | fuel + 1, next => do
    let nl ← lv.line next
    match nl.next with
    | none => pure next
    | some nn => do
      let nnl ← lv.line (some nn)
      if nnl.order > 1 then deleteWrapLoop lv fuel (some nn) else pure next

/-- `deleteWrapLines` of the source. -/
def deleteWrapLines (lv : LogView) (event : Nat) : Except Fault (LogView × Nat) := do
  let e ← lv.line (some event)
  if e.order = 0 then
    pure (lv, event)
  else do
    let head ← findFirstWrappedLine lv (lv.heap.length + 1) event
    let lv1 ← lv.update (some head) fun l => { l with order := 0 }
    let lv2 ← lv1.update (some head) fun l => { l with start := 0 }
    let lv3 ← lv2.update (some head) fun l => { l with end_ := (len l.LogEvent.Message : Int) }
    let hl ← lv3.line (some head)
    let next ← deleteWrapLoop lv3 (lv3.heap.length + 1) hl.next
    let nl ← lv3.line next
    let lv4 ← lv3.update (some head) fun l => { l with next := nl.next }
    let nl2 ← lv4.line next
    let lv5 ← lv4.update nl2.next fun l => { l with previous := some head }
    pure (lv5, head)

/-- The body of the loop of `calculateWrap`, run for `i`, `i + 1`, ... as many
times as the first argument says. -/
def wrapLoop (event : Nat) (lines : Nat) :
    Nat → Nat → LogView → Nat → Except Fault (LogView × Nat)
  | 0, _, lv, currentLine => .ok (lv, currentLine)
  | k + 1, i, lv, currentLine => do
    let e ← lv.line (some event)
    let (lv1, nextLine) := lv.alloc e
    let lv2 ← lv1.update (some nextLine) fun l => { l with start := (lv1.pageWidth * i : Nat) }
    let lv3 ← lv2.update (some nextLine) fun l => { l with order := (i : Int) + 1 }
    let e3 ← lv3.line (some event)
    let lv4 ←
      if i = lines - 1 then
        lv3.update (some nextLine) fun l =>
          { l with end_ := l.start + (len e3.LogEvent.Message : Int) - (lv3.pageWidth * i : Nat) }
      else
        lv3.update (some nextLine) fun l => { l with end_ := l.start + (lv3.pageWidth : Int) }
    let (lv5, cur) ← insertAfter lv4 (some currentLine) nextLine
    wrapLoop event lines k (i + 1) lv5 cur

/-- The number of lines `calculateWrap` computes for a message of `n` bytes:
`lines := n / pageWidth; if n % pageWidth != 0 { lines++ }`. -/
def wrapLineCount (n pageWidth : Nat) : Nat :=
  if n % pageWidth ≠ 0 then n / pageWidth + 1 else n / pageWidth

/-- `calculateWrap` of the source.  The `||` of the first test evaluates from
the left and stops at the first true operand, so the line is only read when
wrapping is enabled and the page width is not 0. -/
def calculateWrap (lv : LogView) (event : Nat) : Except Fault (LogView × Nat) :=
  if !lv.wrap || lv.pageWidth = 0 then
    pure (lv, event)
  else do
    let e ← lv.line (some event)
    if len e.LogEvent.Message < lv.pageWidth then
      pure (lv, event)
    else do
      let (lv0, event) ← if e.order ≠ 0 then deleteWrapLines lv event else pure (lv, event)
      let e0 ← lv0.line (some event)
      let lines := wrapLineCount (len e0.LogEvent.Message) lv0.pageWidth
      let lv1 ← lv0.update (some event) fun l => { l with order := 1 }
      let lv2 ← lv1.update (some event) fun l => { l with start := 0 }
      let lv3 ← lv2.update (some event) fun l => { l with end_ := (lv2.pageWidth : Int) }
      let lv4 ← lv3.update (some event) fun l => { l with lineCount := lines }
      wrapLoop event lines (lines - 1) 1 lv4 event

/-- The loop of `buildSpans` over the group names, from group `i` on. -/
def buildSpansLoop (highlightColors : String → Option Style) (groupIndices : List Int)
    (defaultStyle : Style) (useDefaultBg : Bool) (dbg : Color) :
    Nat → List String → Int → List styledSpan → Except Fault (Int × List styledSpan)
  | _, [], currentPos, spans => .ok (currentPos, spans)
  | i, name :: rest, currentPos, spans =>
    match groupIndices[i * 2]?, groupIndices[i * 2 + 1]? with
    | some st, some en =>
      if st ≠ -1 ∧ en ≠ -1 then
        let spans1 :=
          if st ≠ currentPos then
            spans ++ [{ start := currentPos, end_ := st - 1, style := defaultStyle }]
          else spans
        match highlightColors name with
        | none =>
          buildSpansLoop highlightColors groupIndices defaultStyle useDefaultBg dbg
            (i + 1) rest currentPos spans1
        | some style =>
          let style1 := if useDefaultBg then style.Background dbg else style
          buildSpansLoop highlightColors groupIndices defaultStyle useDefaultBg dbg
            (i + 1) rest en (spans1 ++ [{ start := st, end_ := en - 1, style := style1 }])
      else
        buildSpansLoop highlightColors groupIndices defaultStyle useDefaultBg dbg
          (i + 1) rest currentPos spans
    | _, _ => .error .indexOutOfRange

/-- `buildSpans` of the source. -/
def buildSpans (lv : LogView) (text : String) (groupIndices : List Int)
    (groupNames : List String) (defaultStyle : Style) (useDefaultBg : Bool) :
    Except Fault (List styledSpan) := do
  let dbg := defaultStyle.Decompose.2.1
  let (currentPos, spans) ←
    buildSpansLoop lv.highlightColors groupIndices defaultStyle useDefaultBg dbg
      0 groupNames 0 []
  if currentPos < (len text : Int) - 1 then
    pure (spans ++ [{ start := currentPos, end_ := (len text : Int) - 1, style := defaultStyle }])
  else
    pure spans

/-- `colorize` of the source. -/
def colorize (lv : LogView) (event : Nat) : Except Fault LogView := do
  let e ← lv.line (some event)
  if e.order ≠ 0 then
    .error .cannotColorizeWrappedLine
  else do
    let useSpecialBg := lv.highlightLevels && e.LogEvent.Level != LogLevelInfo
    let defaultStyle :=
      if lv.highlightLevels && e.LogEvent.Level != LogLevelInfo then
        if e.LogEvent.Level = LogLevelWarning then lv.defaultStyle.Background lv.warningBgColor
        else lv.defaultStyle.Background lv.errorBgColor
      else lv.defaultStyle
    match lv.highlightingEnabled, lv.highlightPattern with
    | true, some pattern =>
      let groupIndices := pattern.FindStringSubmatchIndex e.LogEvent.Message
      if groupIndices.length = 0 then
        pure lv
      else do
        let spans ← buildSpans lv e.LogEvent.Message (groupIndices.drop 2)
          (pattern.SubexpNames.drop 1) defaultStyle useSpecialBg
        lv.update (some event) fun l => { l with styleSpans := spans }
    | _, _ =>
      lv.update (some event) fun l =>
        { l with styleSpans :=
            [{ start := 0, end_ := (len e.LogEvent.Message : Int), style := defaultStyle }] }

/-- A Go `int` is 64 bits wide here: the value an integer wraps to. -/
def wrapInt (x : Int) : Int := (x + 2 ^ 63) % 2 ^ 64 - 2 ^ 63

/-- The loop of `atOffset`, for the given number of steps. -/
def atOffsetLoop (lv : LogView) (offset : Int) :
    Nat → Option Nat → Except Fault (Option Nat)
  | 0, current => .ok current
  | steps + 1, current =>
    if (current = lv.firstEvent ∧ offset < 0) ∨ (current = lv.lastEvent ∧ offset > 0) then
      .ok current
    else do
      let l ← lv.line current
      atOffsetLoop lv offset steps (if offset < 0 then l.previous else l.next)

/-- `atOffset` of the source; `offset` is a Go `int`, and `-offset` wraps. -/
def atOffset (lv : LogView) (start : Option Nat) (offset : Int) :
    Except Fault (Option Nat) :=
  if offset = 0 then
    .ok start
  else
    let steps : Int := if offset > 0 then offset else wrapInt (-offset)
    atOffsetLoop lv offset steps.toNat start

/-- `scrollToEnd` of the source. -/
def scrollToEnd (lv : LogView) : Except Fault LogView := do
  let t ← atOffset lv lv.lastEvent (-((lv.pageHeight : Int) - 1))
  pure { lv with top := t }

/-- `append` of the source. -/
def append (lv : LogView) (logEvent : LogEvent) : Except Fault LogView := do
  let (lv1, event) := lv.alloc
    { LogEvent := logEvent
      lineID := lv.eventCount + 1
      previous := none
      next := none
      styleSpans := []
      start := 0
      end_ := (len logEvent.Message : Int)
      order := 0
      lineCount := 1 }
  let (lv2, _) ← insertAfter lv1 lv1.lastEvent event
  let lv3 ← colorize lv2 event
  let (lv4, _) ← calculateWrap lv3 event
  let e ← lv4.line (some event)
  let lv5 := { lv4 with eventCount := lv4.eventCount + e.lineCount }
  if lv5.following && decide (lv5.eventCount > lv5.pageHeight) then do
    let t ← atOffset lv5 lv5.top (e.lineCount : Int)
    pure { lv5 with top := t }
  else
    pure lv5

/-- `AppendEvents` of the source: `append` for each event in turn. -/
def AppendEvents (lv : LogView) : List LogEvent → Except Fault LogView
  | [] => .ok lv
  | e :: events => do
    let lv1 ← append lv e
    AppendEvents lv1 events

/-- The loop of `unwrapLines`. -/
def unwrapLoop : Nat → LogView → Option Nat → Except Fault LogView
  | 0, _, _ => .error .outOfFuel
  | _ + 1, lv, none => .ok lv
  | fuel + 1, lv, some event => do
    let (lv1, head) ← deleteWrapLines lv event
    let hl ← lv1.line (some head)
    unwrapLoop fuel lv1 hl.next

/-- `unwrapLines` of the source. -/
def unwrapLines (lv : LogView) : Except Fault LogView :=
  unwrapLoop (lv.heap.length + 1) lv lv.firstEvent

/-- The loop of `rewrapLines`. -/
def rewrapLoop : Nat → LogView → Option Nat → Except Fault LogView
  | 0, _, _ => .error .outOfFuel
  | _ + 1, lv, none => .ok lv
  | fuel + 1, lv, some event => do
    let (lv1, tail) ← calculateWrap lv event
    let tl ← lv1.line (some tail)
    rewrapLoop fuel lv1 tl.next

/-- `rewrapLines` of the source. -/
def rewrapLines (lv : LogView) : Except Fault LogView :=
  rewrapLoop (lv.heap.length + 1) lv lv.firstEvent

/-- The part of `Draw` that precedes the drawing of the rows: it records the
size of the inner rectangle and rewraps when the size changed. -/
def Draw (lv : LogView) (width height : Nat) : Except Fault LogView :=
  if height = 0 then
    .ok lv
  else do
    let lv1 := { lv with pageHeight := height, pageWidth := width }
    let lv2 ←
      if width ≠ lv1.lastWidth ∨ (height ≠ lv1.lastHeight ∧ lv1.wrap = true) then do
        let r ← rewrapLines lv1
        if r.following then scrollToEnd r else pure r
      else pure lv1
    let lv3 := { lv2 with lastWidth := width, lastHeight := height }
    pure (if lv3.showHeader then { lv3 with pageHeight := lv3.pageHeight - 1 } else lv3)


/-! ### Scrolling, recolorizing and drawing a line -/

/-- `ScrollToBottom` of the source: `scrollToEnd` under the lock. -/
def ScrollToBottom (lv : LogView) : Except Fault LogView :=
  scrollToEnd lv

/-- `SetFollowing` of the source. -/
def SetFollowing (lv : LogView) (follow : Bool) : Except Fault LogView :=
  if follow then scrollToEnd { lv with following := follow }
  else .ok { lv with following := follow }

/-- The loop of `recolorizeLines`. -/
def recolorizeLoop : Nat → LogView → Option Nat → Except Fault LogView
  | 0, _, _ => .error .outOfFuel
  | _ + 1, lv, none => .ok lv
  | fuel + 1, lv, some event => do
    let lv1 ← colorize lv event
    let l ← lv1.line (some event)
    recolorizeLoop fuel lv1 l.next

/-- `recolorizeLines` of the source. -/
def recolorizeLines (lv : LogView) : Except Fault LogView :=
  recolorizeLoop (lv.heap.length + 1) lv lv.firstEvent

/-- `InvalidateHighlights` of the source: `recolorizeLines` under the lock. -/
def InvalidateHighlights (lv : LogView) : Except Fault LogView :=
  recolorizeLines lv

/-- One call of `screen.SetCell(x, y, style, rune(b))`. -/
structure Cell where
  x : Int
  y : Int
  style : Style
  ch : UInt8
  deriving DecidableEq, Repr

/-- Go `s[i]` on a string: the byte at index `i`, a panic out of range. -/
def byteAt (s : String) (i : Int) : Except Fault UInt8 :=
  if i < 0 then .error .indexOutOfRange
  else
    match (bytes s)[i.toNat]? with
    | some b => .ok b
    | none => .error .indexOutOfRange

/-- The loop of `printLogLineNoHighlights`, for at most the given number of
positions; the screen is the list of the cells set so far. -/
def printPlainLoop (lv : LogView) (msg : String) (y : Int) :
    Nat → List Cell → Int → Int → Except Fault (List Cell)
  | 0, screen, _, _ => .ok screen
  | k + 1, screen, i, pos => do
    let b ← byteAt msg pos
    let screen1 := screen ++ [{ x := i, y := y, style := lv.defaultStyle, ch := b }]
    if i + 1 ≥ (lv.pageWidth : Int) then pure screen1
    else printPlainLoop lv msg y k screen1 (i + 1) (pos + 1)

/-- `printLogLineNoHighlights` of the source. -/
def printLogLineNoHighlights (lv : LogView) (screen : List Cell) (x y : Int) (event : Nat) :
    Except Fault (List Cell) := do
  let e ← lv.line (some event)
  printPlainLoop lv e.LogEvent.Message y (e.end_ - e.start).toNat screen x e.start

/-- The first loop of `printLogLine`: the index, counted from `i`, of the
first span that holds the position `start`, or the index past the last span. -/
def findSpanIndex : List styledSpan → Int → Nat → Nat
  | [], _, i => i
  | s :: rest, start, i =>
    if s.start ≤ start ∧ s.end_ ≥ start then i else findSpanIndex rest start (i + 1)

/-- The second loop of `printLogLine`, for the given number of positions. -/
def printSpanLoop (spans : List styledSpan) (msg : String) (y : Int) :
    Nat → List Cell → Int → Int → Nat → Except Fault (List Cell)
  | 0, screen, _, _, _ => .ok screen
  | k + 1, screen, i, textPos, spanIndex =>
    match spans[spanIndex]? with
    | none => .error .indexOutOfRange
    | some sp => do
      let b ← byteAt msg textPos
      let screen1 := screen ++ [{ x := i, y := y, style := sp.style, ch := b }]
      printSpanLoop spans msg y k screen1 (i + 1) (textPos + 1)
        (if textPos + 1 > sp.end_ then spanIndex + 1 else spanIndex)

/-- `printLogLine` of the source. -/
def printLogLine (lv : LogView) (screen : List Cell) (x y : Int) (event : Nat) :
    Except Fault (List Cell) := do
  let e ← lv.line (some event)
  let spanIndex := findSpanIndex e.styleSpans e.start 0
  if spanIndex = e.styleSpans.length then
    printLogLineNoHighlights lv screen x y event
  else
    printSpanLoop e.styleSpans e.LogEvent.Message y (e.end_ - e.start).toNat screen x e.start
      spanIndex

/-- `drawEvent` of the source. -/
def drawEvent (lv : LogView) (screen : List Cell) (x y : Int) (event : Nat) :
    Except Fault (List Cell) :=
  if lv.highlightingEnabled then printLogLine lv screen x y event
  else printLogLineNoHighlights lv screen x y event

/-! ## Well-formedness of the list -/

/-- The line at position `i` of the address list `as` is linked to its
neighbours: its `next` is the address at `i + 1` and its `previous` the one
at `i - 1` (nil at the ends). -/
def linkedAt (heap : List logEventLine) (as : List Nat) (i : Nat) : Prop :=
  match as[i]? with
  | none => True
  | some a =>
    match heap[a]? with
    | none => False
    | some l => l.next = as[i + 1]? ∧ l.previous = if i = 0 then none else as[i - 1]?

instance (heap : List logEventLine) (as : List Nat) (i : Nat) : Decidable (linkedAt heap as i) := by
  unfold linkedAt
  split
  · infer_instance
  · split <;> infer_instance

/-- The heap links the addresses `as`, in this order, into a doubly linked
list without repetition. -/
def Linked (heap : List logEventLine) (as : List Nat) : Prop :=
  as.Nodup ∧ ∀ i, i < as.length → linkedAt heap as i

instance (heap : List logEventLine) (as : List Nat) : Decidable (Linked heap as) := by
  unfold Linked
  infer_instance

/-- The list of the log view is well formed and `as` are the addresses of its
lines in order: `firstEvent` and `lastEvent` are its first and last line. -/
def WellFormed (lv : LogView) (as : List Nat) : Prop :=
  Linked lv.heap as ∧ lv.firstEvent = as.head? ∧ lv.lastEvent = as.getLast?

instance (lv : LogView) (as : List Nat) : Decidable (WellFormed lv as) := by
  unfold WellFormed
  infer_instance

/-! ## The lines `calculateWrap` writes -/

/-- The contents of a line without its two links. -/
def logEventLine.data (l : logEventLine) : logEventLine :=
  { l with previous := none, next := none }

/-- A continuation line made by `calculateWrap` from the head line `e`. -/
def contLine (e : logEventLine) (pw lines i : Nat) (prev : Option Nat) : logEventLine :=
  { e with
    start := (pw * i : Nat)
    order := (i : Int) + 1
    end_ := if i = lines - 1 then ((pw * i : Nat) : Int) + (len e.LogEvent.Message : Int) - (pw * i : Nat)
            else ((pw * i : Nat) : Int) + (pw : Int)
    previous := prev
    next := none }

/-- The head line written by `calculateWrap`. -/
def headLine (e : logEventLine) (pw : Nat) : logEventLine :=
  { e with order := 1, start := 0, end_ := (pw : Int),
           lineCount := wrapLineCount (len e.LogEvent.Message) pw }

/-- The lines met by following `next` from a pointer. -/
def LogView.linesFrom (lv : LogView) (p : Option Nat) : List logEventLine :=
  (walk lv.heap lv.heap.length p).filterMap fun a => lv.heap[a]?

/-- The slices of the lines, in order, run from `s` to `e`: each slice is not
empty and starts where the one before it ends, so there is no gap and no
overlap. -/
def Contiguous : Int → List logEventLine → Int → Prop
  | s, [], e => s = e
  | s, l :: ls, e => l.start = s ∧ l.start < l.end_ ∧ Contiguous l.end_ ls e

/-- The group of lines `calculateWrap` makes of the unwrapped line `e`, without
links: the head and its continuation lines. -/
def wrapGroup (e : logEventLine) (pw : Nat) : List logEventLine :=
  (headLine e pw).data ::
    (List.range' 1 (wrapLineCount (len e.LogEvent.Message) pw - 1)).map fun j =>
      (contLine (headLine e pw) pw (wrapLineCount (len e.LogEvent.Message) pw) j none).data

/-! ## Stores and events used as concrete inputs -/

/-- An event with the given id and message. -/
def mkEvent (id msg : String) : LogEvent :=
  { EventID := id, Source := "", Timestamp := 0, Level := LogLevelInfo, Message := msg }

/-- An unwrapped line for an event, as `append` allocates it. -/
def freshLine (ev : LogEvent) (lineID : Nat) : logEventLine :=
  { LogEvent := ev, lineID := lineID, previous := none, next := none, styleSpans := [],
    start := 0, end_ := (len ev.Message : Int), order := 0, lineCount := 1 }

/-- A store of page width 2 whose only line is the unwrapped line of a five
byte message. -/
def storeOneLine : LogView :=
  { NewLogView 0 0 0 0 with
    heap := [freshLine (mkEvent "A" "abcde") 1]
    firstEvent := some 0
    lastEvent := some 0
    top := some 0
    pageWidth := 2
    pageHeight := 5 }

/-! ## Counting lines -/

/-- The number of lines `append` makes of a message of `n` bytes: `calculateWrap`
leaves the single line alone unless wrapping is enabled, the page width is
not 0 and the message is at least as long as the page width. -/
def appendLineCount (wrap : Bool) (pw n : Nat) : Nat :=
  if wrap = true ∧ pw ≠ 0 ∧ pw ≤ n then wrapLineCount n pw else 1

/-- The store is empty: no line was ever allocated or linked. -/
def IsEmptyStore (lv : LogView) : Prop :=
  lv.heap = [] ∧ lv.firstEvent = none ∧ lv.lastEvent = none ∧ lv.top = none ∧
    lv.eventCount = 0

instance (lv : LogView) : Decidable (IsEmptyStore lv) := by
  unfold IsEmptyStore
  infer_instance

/-- The quotient `n / d` rounded up, the `ceil(len(message)/pageWidth)` of the
specification. -/
def ceilDiv (n d : Nat) : Nat := (n + d - 1) / d

/-- An empty store of the given page size, settings as `NewLogView` leaves them
(wrapping and following enabled). -/
def storeOfSize (width height : Nat) : LogView :=
  { NewLogView 0 0 0 0 with pageWidth := width, pageHeight := height }

/-! ## Observing the list -/

/-- What a line shows of the structure of the list: its event, its slice
`[start, stop)` and its order. -/
structure LineShape where
  event : String
  start : Int
  stop : Int
  order : Int
  deriving DecidableEq, Repr

/-- The shape of a line. -/
def lineShape (l : logEventLine) : LineShape :=
  { event := l.LogEvent.EventID, start := l.start, stop := l.end_, order := l.order }

/-- The shapes of the lines of the list, in order. -/
def LogView.shape (lv : LogView) : List LineShape :=
  lv.lines.map lineShape

/-- Collapse consecutive equal entries of a list into one. -/
def collapse : List String → List String
  | [] => []
  | [a] => [a]
  | a :: b :: rest => if a = b then collapse (b :: rest) else a :: collapse (b :: rest)

/-- The events of the list: walk from `firstEvent` and collapse consecutive
lines of the same event. -/
def LogView.eventIDs (lv : LogView) : List String :=
  collapse (lv.lines.map fun l => l.LogEvent.EventID)

/-- A store of two unwrapped lines, as two appends to a new log view leave it. -/
def storeTwoLines : LogView :=
  { NewLogView 0 0 0 0 with
    heap := [{ freshLine (mkEvent "A" "a") 1 with
                 next := some 1
                 styleSpans := [{ start := 0, end_ := 1, style := (NewLogView 0 0 0 0).defaultStyle }] },
             { freshLine (mkEvent "B" "b") 2 with
                 previous := some 0
                 styleSpans := [{ start := 0, end_ := 1, style := (NewLogView 0 0 0 0).defaultStyle }] }]
    firstEvent := some 0
    lastEvent := some 1
    top := some 1
    eventCount := 2 }

/-! ## Coverage by style spans -/

/-- A span of the list holds the character position `p`; the span ends are
inclusive, as `buildSpans` writes them and `printLogLine` reads them. -/
def Covered (spans : List styledSpan) (p : Int) : Prop :=
  ∃ s ∈ spans, s.start ≤ p ∧ p ≤ s.end_

instance (spans : List styledSpan) (p : Int) : Decidable (Covered spans p) := by
  unfold Covered
  infer_instance

/-- A log view that highlights the group named "g". -/
def storeHighlightG : LogView :=
  { NewLogView 0 0 0 0 with
    highlightColors := fun name => if name = "g" then some { fg := 7, bg := 0, attrs := 0 } else none }

/-! ## Order of style spans and sample patterns -/

/-- The spans are in strictly increasing text order and do not overlap: no
span has `start > end + 1`, and each span starts after the end of the one
before it. -/
def spansOrdered : List styledSpan → Bool
  | [] => true
  | [s] => decide (s.start ≤ s.end_ + 1)
  | s :: t :: rest =>
    decide (s.start ≤ s.end_ + 1) && decide (s.end_ < t.start) && spansOrdered (t :: rest)

/-- The submatch indices with every group whose name has no registered style
replaced by (-1, -1), from group `i` on. -/
def maskUnregistered (highlightColors : String → Option Style) :
    List String → List Int → List Int
  | name :: names, st :: en :: rest =>
    (match highlightColors name with
      | some _ => [st, en]
      | none => [-1, -1]) ++ maskUnregistered highlightColors names rest
  | _, indices => indices

/-- A pattern without capture group that matches no message. -/
def patternNoMatch : Regexp :=
  { FindStringSubmatchIndex := fun _ => []
    SubexpNames := [""]
    names_ne_nil := by simp
    index_length := fun _ => Or.inl rfl }

/-- The pattern `(?P<g>a)` as far as the message "ab" goes: it matches the
first byte, which is also the group "g"; other messages are not matched. -/
def patternGroupG : Regexp :=
  { FindStringSubmatchIndex := fun s => if s = "ab" then [0, 1, 0, 1] else []
    SubexpNames := ["", "g"]
    names_ne_nil := by simp
    index_length := fun s => by
      by_cases h : s = "ab"
      · right; simp [h]
      · left; simp [h] }

/-- The pattern `a(?P<g>x)?` as far as the message "a" goes: it matches the
whole message and the group "g" does not participate. -/
def patternOptionalG : Regexp :=
  { FindStringSubmatchIndex := fun s => if s = "a" then [0, 1, -1, -1] else []
    SubexpNames := ["", "g"]
    names_ne_nil := by simp
    index_length := fun s => by
      by_cases h : s = "a"
      · right; simp [h]
      · left; simp [h] }

/-- A new log view with four distinct colours: text 1, background 2, warning
background 3, error background 4. -/
def newView : LogView := NewLogView 1 2 3 4

/-! ## Walking the list -/

/-- Following `next` from a pointer reaches nil within `fuel` lines, every
pointer on the way being the address of a line. -/
def reachesNil (heap : List logEventLine) : Nat → Option Nat → Bool
  | _, none => true
  | 0, some _ => false
  | fuel + 1, some a =>
    match heap[a]? with
    | none => false
    | some l => reachesNil heap fuel l.next

/-- The list of the log view ends: the walk over `next` from `firstEvent`
reaches nil.  A list without a cycle has at most as many lines as the heap
holds, which is the bound of the walk. -/
def ListEnds (lv : LogView) : Prop :=
  reachesNil lv.heap lv.heap.length lv.firstEvent = true

instance (lv : LogView) : Decidable (ListEnds lv) := by
  unfold ListEnds
  infer_instance

/-- The pointer reached from `p` by following `next` `k` times (nil once the
list is left). -/
def nextN (heap : List logEventLine) : Nat → Option Nat → Option Nat
  | 0, p => p
  | _ + 1, none => none
  | k + 1, some a =>
    match heap[a]? with
    | none => none
    | some l => nextN heap k l.next

/-! ## Further stores used as concrete inputs -/

/-- The continuation line of the message "ab" wrapped at page width 1. -/
def secondLineAB : logEventLine :=
  { LogEvent := mkEvent "A" "ab", lineID := 1, previous := some 0, next := none,
    styleSpans := [{ start := 0, end_ := 2, style := StyleDefault }],
    start := 1, end_ := 2, order := 2, lineCount := 2 }

/-- The store left by drawing a new log view at 1 by 5 and appending "ab":
the event is wrapped into two lines of orders 1 and 2. -/
def storeWrappedAB : LogView :=
  { NewLogView 0 0 0 0 with
    heap := [{ LogEvent := mkEvent "A" "ab", lineID := 1, previous := none, next := some 1,
               styleSpans := [{ start := 0, end_ := 2, style := StyleDefault }],
               start := 0, end_ := 1, order := 1, lineCount := 2 },
             secondLineAB]
    firstEvent := some 0
    lastEvent := some 1
    top := some 0
    eventCount := 2
    lastWidth := 1
    lastHeight := 5
    pageHeight := 5
    pageWidth := 1 }

/-- The unwrapped line of an event of level Error with the message "ab". -/
def errorLineAB : logEventLine :=
  freshLine { mkEvent "A" "ab" with Level := LogLevelError } 1

/-- A store with level highlighting, the pattern `(?P<g>a)` and a style
registered for "g" (foreground 7), holding the unwrapped line of an event of
level Error with the message "ab". -/
def storeErrorLine : LogView :=
  { newView with
    heap := [errorLineAB]
    firstEvent := some 0
    lastEvent := some 0
    top := some 0
    highlightLevels := true
    highlightPattern := some patternGroupG
    highlightColors := fun name =>
      if name = "g" then some { fg := 7, bg := 0, attrs := 0 } else none }

/-! ## Structural validity in the words of the specification -/

/-- The `previous` pointer of the line at an address, if a line is there. -/
def LogView.previousOf (lv : LogView) (a : Nat) : Option (Option Nat) :=
  (lv.heap[a]?).map fun l => l.previous

/-- The `next` pointer of the line at an address, if a line is there. -/
def LogView.nextOf (lv : LogView) (a : Nat) : Option (Option Nat) :=
  (lv.heap[a]?).map fun l => l.next

/-- The line `firstEvent` points to has no previous; in an empty list both
`firstEvent` and `lastEvent` are nil. -/
def FirstHasNoPrevious (lv : LogView) : Prop :=
  match lv.firstEvent with
  | none => lv.lastEvent = none
  | some f => lv.previousOf f = some none

/-- The line `lastEvent` points to has no next and is reached by the walk over
`next` from `firstEvent`; in an empty list both pointers are nil. -/
def LastHasNoNext (lv : LogView) : Prop :=
  match lv.lastEvent with
  | none => lv.firstEvent = none
  | some z => lv.nextOf z = some none ∧ z ∈ lv.lineAddrs

/-- For the line `l` at address `a`, if it has a next then
`l.next.previous == l`. -/
def NextPointsBack (lv : LogView) (a : Nat) : Prop :=
  match lv.nextOf a with
  | some (some m) => lv.previousOf m = some (some a)
  | _ => True

instance (lv : LogView) : Decidable (FirstHasNoPrevious lv) := by
  unfold FirstHasNoPrevious
  split <;> infer_instance

instance (lv : LogView) : Decidable (LastHasNoNext lv) := by
  unfold LastHasNoNext
  split <;> infer_instance

instance (lv : LogView) (a : Nat) : Decidable (NextPointsBack lv a) := by
  unfold NextPointsBack
  split <;> infer_instance

/-- The list is structurally valid, in the words of the specification:
`firstEvent` has no previous, `lastEvent` has no next, for every line `l` of
the list with a next `l.next.previous == l`, and the lines of the list are
those reached from `firstEvent`, the line of `lastEvent` among them. -/
def ListValid (lv : LogView) : Prop :=
  FirstHasNoPrevious lv ∧ LastHasNoNext lv ∧ ∀ a ∈ lv.lineAddrs, NextPointsBack lv a

instance (lv : LogView) : Decidable (ListValid lv) := by
  unfold ListValid
  infer_instance

/-! ## Stores for the list operations -/

/-- The store left by drawing a new log view at 2 by 5 and appending the events
"a", "bbb" and "c": four lines, the two in the middle the wrapped "bbb". -/
def storeThreeEvents : LogView :=
  match Draw (NewLogView 0 0 0 0) 2 5 >>= fun lv =>
      AppendEvents lv [mkEvent "A" "a", mkEvent "B" "bbb", mkEvent "C" "c"] with
  | .ok lv => lv
  | .error _ => NewLogView 0 0 0 0

/-- The store of three events with one more line allocated at address 4 and
not linked into the list. -/
def storeFreshLine : LogView :=
  (storeThreeEvents.alloc (freshLine (mkEvent "Z" "z") 5)).1

/-! ## Heap and list lemmas -/

theorem getElem?_set_self {α : Type} {h : List α} {n : Nat} {l : α} (x : α) (hn : h[n]? = some l) :
    (h.set n x)[n]? = some x := by
  have hlt : n < h.length := by
    by_contra hh
    rw [List.getElem?_eq_none (by omega)] at hn
    simp at hn
  simp [List.getElem?_set, hlt]

theorem lt_of_getElem? {α : Type} {h : List α} {n : Nat} {l : α} (hn : h[n]? = some l) :
    n < h.length := by
  by_contra hh
  rw [List.getElem?_eq_none (by omega)] at hn
  simp at hn

theorem Linked.get {heap : List logEventLine} {as : List Nat} (h : Linked heap as)
    {i a : Nat} (hi : as[i]? = some a) :
    ∃ l, heap[a]? = some l ∧ l.next = as[i + 1]? ∧
      l.previous = if i = 0 then none else as[i - 1]? := by
  have h1 := h.2 i (lt_of_getElem? hi)
  unfold linkedAt at h1
  rw [hi] at h1
  simp only at h1
  cases hh : heap[a]? with
  | none => rw [hh] at h1; exact h1.elim
  | some l => rw [hh] at h1; exact ⟨l, rfl, h1⟩

theorem Linked.of_get {heap : List logEventLine} {as : List Nat} (hnd : as.Nodup)
    (h : ∀ i a, as[i]? = some a → ∃ l, heap[a]? = some l ∧ l.next = as[i + 1]? ∧
      l.previous = if i = 0 then none else as[i - 1]?) : Linked heap as := by
  refine ⟨hnd, fun i hi => ?_⟩
  unfold linkedAt
  have hi' : as[i]? = some as[i] := List.getElem?_eq_getElem hi
  obtain ⟨l, hl, h2⟩ := h i _ hi'
  rw [hi']
  simp only [hl]
  exact h2

theorem Linked.mem {heap : List logEventLine} {as : List Nat} (h : Linked heap as)
    {a : Nat} (ha : a ∈ as) : ∃ l, heap[a]? = some l := by
  obtain ⟨i, hi⟩ := List.mem_iff_getElem?.1 ha
  obtain ⟨l, hl, _⟩ := h.get hi
  exact ⟨l, hl⟩

theorem Linked.nil (heap : List logEventLine) : Linked heap [] :=
  ⟨List.nodup_nil, fun i hi => by simp at hi⟩

theorem insertAfter_tail_eq (lv : LogView) (t n : Nat) (tl nl : logEventLine)
    (ht : lv.heap[t]? = some tl) (hn : lv.heap[n]? = some nl) (hne : t ≠ n)
    (htn : tl.next = none) (hlast : lv.lastEvent = some t) :
    insertAfter lv (some t) n = .ok ({ lv with heap := (lv.heap.set n { nl with previous := some t, next := none }).set t { tl with next := some n }, lastEvent := some n }, n) := by
  have hne2 : n ≠ t := Ne.symm hne
  simp [insertAfter, bind, Except.bind, pure, Except.pure, LogView.line, LogView.update, hn, ht,
    List.getElem?_set_ne, getElem?_set_self _ hn, hne, hne2, htn, hlast]

theorem insertAfter_nil_eq (lv : LogView) (n : Nat) :
    insertAfter lv none n = .ok ({ lv with firstEvent := some n, lastEvent := some n, top := some n }, n) := rfl

theorem Linked.frame {heap heap' : List logEventLine} {as : List Nat} (h : Linked heap as)
    (hf : ∀ a ∈ as, ∀ l, heap[a]? = some l →
      ∃ l', heap'[a]? = some l' ∧ l'.next = l.next ∧ l'.previous = l.previous) :
    Linked heap' as := by
  refine Linked.of_get h.1 fun i a hi => ?_
  obtain ⟨l, hl, hn, hp⟩ := h.get hi
  obtain ⟨l', hl', hn', hp'⟩ := hf a (List.mem_iff_getElem?.2 ⟨i, hi⟩) l hl
  exact ⟨l', hl', hn'.trans hn, hp'.trans hp⟩

theorem Linked.snoc {heap : List logEventLine} {as : List Nat} (heap' : List logEventLine)
    (n : Nat) (x : logEventLine) (h : Linked heap as) (hn : n ∉ as) (hx : heap'[n]? = some x) (hxn : x.next = none)
    (hxp : x.previous = as.getLast?)
    (hf : ∀ i a, as[i]? = some a → ∀ l, heap[a]? = some l →
      ∃ l', heap'[a]? = some l' ∧ l'.previous = l.previous ∧
        l'.next = if i + 1 = as.length then some n else l.next) :
    Linked heap' (as ++ [n]) := by
  refine Linked.of_get ?_ fun i a hi => ?_
  · rw [List.nodup_append]
    refine ⟨h.1, List.nodup_singleton n, ?_⟩
    intro a ha hb
    simp at hb
    exact hn (hb ▸ ha)
  · by_cases hlt : i < as.length
    · rw [List.getElem?_append_left hlt] at hi
      obtain ⟨l, hl, hnx, hp⟩ := h.get hi
      obtain ⟨l', hl', hp', hn'⟩ := hf i a hi l hl
      refine ⟨l', hl', ?_, ?_⟩
      · rw [hn']
        by_cases he : i + 1 = as.length
        · simp [he]
        · rw [if_neg he, hnx, List.getElem?_append_left (by omega)]
      · rw [hp', hp]
        by_cases h0 : i = 0
        · simp [h0]
        · rw [if_neg h0, if_neg h0, List.getElem?_append_left (by omega)]
    · have hlen : (as ++ [n]).length = as.length + 1 := by simp
      have hi2 : i = as.length := by
        have := lt_of_getElem? hi
        omega
      subst hi2
      simp at hi
      subst hi
      refine ⟨x, hx, ?_, ?_⟩
      · rw [hxn, List.getElem?_eq_none (by omega)]
      · rw [hxp]
        by_cases h0 : as.length = 0
        · have : as = [] := List.length_eq_zero.1 h0
          simp [this]
        · rw [if_neg h0, List.getElem?_append_left (by omega), List.getLast?_eq_getElem?]

theorem walk_linked {heap : List logEventLine} {as : List Nat} (h : Linked heap as) :
    ∀ fuel i, as.length ≤ i + fuel → walk heap fuel as[i]? = as.drop i := by
  intro fuel
  induction fuel with
  | zero =>
    intro i hi
    simp [walk, List.drop_eq_nil_of_le (show as.length ≤ i by omega)]
  | succ fuel ih =>
    intro i hi
    cases hai : as[i]? with
    | none =>
      have : as.length ≤ i := by
        by_contra hh
        rw [List.getElem?_eq_getElem (by omega)] at hai
        simp at hai
      simp [walk, List.drop_eq_nil_of_le this]
    | some a =>
      obtain ⟨l, hl, hn, _⟩ := h.get hai
      have hlt := lt_of_getElem? hai
      simp only [walk, hl, hn]
      rw [ih (i + 1) (by omega)]
      have : a = as[i] := by
        rw [List.getElem?_eq_getElem hlt] at hai
        exact (Option.some.inj hai).symm
      rw [this]
      exact (List.drop_eq_getElem_cons hlt).symm

theorem Linked.length_le {heap : List logEventLine} {as : List Nat} (h : Linked heap as) :
    as.length ≤ heap.length := by
  have hsub : as.toFinset ⊆ Finset.range heap.length := by
    intro a ha
    obtain ⟨l, hl⟩ := h.mem (List.mem_toFinset.1 ha)
    exact Finset.mem_range.2 (lt_of_getElem? hl)
  have := Finset.card_le_card hsub
  rwa [List.toFinset_card_of_nodup h.1, Finset.card_range] at this

theorem WellFormed.lineAddrs_eq {lv : LogView} {as : List Nat} (h : WellFormed lv as) :
    lv.lineAddrs = as := by
  unfold LogView.lineAddrs
  rw [h.2.1]
  have := walk_linked h.1 lv.heap.length 0 (by have := h.1.length_le; omega)
  rw [List.head?_eq_getElem?]
  simpa using this

theorem wrapLoop_succ_eq (lv : LogView) (H : List logEventLine) (event lines k i cur : Nat)
    (e tl : logEventLine) (he : H[event]? = some e) (ht : H[cur]? = some tl)
    (htn : tl.next = none) :
    wrapLoop event lines (k + 1) i { lv with heap := H, lastEvent := some cur } cur =
    wrapLoop event lines k (i + 1)
      { lv with heap := (H ++ [contLine e lv.pageWidth lines i (some cur)]).set cur
                  { tl with next := some H.length },
                lastEvent := some H.length } H.length := by
  have hev := lt_of_getElem? he
  have hcur := lt_of_getElem? ht
  have hne : cur ≠ H.length := by omega
  have h1 : ∀ x : logEventLine, (H ++ [x])[event]? = some e := fun x => by
    rw [List.getElem?_append_left hev]; exact he
  have h2 : ∀ x : logEventLine, (H ++ [x])[cur]? = some tl := fun x => by
    rw [List.getElem?_append_left hcur]; exact ht
  have h3 : ∀ x y : logEventLine, (H ++ [x]).set H.length y = H ++ [y] := fun x y => by
    simp
  rw [wrapLoop]
  simp only [bind, Except.bind, pure, Except.pure, LogView.line, LogView.update, LogView.alloc, he,
    List.getElem?_concat_length, h1, h2, h3]
  split
  · rename_i hh
    rw [insertAfter_tail_eq _ cur H.length tl _ (h2 _) (List.getElem?_concat_length _ _) hne htn rfl]
    simp only [h3, contLine, if_pos hh]
  · rename_i hh
    rw [insertAfter_tail_eq _ cur H.length tl _ (h2 _) (List.getElem?_concat_length _ _) hne htn rfl]
    simp only [h3, contLine, if_neg hh]


theorem data_contLine (e e' : logEventLine) (pw lines i : Nat) (p p' : Option Nat)
    (h : e.data = e'.data) : (contLine e pw lines i p).data = (contLine e' pw lines i p').data := by
  cases e; cases e'
  simp only [logEventLine.data, logEventLine.mk.injEq] at h
  simp [contLine, logEventLine.data, h]

theorem wrapLoop_tail (lv : LogView) (event lines : Nat) (d : logEventLine) :
    ∀ (k i : Nat) (H : List logEventLine) (as : List Nat) (cur : Nat),
      Linked H as → as.getLast? = some cur → event ∈ as →
      (H[event]?).map logEventLine.data = some d.data →
      ∃ H' cur', wrapLoop event lines k i { lv with heap := H, lastEvent := some cur } cur =
          .ok ({ lv with heap := H', lastEvent := some cur' }, cur') ∧
        Linked H' (as ++ List.range' H.length k) ∧
        (as ++ List.range' H.length k).getLast? = some cur' ∧
        H'.length = H.length + k ∧
        (∀ a, a < H.length → (H'[a]?).map logEventLine.data = (H[a]?).map logEventLine.data) ∧
        (∀ j, j < k → (H'[H.length + j]?).map logEventLine.data =
          some (contLine d lv.pageWidth lines (i + j) none).data) := by
  intro k
  induction k with
  | zero =>
    intro i H as cur hl hlast _ _
    exact ⟨H, cur, rfl, by simpa using hl, by simpa using hlast, rfl, fun _ _ => rfl,
      fun j hj => absurd hj (Nat.not_lt_zero j)⟩
  | succ k ih =>
    intro i H as cur hl hlast hmem hd
    have hcurmem : cur ∈ as := List.mem_of_getLast?_eq_some hlast
    have hlast' : as[as.length - 1]? = some cur := by
      rw [← List.getLast?_eq_getElem?]; exact hlast
    have hpos : 0 < as.length := List.length_pos_of_mem hcurmem
    obtain ⟨tl, htl, htn, _⟩ := hl.get hlast'
    have htn' : tl.next = none := by
      rw [htn, List.getElem?_eq_none (by omega)]
    obtain ⟨e, he⟩ := hl.mem hmem
    have hed : e.data = d.data := by
      rw [he] at hd
      simpa using hd
    have hev := lt_of_getElem? he
    have hcur := lt_of_getElem? htl
    rw [wrapLoop_succ_eq lv H event lines k i cur e tl he htl htn']
    -- the heap after one iteration
    have hH1 : ∀ a, a < H.length →
        ((H ++ [contLine e lv.pageWidth lines i (some cur)]).set cur
          { tl with next := some H.length })[a]? =
        if a = cur then some { tl with next := some H.length } else H[a]? := by
      intro a ha
      rw [List.getElem?_set]
      by_cases hc : cur = a
      · subst hc
        simp [hcur]
        omega
      · rw [if_neg hc, if_neg (Ne.symm hc), List.getElem?_append_left ha]
    have hH1n : ((H ++ [contLine e lv.pageWidth lines i (some cur)]).set cur
          { tl with next := some H.length })[H.length]? =
        some (contLine e lv.pageWidth lines i (some cur)) := by
      rw [List.getElem?_set_ne (by omega), List.getElem?_concat_length]
    have hlen1 : ((H ++ [contLine e lv.pageWidth lines i (some cur)]).set cur
          { tl with next := some H.length }).length = H.length + 1 := by simp
    have hnot : H.length ∉ as := fun hm => by
      obtain ⟨l, hl'⟩ := hl.mem hm
      exact absurd (lt_of_getElem? hl') (Nat.lt_irrefl _)
    have hlinked1 := Linked.snoc _ H.length _ hl hnot hH1n (by simp [contLine])
      (by simp [contLine, hlast]) (fun j a hj l hla => by
        have ha := lt_of_getElem? hla
        rw [hH1 a ha]
        by_cases hc : a = cur
        · subst hc
          have hjl : j = as.length - 1 :=
            List.getElem?_inj (lt_of_getElem? hj) hl.1 (hj.trans hlast'.symm)
          have : l = tl := by
            rw [htl] at hla
            exact (Option.some.inj hla).symm
          subst this
          refine ⟨_, if_pos rfl, rfl, ?_⟩
          rw [if_pos (by omega)]
        · refine ⟨l, by rw [if_neg hc, hla], rfl, ?_⟩
          have : j + 1 ≠ as.length := fun hh => by
            apply hc
            have : j = as.length - 1 := by omega
            rw [this, hlast'] at hj
            exact (Option.some.inj hj).symm
          rw [if_neg this])
    have hd1 : ∀ a, a < H.length →
        (((H ++ [contLine e lv.pageWidth lines i (some cur)]).set cur
          { tl with next := some H.length })[a]?).map logEventLine.data =
        (H[a]?).map logEventLine.data := by
      intro a ha
      rw [hH1 a ha]
      by_cases hc : a = cur
      · subst hc
        rw [if_pos rfl, htl]
        simp [logEventLine.data]
      · rw [if_neg hc]
    obtain ⟨H', cur', hrun, hl', hlast2, hlen', hfr, hnew⟩ :=
      ih (i + 1) _ (as ++ [H.length]) H.length hlinked1 (by simp)
        (List.mem_append_left _ hmem) (by rw [hd1 event hev, hd])
    refine ⟨H', cur', hrun, ?_, ?_, ?_, ?_, ?_⟩
    · rw [hlen1] at hl'
      rw [List.range'_succ]
      simpa using hl'
    · rw [hlen1] at hlast2
      rw [List.range'_succ]
      simpa using hlast2
    · rw [hlen', hlen1]; omega
    · intro a ha
      rw [hfr a (by rw [hlen1]; omega), hd1 a ha]
    · intro j hj
      cases j with
      | zero =>
        rw [Nat.add_zero, hfr _ (by rw [hlen1]; omega), hH1n]
        simp only [Option.map_some', Nat.add_zero]
        rw [data_contLine e d _ _ _ _ none hed]
      | succ j =>
        have := hnew j (by omega)
        rw [hlen1] at this
        rw [show H.length + (j + 1) = H.length + 1 + j by omega, this,
          show i + 1 + j = i + (j + 1) by omega]

theorem calculateWrap_tail_eq (lv : LogView) (a : Nat) (e : logEventLine)
    (he : lv.heap[a]? = some e) (ho : e.order = 0) (hw : lv.wrap = true)
    (hpw : 0 < lv.pageWidth) (hlen : lv.pageWidth ≤ len e.LogEvent.Message) :
    calculateWrap lv a =
      wrapLoop a (wrapLineCount (len e.LogEvent.Message) lv.pageWidth)
        (wrapLineCount (len e.LogEvent.Message) lv.pageWidth - 1) 1
        { lv with heap := lv.heap.set a (headLine e lv.pageWidth) } a := by
  have h0 : lv.pageWidth ≠ 0 := by omega
  have h1 : ¬ len e.LogEvent.Message < lv.pageWidth := by omega
  simp [calculateWrap, bind, Except.bind, pure, Except.pure, LogView.line, LogView.update, he, ho,
    hw, h0, h1, getElem?_set_self _ he, List.set_set, headLine]

theorem calculateWrap_tail (lv : LogView) (as : List Nat) (a : Nat) (e : logEventLine)
    (hl : Linked lv.heap as) (hlast : as.getLast? = some a) (hlv : lv.lastEvent = some a)
    (he : lv.heap[a]? = some e) (ho : e.order = 0) (hw : lv.wrap = true)
    (hpw : 0 < lv.pageWidth) (hlen : lv.pageWidth ≤ len e.LogEvent.Message) :
    ∃ H' t, calculateWrap lv a = .ok ({ lv with heap := H', lastEvent := some t }, t) ∧
      Linked H' (as ++ List.range' lv.heap.length
        (wrapLineCount (len e.LogEvent.Message) lv.pageWidth - 1)) ∧
      (as ++ List.range' lv.heap.length
        (wrapLineCount (len e.LogEvent.Message) lv.pageWidth - 1)).getLast? = some t ∧
      H'.length = lv.heap.length + (wrapLineCount (len e.LogEvent.Message) lv.pageWidth - 1) ∧
      (∀ b, b < lv.heap.length → b ≠ a →
        (H'[b]?).map logEventLine.data = (lv.heap[b]?).map logEventLine.data) ∧
      (H'[a]?).map logEventLine.data = some (headLine e lv.pageWidth).data ∧
      (∀ j, j < wrapLineCount (len e.LogEvent.Message) lv.pageWidth - 1 →
        (H'[lv.heap.length + j]?).map logEventLine.data =
          some (contLine (headLine e lv.pageWidth) lv.pageWidth
            (wrapLineCount (len e.LogEvent.Message) lv.pageWidth) (1 + j) none).data) := by
  have ha := lt_of_getElem? he
  have hmem : a ∈ as := List.mem_of_getLast?_eq_some hlast
  have hH4 : ∀ b, (lv.heap.set a (headLine e lv.pageWidth))[b]? =
      if b = a then some (headLine e lv.pageWidth) else lv.heap[b]? := by
    intro b
    rw [List.getElem?_set]
    by_cases hc : a = b
    · subst hc; simp [ha]
    · rw [if_neg hc, if_neg (Ne.symm hc)]
  have hl4 : Linked (lv.heap.set a (headLine e lv.pageWidth)) as := by
    refine hl.frame fun b _ l hb => ?_
    rw [hH4 b]
    by_cases hc : b = a
    · subst hc
      rw [he] at hb
      cases hb
      exact ⟨_, if_pos rfl, rfl, rfl⟩
    · exact ⟨l, by rw [if_neg hc, hb], rfl, rfl⟩
  have hst : ({ lv with heap := lv.heap.set a (headLine e lv.pageWidth) } : LogView) =
      { lv with heap := lv.heap.set a (headLine e lv.pageWidth), lastEvent := some a } := by
    rw [← hlv]
  obtain ⟨H', t, hrun, hl', hlast', hlen', hfr, hnew⟩ :=
    wrapLoop_tail lv a (wrapLineCount (len e.LogEvent.Message) lv.pageWidth)
      (headLine e lv.pageWidth)
      (wrapLineCount (len e.LogEvent.Message) lv.pageWidth - 1) 1 _ as a hl4 hlast hmem
      (by rw [hH4 a, if_pos rfl]; rfl)
  have hlen4 : (lv.heap.set a (headLine e lv.pageWidth)).length = lv.heap.length := by simp
  rw [hlen4] at hl' hlast' hlen' hfr hnew
  refine ⟨H', t, ?_, hl', hlast', hlen', ?_, ?_, hnew⟩
  · rw [calculateWrap_tail_eq lv a e he ho hw hpw hlen, hst]
    exact hrun
  · intro b hb hne
    rw [hfr b hb, hH4 b, if_neg hne]
  · rw [hfr a ha, hH4 a, if_pos rfl]
    rfl

theorem wrapLineCount_bounds {n pw : Nat} (hpw : 0 < pw) (hn : pw ≤ n) :
    1 ≤ wrapLineCount n pw ∧ pw * (wrapLineCount n pw - 1) < n ∧ n ≤ pw * wrapLineCount n pw := by
  have hdm := Nat.div_add_mod n pw
  have hmod := Nat.mod_lt n hpw
  have hq : 1 ≤ n / pw := (Nat.one_le_div_iff hpw).2 hn
  unfold wrapLineCount
  by_cases hr : n % pw ≠ 0
  · rw [if_pos hr]
    refine ⟨by omega, ?_, ?_⟩
    · rw [Nat.add_sub_cancel]; omega
    · rw [Nat.mul_add, Nat.mul_one]; omega
  · rw [if_neg hr]
    obtain ⟨q, hq'⟩ : ∃ q, n / pw = q + 1 := ⟨n / pw - 1, by omega⟩
    rw [hq'] at hdm ⊢
    rw [Nat.mul_add, Nat.mul_one] at hdm
    refine ⟨by omega, ?_, ?_⟩
    · rw [Nat.add_sub_cancel]; omega
    · rw [Nat.mul_add, Nat.mul_one]; omega

theorem wrapLineCount_eq_one {n pw : Nat} (hpw : 0 < pw) (hn : pw ≤ n)
    (h : wrapLineCount n pw = 1) : n = pw := by
  obtain ⟨_, h2, h3⟩ := wrapLineCount_bounds hpw hn
  rw [h] at h3
  omega

theorem Contiguous.le {s e : Int} {ls : List logEventLine} (h : Contiguous s ls e) : s ≤ e := by
  induction ls generalizing s with
  | nil => exact le_of_eq h
  | cons l ls ih =>
    obtain ⟨h1, h2, h3⟩ := h
    have := ih h3
    omega

theorem Contiguous.map_data {s e : Int} {ls : List logEventLine} :
    Contiguous s (ls.map logEventLine.data) e ↔ Contiguous s ls e := by
  induction ls generalizing s with
  | nil => exact Iff.rfl
  | cons l ls ih =>
    simp only [List.map_cons, Contiguous]
    rw [ih]
    exact Iff.rfl

theorem slice_append (bs : List UInt8) {a b c : Int} (hab : a ≤ b) (hbc : b ≤ c) :
    slice bs a b ++ slice bs b c = slice bs a c := by
  unfold slice
  have h1 : b.toNat = a.toNat + (b.toNat - a.toNat) := by omega
  have h2 : c.toNat - a.toNat = (b.toNat - a.toNat) + (c.toNat - b.toNat) := by omega
  rw [h2, List.take_add]
  congr 2
  rw [List.drop_drop]
  congr 1

theorem Contiguous.join_slice (bs : List UInt8) {s e : Int} {ls : List logEventLine}
    (h : Contiguous s ls e) (hs : 0 ≤ s) :
    (ls.map fun l => slice bs l.start l.end_).flatten = slice bs s e := by
  induction ls generalizing s with
  | nil =>
    have : s = e := h
    subst this
    simp [slice]
  | cons l ls ih =>
    obtain ⟨h1, h2, h3⟩ := h
    rw [List.map_cons, List.flatten_cons, ih h3 (by omega), ← h1]
    exact slice_append bs (le_of_lt h2) h3.le

theorem slice_all (s : String) : slice (bytes s) 0 (len s : Int) = bytes s := by
  have : (bytes s).length = len s := by
    simp [bytes, len, ← String.size_toUTF8, ByteArray.size]
  simp [slice, ← this]

theorem contiguous_cont (e : logEventLine) (pw n L : Nat) (hn : n = len e.LogEvent.Message)
    (hlast : pw * (L - 1) < n) (hpw : 0 < pw) :
    ∀ k i, i + k + 1 = L →
      Contiguous ((pw * i : Nat) : Int)
        ((List.range' i (k + 1)).map fun j => (contLine e pw L j none).data) n := by
  intro k
  induction k with
  | zero =>
    intro i hi
    have hiL : i = L - 1 := by omega
    simp only [List.range'_succ, List.range'_zero, List.map_cons, List.map_nil, Contiguous,
      contLine, logEventLine.data, if_pos hiL]
    subst hiL
    refine ⟨trivial, ?_, ?_⟩ <;> omega
  | succ k ih =>
    intro i hi
    have hiL : i ≠ L - 1 := by omega
    rw [List.range'_succ, List.map_cons]
    refine ⟨rfl, ?_, ?_⟩
    · simp only [contLine, logEventLine.data, if_neg hiL]
      omega
    · have := ih (i + 1) (by omega)
      simp only [contLine, logEventLine.data, if_neg hiL]
      rw [show ((pw * i : Nat) : Int) + (pw : Int) = ((pw * (i + 1) : Nat) : Int) by
        push_cast; ring]
      exact this

theorem wrapGroup_contiguous (e : logEventLine) (pw : Nat) (hpw : 0 < pw)
    (hlen : pw ≤ len e.LogEvent.Message) :
    Contiguous 0 (wrapGroup e pw) (len e.LogEvent.Message) := by
  obtain ⟨h1, h2, h3⟩ := wrapLineCount_bounds hpw hlen
  unfold wrapGroup
  refine ⟨rfl, ?_, ?_⟩
  · simp only [headLine, logEventLine.data]
    omega
  · by_cases hL : wrapLineCount (len e.LogEvent.Message) pw = 1
    · have := wrapLineCount_eq_one hpw hlen hL
      simp only [hL, Nat.sub_self, List.range_zero, List.map_nil, Contiguous, headLine,
        logEventLine.data]
      omega
    · obtain ⟨k, hk⟩ : ∃ k, wrapLineCount (len e.LogEvent.Message) pw - 1 = k + 1 :=
        ⟨wrapLineCount (len e.LogEvent.Message) pw - 2, by omega⟩
      have := contiguous_cont (headLine e pw) pw (len e.LogEvent.Message)
        (wrapLineCount (len e.LogEvent.Message) pw) rfl h2 hpw k 1 (by omega)
      rw [hk]
      simpa [headLine, logEventLine.data] using this

theorem filterMap_data (H : List logEventLine) :
    ∀ (g : List Nat) (ds : List logEventLine),
      g.map (fun b => (H[b]?).map logEventLine.data) = ds.map some →
      (g.filterMap fun b => H[b]?).map logEventLine.data = ds := by
  intro g
  induction g with
  | nil =>
    intro ds h
    cases ds with
    | nil => rfl
    | cons d ds => simp at h
  | cons b g ih =>
    intro ds h
    cases ds with
    | nil => simp at h
    | cons d ds =>
      simp only [List.map_cons, List.cons.injEq] at h
      obtain ⟨h1, h2⟩ := h
      cases hb : H[b]? with
      | none => rw [hb] at h1; simp at h1
      | some l =>
        rw [hb] at h1
        simp only [Option.map_some', Option.some.injEq] at h1
        rw [List.filterMap_cons_some hb, List.map_cons, h1, ih ds h2]

theorem wrapGroup_length (e : logEventLine) (pw : Nat) (hpw : 0 < pw)
    (hlen : pw ≤ len e.LogEvent.Message) :
    (wrapGroup e pw).length = wrapLineCount (len e.LogEvent.Message) pw := by
  have := (wrapLineCount_bounds hpw hlen).1
  simp [wrapGroup]
  omega

theorem wrapGroup_event (e : logEventLine) (pw : Nat) :
    ∀ l ∈ wrapGroup e pw, l.LogEvent = e.LogEvent := by
  intro l hl
  simp only [wrapGroup, List.mem_cons, List.mem_map] at hl
  rcases hl with h | ⟨j, _, h⟩
  · rw [h]; rfl
  · rw [← h]; rfl

theorem wrapGroup_order (e : logEventLine) (pw : Nat) (hpw : 0 < pw)
    (hlen : pw ≤ len e.LogEvent.Message) :
    (wrapGroup e pw).map (fun l => l.order) =
      (List.range' 1 (wrapLineCount (len e.LogEvent.Message) pw)).map Int.ofNat := by
  have h1 := (wrapLineCount_bounds hpw hlen).1
  obtain ⟨k, hk⟩ : ∃ k, wrapLineCount (len e.LogEvent.Message) pw = k + 1 :=
    ⟨wrapLineCount (len e.LogEvent.Message) pw - 1, by omega⟩
  simp only [wrapGroup, hk, Nat.add_sub_cancel, List.map_cons, List.map_map]
  rw [List.range'_succ, List.map_cons]
  congr 1
  rw [List.range'_eq_map_range, List.range'_eq_map_range, List.map_map, List.map_map]
  apply List.map_congr_left
  intro j _
  simp [contLine, logEventLine.data]
  omega

theorem drop_length_sub_one {l : List Nat} {a : Nat} (h : l.getLast? = some a) :
    l.drop (l.length - 1) = [a] := by
  have hne : l ≠ [] := by
    intro h0; rw [h0] at h; simp at h
  have hpos : 0 < l.length := List.length_pos.2 hne
  rw [List.getLast?_eq_getElem?, List.getElem?_eq_getElem (by omega)] at h
  rw [List.drop_eq_getElem_cons (by omega), Option.some.inj h,
    List.drop_eq_nil_of_le (by omega)]

theorem getLast?_append_of_getLast? {l r : List Nat} {a : Nat} (h : l.getLast? = some a) :
    (l ++ r).getLast? = (a :: r).getLast? := by
  rw [List.getLast?_append, h, ← List.singleton_append, List.getLast?_append]
  rfl

theorem calculateWrap_group (lv : LogView) (as : List Nat) (a : Nat) (e : logEventLine)
    (hwf : WellFormed lv as) (hlast : as.getLast? = some a)
    (he : lv.heap[a]? = some e) (ho : e.order = 0) (hw : lv.wrap = true)
    (hpw : 0 < lv.pageWidth) (hlen : lv.pageWidth ≤ len e.LogEvent.Message) :
    ∃ lv' t, calculateWrap lv a = .ok (lv', t) ∧
      WellFormed lv' (as ++ List.range' lv.heap.length
        (wrapLineCount (len e.LogEvent.Message) lv.pageWidth - 1)) ∧
      walk lv'.heap lv'.heap.length (some a) = a :: List.range' lv.heap.length
        (wrapLineCount (len e.LogEvent.Message) lv.pageWidth - 1) ∧
      (a :: List.range' lv.heap.length
        (wrapLineCount (len e.LogEvent.Message) lv.pageWidth - 1)).getLast? = some t ∧
      (lv'.linesFrom (some a)).map logEventLine.data = wrapGroup e lv.pageWidth := by
  obtain ⟨hl, hfirst, hlv⟩ := hwf
  rw [hlast] at hlv
  obtain ⟨H', t, hrun, hl', hlast', hlen', hfr, hhead, hnew⟩ :=
    calculateWrap_tail lv as a e hl hlast hlv he ho hw hpw hlen
  have hne : as ≠ [] := by
    intro h; rw [h] at hlast; simp at hlast
  have hpos : 0 < as.length := List.length_pos.2 hne
  have hsplit : as = as.dropLast ++ [a] := by
    have := List.dropLast_append_getLast? a (by simpa using hlast)
    exact this.symm
  have hdl : as.dropLast.length = as.length - 1 := by simp
  have hwalk : walk H' H'.length (some a) = a :: List.range' lv.heap.length
      (wrapLineCount (len e.LogEvent.Message) lv.pageWidth - 1) := by
    have hidx : (as ++ List.range' lv.heap.length
        (wrapLineCount (len e.LogEvent.Message) lv.pageWidth - 1))[as.length - 1]? = some a := by
      rw [List.getElem?_append_left (by omega), ← List.getLast?_eq_getElem?, hlast]
    have := walk_linked hl' H'.length (as.length - 1) (by have := hl'.length_le; omega)
    rw [hidx] at this
    rw [this, List.drop_append_of_le_length (by omega)]
    rw [drop_length_sub_one hlast]
    rfl
  refine ⟨_, t, hrun, ⟨hl', ?_, hlast'.symm⟩, hwalk, ?_, ?_⟩
  · show lv.firstEvent = _
    rw [hfirst, List.head?_append_of_ne_nil _ hne]
  · rw [← hlast', getLast?_append_of_getLast? hlast]
  · unfold LogView.linesFrom
    show (List.filterMap (fun b => H'[b]?) (walk H' H'.length (some a))).map _ = _
    rw [hwalk]
    apply filterMap_data
    simp only [wrapGroup, List.map_cons, hhead, List.map_map]
    congr 1
    rw [List.range'_eq_map_range, List.range'_eq_map_range, List.map_map, List.map_map]
    apply List.map_congr_left
    intro j hj
    have hj' : j < wrapLineCount (len e.LogEvent.Message) lv.pageWidth - 1 := by
      simpa using hj
    simpa using hnew j hj'

/-- C1 (wrap partition).  Let `a` be the last line of a well-formed list, with
order 0 (a freshly appended line), wrapping enabled, `pageWidth > 0` and a
message of at least `pageWidth` bytes.  Then `calculateWrap` returns, and the
lines from `a` on form the group: they take the place of `a` at the end of the
list, the returned line is the last of them, they all belong to the event of
`a`, their slices run from 0 to `len(message)` each starting where the one
before ends (no gap, no overlap), the sliced substrings concatenated give the
message, and the head's `lineCount` is the number of lines of the group. -/
theorem calculateWrap_partition (lv : LogView) (as : List Nat) (a : Nat) (e : logEventLine)
    (hwf : WellFormed lv as) (hlast : as.getLast? = some a)
    (he : lv.heap[a]? = some e) (ho : e.order = 0) (hw : lv.wrap = true)
    (hpw : 0 < lv.pageWidth) (hlen : lv.pageWidth ≤ len e.LogEvent.Message) :
    ∃ lv' t, calculateWrap lv a = .ok (lv', t) ∧
      lv'.lineAddrs = as.dropLast ++ walk lv'.heap lv'.heap.length (some a) ∧
      (walk lv'.heap lv'.heap.length (some a)).getLast? = some t ∧
      (∀ l ∈ lv'.linesFrom (some a), l.LogEvent = e.LogEvent) ∧
      Contiguous 0 (lv'.linesFrom (some a)) (len e.LogEvent.Message) ∧
      ((lv'.linesFrom (some a)).map fun l =>
        slice (bytes e.LogEvent.Message) l.start l.end_).flatten = bytes e.LogEvent.Message ∧
      (lv'.linesFrom (some a)).head?.map (fun l => l.lineCount) =
        some (lv'.linesFrom (some a)).length := by
  obtain ⟨lv', t, hrun, hwf', hwalk, hlast', hdata⟩ :=
    calculateWrap_group lv as a e hwf hlast he ho hw hpw hlen
  have hcont : Contiguous 0 (lv'.linesFrom (some a)) (len e.LogEvent.Message) := by
    rw [← Contiguous.map_data, hdata]
    exact wrapGroup_contiguous e lv.pageWidth hpw hlen
  have hlength : (lv'.linesFrom (some a)).length =
      wrapLineCount (len e.LogEvent.Message) lv.pageWidth := by
    rw [← wrapGroup_length e lv.pageWidth hpw hlen, ← hdata, List.length_map]
  refine ⟨lv', t, hrun, ?_, ?_, ?_, hcont, ?_, ?_⟩
  · rw [hwf'.lineAddrs_eq, hwalk]
    have hsplit : as.dropLast ++ [a] = as :=
      List.dropLast_append_getLast? a (by simpa using hlast)
    rw [← List.singleton_append, ← List.append_assoc, hsplit]
  · rw [hwalk, hlast']
  · intro l hl
    have : l.data ∈ wrapGroup e lv.pageWidth := by
      rw [← hdata]; exact List.mem_map_of_mem _ hl
    show l.data.LogEvent = e.LogEvent
    exact wrapGroup_event e lv.pageWidth _ this
  · rw [hcont.join_slice (bytes e.LogEvent.Message) (le_refl 0)]
    exact slice_all _
  · rw [hlength]
    have h1 : ((lv'.linesFrom (some a)).map logEventLine.data).head? =
        some (headLine e lv.pageWidth).data := by
      rw [hdata]; rfl
    rw [List.head?_map] at h1
    cases hh : (lv'.linesFrom (some a)).head? with
    | none => rw [hh] at h1; simp at h1
    | some l =>
      rw [hh] at h1
      simp only [Option.map_some', Option.some.injEq] at h1 ⊢
      have : l.data.lineCount = (headLine e lv.pageWidth).data.lineCount := by rw [h1]
      exact this

/-- Witness of C1: the store whose only line is the unwrapped line of the
message "abcde", at page width 2. -/
theorem calculateWrap_partition_witness :
    WellFormed storeOneLine [0] ∧ [0].getLast? = some 0 ∧
    storeOneLine.heap[0]? = some (freshLine (mkEvent "A" "abcde") 1) ∧
    ∃ lv' t, calculateWrap storeOneLine 0 = .ok (lv', t) ∧
      lv'.lineAddrs = [0].dropLast ++ walk lv'.heap lv'.heap.length (some 0) ∧
      (walk lv'.heap lv'.heap.length (some 0)).getLast? = some t ∧
      (∀ l ∈ lv'.linesFrom (some 0), l.LogEvent = mkEvent "A" "abcde") ∧
      Contiguous 0 (lv'.linesFrom (some 0)) (len "abcde") ∧
      ((lv'.linesFrom (some 0)).map fun l =>
        slice (bytes "abcde") l.start l.end_).flatten = bytes "abcde" ∧
      (lv'.linesFrom (some 0)).head?.map (fun l => l.lineCount) =
        some (lv'.linesFrom (some 0)).length :=
  ⟨by decide, by decide, by decide,
    calculateWrap_partition storeOneLine [0] 0 (freshLine (mkEvent "A" "abcde") 1)
      (by decide) (by decide) (by decide) (by decide) (by decide) (by decide) (by decide)⟩

theorem line_eq {lv : LogView} {a : Nat} {l : logEventLine} (h : lv.heap[a]? = some l) :
    lv.line (some a) = .ok l := by
  simp [LogView.line, h]

theorem update_eq {lv : LogView} {a : Nat} {l : logEventLine} (f : logEventLine → logEventLine)
    (h : lv.heap[a]? = some l) :
    lv.update (some a) f = .ok { lv with heap := lv.heap.set a (f l) } := by
  simp [LogView.update, h]

theorem atOffsetLoop_forward {lv : LogView} {as : List Nat} (hwf : WellFormed lv as)
    {offset : Int} (hpos : 0 < offset) :
    ∀ steps i, i < as.length →
      atOffsetLoop lv offset steps as[i]? = .ok as[min (i + steps) (as.length - 1)]? := by
  obtain ⟨hl, _, hlastE⟩ := hwf
  intro steps
  induction steps with
  | zero =>
    intro i hi
    rw [show min (i + 0) (as.length - 1) = i by omega]
    rfl
  | succ steps ih =>
    intro i hi
    have hnn : ¬ offset < 0 := by omega
    by_cases hlast : i = as.length - 1
    · have hc : as[i]? = lv.lastEvent := by
        rw [hlastE, List.getLast?_eq_getElem?, hlast]
      rw [show min (i + (steps + 1)) (as.length - 1) = i by omega]
      simp [atOffsetLoop, hc, hpos]
    · have hc : ¬ as[i]? = lv.lastEvent := by
        rw [hlastE, List.getLast?_eq_getElem?]
        intro h
        exact hlast (List.getElem?_inj hi hl.1 h)
      obtain ⟨l, hla, hn, _⟩ := hl.get (List.getElem?_eq_getElem hi)
      have hline : lv.line as[i]? = .ok l := by
        rw [List.getElem?_eq_getElem hi]
        exact line_eq hla
      rw [atOffsetLoop, if_neg (by simp [hc, hnn])]
      simp only [bind, Except.bind, hline, if_neg hnn, hn]
      rw [ih (i + 1) (by omega)]
      congr 2
      omega

theorem atOffsetLoop_backward {lv : LogView} {as : List Nat} (hwf : WellFormed lv as)
    {offset : Int} (hneg : offset < 0) :
    ∀ steps i, i < as.length → atOffsetLoop lv offset steps as[i]? = .ok as[i - steps]? := by
  obtain ⟨hl, hfirstE, _⟩ := hwf
  intro steps
  induction steps with
  | zero =>
    intro i hi
    rfl
  | succ steps ih =>
    intro i hi
    have hnn : ¬ offset > 0 := by omega
    by_cases hfirst : i = 0
    · have hc : as[i]? = lv.firstEvent := by
        rw [hfirstE, List.head?_eq_getElem?, hfirst]
      rw [show i - (steps + 1) = i by omega]
      simp [atOffsetLoop, hc, hneg]
    · have hc : ¬ as[i]? = lv.firstEvent := by
        rw [hfirstE, List.head?_eq_getElem?]
        intro h
        exact hfirst (List.getElem?_inj hi hl.1 h)
      obtain ⟨l, hla, _, hp⟩ := hl.get (List.getElem?_eq_getElem hi)
      have hline : lv.line as[i]? = .ok l := by
        rw [List.getElem?_eq_getElem hi]
        exact line_eq hla
      rw [atOffsetLoop, if_neg (by simp [hc, hnn])]
      simp only [bind, Except.bind, hline, if_pos hneg, hp, if_neg hfirst]
      rw [ih (i - 1) (by omega)]
      congr 2
      omega

theorem wrapInt_neg {offset : Int} (h1 : -2 ^ 63 < offset) (h2 : offset < 0) :
    wrapInt (-offset) = -offset := by
  unfold wrapInt
  omega

/-- On a well-formed list `atOffset` clamps, for every offset of the `int`
range other than its least value. -/
theorem atOffset_clamp {lv : LogView} {as : List Nat} (hwf : WellFormed lv as)
    (i : Nat) (hi : i < as.length) (offset : Int) (hmin : -2 ^ 63 < offset) :
    atOffset lv as[i]? offset =
      .ok as[(min (max ((i : Int) + offset) 0) ((as.length : Int) - 1)).toNat]? := by
  unfold atOffset
  by_cases h0 : offset = 0
  · subst h0
    rw [if_pos rfl]
    congr 2
    omega
  · rw [if_neg h0]
    by_cases hpos : offset > 0
    · simp only [if_pos hpos]
      rw [atOffsetLoop_forward hwf hpos _ i hi]
      congr 2
      omega
    · have hneg : offset < 0 := by omega
      simp only [if_neg hpos, wrapInt_neg hmin hneg]
      rw [atOffsetLoop_backward hwf hneg _ i hi]
      congr 2
      omega

theorem buildSpansLoop_ok (hc : String → Option Style) (gi : List Int) (ds : Style) (u : Bool)
    (dbg : Color) :
    ∀ (names : List String) (i : Nat) (pos : Int) (spans : List styledSpan),
      2 * (i + names.length) ≤ gi.length →
      ∃ r, buildSpansLoop hc gi ds u dbg i names pos spans = .ok r := by
  intro names
  induction names with
  | nil => intro i pos spans _; exact ⟨_, rfl⟩
  | cons name rest ih =>
    intro i pos spans h
    simp only [List.length_cons] at h
    have h1 : i * 2 < gi.length := by omega
    have h2 : i * 2 + 1 < gi.length := by omega
    rw [buildSpansLoop, List.getElem?_eq_getElem h1, List.getElem?_eq_getElem h2]
    simp only
    split
    · cases hc name with
      | none => exact ih _ _ _ (by omega)
      | some st => exact ih _ _ _ (by omega)
    · exact ih _ _ _ (by omega)

theorem buildSpans_ok (lv : LogView) (text : String) (gi : List Int) (names : List String)
    (ds : Style) (u : Bool) (h : 2 * names.length ≤ gi.length) :
    ∃ spans, buildSpans lv text gi names ds u = .ok spans := by
  obtain ⟨⟨pos, spans⟩, hr⟩ := buildSpansLoop_ok lv.highlightColors gi ds u ds.Decompose.2.1
    names 0 0 [] (by omega)
  unfold buildSpans
  simp only [bind, Except.bind, hr, pure, Except.pure]
  split <;> exact ⟨_, rfl⟩

theorem colorize_ok (lv : LogView) (n : Nat) (l : logEventLine) (hl : lv.heap[n]? = some l)
    (ho : l.order = 0) :
    ∃ spans, colorize lv n =
      .ok { lv with heap := lv.heap.set n { l with styleSpans := spans } } := by
  have hself : lv = { lv with heap := lv.heap.set n { l with styleSpans := l.styleSpans } } := by
    have : lv.heap.set n l = lv.heap := by
      apply List.ext_getElem?
      intro i
      rw [List.getElem?_set]
      by_cases h : n = i
      · subst h; simp [hl, lt_of_getElem? hl]
      · simp [h]
    show lv = { lv with heap := lv.heap.set n l }
    rw [this]
  unfold colorize
  simp only [bind, Except.bind, line_eq hl]
  rw [if_neg (by simp [ho])]
  cases hen : lv.highlightingEnabled with
  | false =>
    refine ⟨
      [{ start := 0, end_ := (len l.LogEvent.Message : Int),
         style :=
          if (lv.highlightLevels && l.LogEvent.Level != LogLevelInfo) = true then
            if l.LogEvent.Level = LogLevelWarning then lv.defaultStyle.Background lv.warningBgColor
            else lv.defaultStyle.Background lv.errorBgColor
          else lv.defaultStyle }], ?_⟩
    simp only [update_eq _ hl, hen]
  | true =>
    cases hp : lv.highlightPattern with
    | none =>
      refine ⟨
      [{ start := 0, end_ := (len l.LogEvent.Message : Int),
         style :=
          if (lv.highlightLevels && l.LogEvent.Level != LogLevelInfo) = true then
            if l.LogEvent.Level = LogLevelWarning then lv.defaultStyle.Background lv.warningBgColor
            else lv.defaultStyle.Background lv.errorBgColor
          else lv.defaultStyle }], ?_⟩
      simp only [update_eq _ hl, hen, hp]
    | some pattern =>
      simp only
      by_cases h0 : (pattern.FindStringSubmatchIndex l.LogEvent.Message).length = 0
      · rw [if_pos h0]
        refine ⟨l.styleSpans, ?_⟩
        rw [← hen, ← hp, ← hself]
        rfl
      · rw [if_neg h0]
        have hlen : (pattern.FindStringSubmatchIndex l.LogEvent.Message).length =
            2 * pattern.SubexpNames.length := by
          rcases pattern.index_length l.LogEvent.Message with h | h
          · rw [h] at h0; exact absurd rfl h0
          · exact h
        have hn : 1 ≤ pattern.SubexpNames.length :=
          List.length_pos.2 pattern.names_ne_nil
        obtain ⟨spans, hs⟩ := buildSpans_ok lv l.LogEvent.Message
          ((pattern.FindStringSubmatchIndex l.LogEvent.Message).drop 2)
          (pattern.SubexpNames.drop 1)
          (if (lv.highlightLevels && l.LogEvent.Level != LogLevelInfo) = true then
            if l.LogEvent.Level = LogLevelWarning then lv.defaultStyle.Background lv.warningBgColor
            else lv.defaultStyle.Background lv.errorBgColor
          else lv.defaultStyle)
          (lv.highlightLevels && l.LogEvent.Level != LogLevelInfo)
          (by simp only [List.length_drop]; omega)
        simp only [hs]
        refine ⟨spans, ?_⟩
        rw [update_eq _ hl, ← hen, ← hp]

theorem calculateWrap_noop (lv : LogView) (n : Nat) (l : logEventLine)
    (hl : lv.heap[n]? = some l)
    (h : ¬ (lv.wrap = true ∧ lv.pageWidth ≠ 0 ∧ lv.pageWidth ≤ len l.LogEvent.Message)) :
    calculateWrap lv n = .ok (lv, n) := by
  unfold calculateWrap
  by_cases hc : (!lv.wrap || decide (lv.pageWidth = 0)) = true
  · rw [if_pos hc]
    rfl
  · rw [if_neg hc]
    simp only [Bool.or_eq_true, Bool.not_eq_true', decide_eq_true_eq, not_or] at hc
    have hw : lv.wrap = true := by simpa using hc.1
    simp only [bind, Except.bind, line_eq hl]
    rw [if_pos (Nat.lt_of_not_le fun hh => h ⟨hw, hc.2, hh⟩)]
    rfl

theorem append_insert (lv : LogView) (as : List Nat) (fresh : logEventLine)
    (hwf : WellFormed lv as) (htop : as ≠ [] → ∃ j, j < as.length ∧ lv.top = as[j]?)
    (hp : fresh.previous = none) (hn : fresh.next = none) :
    ∃ H2 top2 l2,
      insertAfter { lv with heap := lv.heap ++ [fresh] } lv.lastEvent lv.heap.length =
        .ok ({ lv with heap := H2, firstEvent := (as ++ [lv.heap.length]).head?,
                       lastEvent := some lv.heap.length, top := top2 }, lv.heap.length) ∧
      Linked H2 (as ++ [lv.heap.length]) ∧ H2[lv.heap.length]? = some l2 ∧
      l2.data = fresh.data ∧
      (∃ j, j < as.length + 1 ∧ top2 = (as ++ [lv.heap.length])[j]?) := by
  obtain ⟨hl, hfirst, hlast⟩ := hwf
  have hnot : lv.heap.length ∉ as := fun hm => by
    obtain ⟨l, hl'⟩ := hl.mem hm
    exact absurd (lt_of_getElem? hl') (Nat.lt_irrefl _)
  cases has : as with
  | nil =>
    subst has
    have hlastn : lv.lastEvent = none := hlast
    have hins : insertAfter { lv with heap := lv.heap ++ [fresh] } lv.lastEvent lv.heap.length =
        insertAfter { lv with heap := lv.heap ++ [fresh] } none lv.heap.length := by
      rw [hlastn]
    rw [hins]
    refine ⟨lv.heap ++ [fresh], some lv.heap.length, fresh, rfl, ?_, ?_, rfl, 0, by simp, by simp⟩
    · refine Linked.of_get (List.nodup_singleton _) fun i a hi => ?_
      have hi0 : i = 0 := by
        have := lt_of_getElem? hi
        simpa using this
      subst hi0
      simp at hi
      subst hi
      exact ⟨fresh, by simp, by simp [hn], by simp [hp]⟩
    · simp
  | cons x xs =>
    rw [← has]
    have hne : as ≠ [] := by rw [has]; simp
    have hpos : 0 < as.length := List.length_pos.2 hne
    obtain ⟨j, hj, htj⟩ := htop hne
    obtain ⟨t, ht⟩ : ∃ t, as.getLast? = some t := by
      cases h : as.getLast? with
      | none => exact absurd (List.getLast?_eq_none_iff.1 h) hne
      | some t => exact ⟨t, rfl⟩
    have hlast' : as[as.length - 1]? = some t := by
      rw [← List.getLast?_eq_getElem?]; exact ht
    obtain ⟨tl, htl, htn, _⟩ := hl.get hlast'
    have htn' : tl.next = none := by
      rw [htn, List.getElem?_eq_none (by omega)]
    have htlt := lt_of_getElem? htl
    have hne' : t ≠ lv.heap.length := by omega
    have h1 : (lv.heap ++ [fresh])[t]? = some tl := by
      rw [List.getElem?_append_left htlt]; exact htl
    have hle : lv.lastEvent = some t := hlast.trans ht
    have hins : insertAfter { lv with heap := lv.heap ++ [fresh] } lv.lastEvent lv.heap.length =
        insertAfter { lv with heap := lv.heap ++ [fresh] } (some t) lv.heap.length := by
      rw [hle]
    rw [hins]
    refine ⟨((lv.heap ++ [fresh]).set lv.heap.length
        { fresh with previous := some t, next := none }).set t
        { tl with next := some lv.heap.length }, lv.top,
      { fresh with previous := some t, next := none }, ?_, ?_, ?_, ?_, j, by omega, ?_⟩
    · rw [insertAfter_tail_eq { lv with heap := lv.heap ++ [fresh] } t lv.heap.length tl fresh h1
        (List.getElem?_concat_length _ _) hne' htn' hle]
      congr 3
      show lv.firstEvent = _
      rw [hfirst, List.head?_append_of_ne_nil _ hne]
    · refine Linked.snoc _ _ { fresh with previous := some t, next := none } hl hnot ?_ rfl
        (by show some t = _; rw [ht]) ?_
      · rw [List.getElem?_set_ne hne', getElem?_set_self _ (List.getElem?_concat_length _ _)]
      · intro i a hi l hla
        have ha := lt_of_getElem? hla
        by_cases hc : a = t
        · subst hc
          have hil : i = as.length - 1 :=
            List.getElem?_inj (lt_of_getElem? hi) hl.1 (hi.trans hlast'.symm)
          have : l = tl := by
            rw [htl] at hla; exact (Option.some.inj hla).symm
          subst this
          have h2 : ((lv.heap ++ [fresh]).set lv.heap.length
              { fresh with previous := some a, next := none })[a]? = some l := by
            rw [List.getElem?_set_ne (Ne.symm hne')]; exact h1
          refine ⟨_, getElem?_set_self _ h2, rfl, ?_⟩
          rw [if_pos (by omega)]
        · refine ⟨l, ?_, rfl, ?_⟩
          · rw [List.getElem?_set_ne (Ne.symm hc), List.getElem?_set_ne (by omega),
              List.getElem?_append_left ha, hla]
          · have : i + 1 ≠ as.length := fun hh => by
              apply hc
              have : i = as.length - 1 := by omega
              rw [this, hlast'] at hi
              exact (Option.some.inj hi).symm
            rw [if_neg this]
    · rw [List.getElem?_set_ne hne', getElem?_set_self _ (List.getElem?_concat_length _ _)]
    · simp [logEventLine.data]
    · rw [htj, List.getElem?_append_left hj]

theorem calculateWrap_fresh (lv : LogView) (as : List Nat) (n : Nat) (l : logEventLine)
    (hl : Linked lv.heap as) (hlast : as.getLast? = some n) (hlv : lv.lastEvent = some n)
    (he : lv.heap[n]? = some l) (ho : l.order = 0) (hlc : l.lineCount = 1) :
    ∃ H4 t4 as4 l4,
      calculateWrap lv n = .ok ({ lv with heap := H4, lastEvent := some t4 }, t4) ∧
      Linked H4 as4 ∧ as4.getLast? = some t4 ∧
      (∀ j, j < as.length → as4[j]? = as[j]?) ∧
      as4.length + 1 =
        as.length + appendLineCount lv.wrap lv.pageWidth (len l.LogEvent.Message) ∧
      H4[n]? = some l4 ∧
      l4.lineCount = appendLineCount lv.wrap lv.pageWidth (len l.LogEvent.Message) := by
  by_cases hc : lv.wrap = true ∧ lv.pageWidth ≠ 0 ∧ lv.pageWidth ≤ len l.LogEvent.Message
  · obtain ⟨hw, hp0, hlen⟩ := hc
    have hpw : 0 < lv.pageWidth := Nat.pos_of_ne_zero hp0
    obtain ⟨H', t, hrun, hl', hlast', hlen', _, hhead, _⟩ :=
      calculateWrap_tail lv as n l hl hlast hlv he ho hw hpw hlen
    have hcount : appendLineCount lv.wrap lv.pageWidth (len l.LogEvent.Message) =
        wrapLineCount (len l.LogEvent.Message) lv.pageWidth := by
      unfold appendLineCount
      rw [if_pos ⟨hw, hp0, hlen⟩]
    have h1 := (wrapLineCount_bounds hpw hlen).1
    cases h4 : H'[n]? with
    | none => rw [h4] at hhead; simp at hhead
    | some l4 =>
      rw [h4] at hhead
      simp only [Option.map_some', Option.some.injEq] at hhead
      refine ⟨H', t, _, l4, hrun, hl', hlast', ?_, ?_, h4, ?_⟩
      · intro j hj
        rw [List.getElem?_append_left hj]
      · rw [hcount, List.length_append, List.length_range']
        omega
      · rw [hcount]
        have : l4.data.lineCount = (headLine l lv.pageWidth).data.lineCount := by rw [hhead]
        exact this
  · have hcount : appendLineCount lv.wrap lv.pageWidth (len l.LogEvent.Message) = 1 := by
      unfold appendLineCount
      rw [if_neg hc]
    have hself : lv = { lv with heap := lv.heap, lastEvent := some n } := by
      rw [← hlv]
    refine ⟨lv.heap, n, as, l, ?_, hl, hlast, fun _ _ => rfl, by rw [hcount], he,
      by rw [hcount, hlc]⟩
    rw [calculateWrap_noop lv n l he hc, ← hself]

theorem appendLineCount_pos (wrap : Bool) (pw n : Nat) : 1 ≤ appendLineCount wrap pw n := by
  unfold appendLineCount
  split
  · rename_i h
    exact (wrapLineCount_bounds (Nat.pos_of_ne_zero h.2.1) h.2.2).1
  · exact le_refl 1

theorem append_spec (lv : LogView) (as : List Nat) (ev : LogEvent)
    (hwf : WellFormed lv as) (htop : as ≠ [] → ∃ j, j < as.length ∧ lv.top = as[j]?) :
    ∃ lv' as', append lv ev = .ok lv' ∧ WellFormed lv' as' ∧
      (∃ j, j < as'.length ∧ lv'.top = as'[j]?) ∧
      lv'.wrap = lv.wrap ∧ lv'.pageWidth = lv.pageWidth ∧
      as'.length = as.length + appendLineCount lv.wrap lv.pageWidth (len ev.Message) ∧
      lv'.eventCount =
        lv.eventCount + appendLineCount lv.wrap lv.pageWidth (len ev.Message) := by
  obtain ⟨H2, top2, l2, hins, hl2, hH2n, hd2, j, hj, htop2⟩ :=
    append_insert lv as
      { LogEvent := ev, lineID := lv.eventCount + 1, previous := none, next := none,
        styleSpans := [], start := 0, end_ := (len ev.Message : Int), order := 0, lineCount := 1 }
      hwf htop rfl rfl
  have ho2 : l2.order = 0 := congrArg logEventLine.order hd2
  have hlc2 : l2.lineCount = 1 := congrArg logEventLine.lineCount hd2
  have hev2 : l2.LogEvent = ev := congrArg logEventLine.LogEvent hd2
  obtain ⟨spans, hcol⟩ := colorize_ok
    { lv with heap := H2, firstEvent := (as ++ [lv.heap.length]).head?,
              lastEvent := some lv.heap.length, top := top2 }
    lv.heap.length l2 hH2n ho2
  have hl3 : Linked (H2.set lv.heap.length { l2 with styleSpans := spans })
      (as ++ [lv.heap.length]) := by
    refine hl2.frame fun b _ l hb => ?_
    by_cases hc : b = lv.heap.length
    · subst hc
      rw [hH2n] at hb
      cases hb
      exact ⟨_, getElem?_set_self _ hH2n, rfl, rfl⟩
    · exact ⟨l, by rw [List.getElem?_set_ne (Ne.symm hc), hb], rfl, rfl⟩
  obtain ⟨H4, t4, as4, l4, hcw, hl4, hlast4, hpre, hlen4, hH4n, hlc4⟩ :=
    calculateWrap_fresh
      { lv with heap := H2.set lv.heap.length { l2 with styleSpans := spans },
                firstEvent := (as ++ [lv.heap.length]).head?,
                lastEvent := some lv.heap.length, top := top2 }
      (as ++ [lv.heap.length]) lv.heap.length { l2 with styleSpans := spans }
      hl3 (List.getLast?_concat _) rfl (getElem?_set_self _ hH2n) ho2 hlc2
  simp only [hev2] at hlen4 hlc4
  have hcpos := appendLineCount_pos lv.wrap lv.pageWidth (len ev.Message)
  have hlen4' : as4.length = as.length +
      appendLineCount lv.wrap lv.pageWidth (len ev.Message) := by
    simp only [List.length_append, List.length_singleton] at hlen4
    omega
  have hfirst4 : (as ++ [lv.heap.length]).head? = as4.head? := by
    rw [List.head?_eq_getElem?, List.head?_eq_getElem?, hpre 0 (by simp)]
  have htop4 : top2 = as4[j]? := by
    rw [htop2, hpre j (by simpa using hj)]
  have hj4 : j < as4.length := by omega
  have hwf4 : ∀ c, WellFormed
      { lv with heap := H4, firstEvent := (as ++ [lv.heap.length]).head?,
                lastEvent := some t4, top := top2, eventCount := c } as4 :=
    fun _ => ⟨hl4, hfirst4, hlast4.symm⟩
  simp only [append, LogView.alloc, bind, Except.bind, pure, Except.pure, hins, hcol, hcw,
    LogView.line, hH4n]
  split
  · have hoff := atOffset_clamp (hwf4 (lv.eventCount + l4.lineCount)) j hj4
      (l4.lineCount : Int) (by omega)
    rw [← htop4] at hoff
    simp only [hoff]
    refine ⟨_, as4, rfl, ⟨hl4, hfirst4, hlast4.symm⟩, ⟨_, ?_, rfl⟩, rfl, rfl, hlen4', ?_⟩
    · omega
    · show lv.eventCount + l4.lineCount = _
      rw [hlc4]
  · refine ⟨_, as4, rfl, ⟨hl4, hfirst4, hlast4.symm⟩, ⟨j, hj4, htop4⟩, rfl, rfl, hlen4', ?_⟩
    show lv.eventCount + l4.lineCount = _
    rw [hlc4]

theorem AppendEvents_spec (evs : List LogEvent) :
    ∀ (lv : LogView) (as : List Nat), WellFormed lv as →
      (as ≠ [] → ∃ j, j < as.length ∧ lv.top = as[j]?) →
      ∃ lv' as', AppendEvents lv evs = .ok lv' ∧ WellFormed lv' as' ∧
        (as' ≠ [] → ∃ j, j < as'.length ∧ lv'.top = as'[j]?) ∧
        lv'.wrap = lv.wrap ∧ lv'.pageWidth = lv.pageWidth ∧
        as'.length = as.length +
          (evs.map fun e => appendLineCount lv.wrap lv.pageWidth (len e.Message)).sum ∧
        lv'.eventCount = lv.eventCount +
          (evs.map fun e => appendLineCount lv.wrap lv.pageWidth (len e.Message)).sum := by
  induction evs with
  | nil =>
    intro lv as hwf htop
    exact ⟨lv, as, rfl, hwf, htop, rfl, rfl, by simp, by simp⟩
  | cons e evs ih =>
    intro lv as hwf htop
    obtain ⟨lv1, as1, hrun1, hwf1, htop1, hw1, hp1, hlen1, hcount1⟩ :=
      append_spec lv as e hwf htop
    obtain ⟨lv2, as2, hrun2, hwf2, htop2, hw2, hp2, hlen2, hcount2⟩ :=
      ih lv1 as1 hwf1 (fun _ => htop1)
    refine ⟨lv2, as2, ?_, hwf2, htop2, hw2.trans hw1, hp2.trans hp1, ?_, ?_⟩
    · simp only [AppendEvents, bind, Except.bind, hrun1, hrun2]
    · rw [hlen2, hlen1, hw1, hp1, List.map_cons, List.sum_cons]
      omega
    · rw [hcount2, hcount1, hw1, hp1, List.map_cons, List.sum_cons]
      omega

theorem IsEmptyStore.wellFormed {lv : LogView} (h : IsEmptyStore lv) : WellFormed lv [] :=
  ⟨Linked.nil _, h.2.1, h.2.2.1⟩

theorem appendLineCount_eq_max {pw : Nat} (hpw : 0 < pw) (n : Nat) :
    appendLineCount true pw n = max 1 (ceilDiv n pw) := by
  unfold appendLineCount ceilDiv
  have hdm := Nat.div_add_mod n pw
  have hmod := Nat.mod_lt n hpw
  by_cases hn : pw ≤ n
  · rw [if_pos ⟨rfl, by omega, hn⟩]
    have hq : 1 ≤ n / pw := (Nat.one_le_div_iff hpw).2 hn
    have hm : pw * (n / pw) = n / pw * pw := Nat.mul_comm _ _
    unfold wrapLineCount
    by_cases hr : n % pw ≠ 0
    · rw [if_pos hr]
      have : (n + pw - 1) / pw = n / pw + 1 := by
        apply Nat.div_eq_of_lt_le
        · rw [Nat.add_mul, Nat.one_mul]; omega
        · rw [Nat.add_mul, Nat.add_mul, Nat.one_mul]; omega
      rw [this]; omega
    · rw [if_neg hr]
      have : (n + pw - 1) / pw = n / pw := by
        apply Nat.div_eq_of_lt_le
        · omega
        · rw [Nat.add_mul, Nat.one_mul]; omega
      rw [this]; omega
  · rw [if_neg (fun h => hn h.2.2)]
    by_cases h0 : n = 0
    · subst h0
      have : (0 + pw - 1) / pw = 0 := Nat.div_eq_of_lt (by omega)
      rw [this]; rfl
    · have : (n + pw - 1) / pw = 1 := by
        apply Nat.div_eq_of_lt_le
        · omega
        · omega
      rw [this]; rfl

/-- C2 (append count without wrapping).  Starting from an empty store with
wrapping disabled, whatever the page size, the following flag and the other
settings, appending any list of events returns and leaves `eventCount` equal
to the number of events appended. -/
theorem append_count_no_wrap (lv : LogView) (evs : List LogEvent)
    (hempty : IsEmptyStore lv) (hwrap : lv.wrap = false) :
    ∃ lv', AppendEvents lv evs = .ok lv' ∧ lv'.eventCount = evs.length := by
  obtain ⟨lv', as', hrun, _, _, _, _, _, hcount⟩ :=
    AppendEvents_spec evs lv [] hempty.wellFormed (fun h => absurd rfl h)
  refine ⟨lv', hrun, ?_⟩
  rw [hcount, hempty.2.2.2.2, hwrap]
  have : (fun e : LogEvent => appendLineCount false lv.pageWidth (len e.Message)) =
      fun _ => 1 := by
    funext e
    simp [appendLineCount]
  rw [this]
  simp

/-- Witness of C2: two events, one of them empty, appended to an empty store of
page size 2 by 5 with wrapping disabled. -/
theorem append_count_no_wrap_witness :
    IsEmptyStore { storeOfSize 2 5 with wrap := false } ∧
    ∃ lv', AppendEvents { storeOfSize 2 5 with wrap := false }
        [mkEvent "A" "abcde", mkEvent "B" ""] = .ok lv' ∧
      lv'.eventCount = [mkEvent "A" "abcde", mkEvent "B" ""].length :=
  ⟨by decide, append_count_no_wrap _ _ (by decide) rfl⟩

/-- C3 as amended (append count with wrapping).  Starting from an empty store
with wrapping enabled and a fixed `pageWidth > 0`, appending events returns and
leaves `eventCount` equal to the sum over the events of
`max(1, ceil(len(message)/pageWidth))`: an empty message still takes one line. -/
theorem append_count_wrap (lv : LogView) (evs : List LogEvent)
    (hempty : IsEmptyStore lv) (hwrap : lv.wrap = true) (hpw : 0 < lv.pageWidth) :
    ∃ lv', AppendEvents lv evs = .ok lv' ∧
      lv'.eventCount = (evs.map fun e => max 1 (ceilDiv (len e.Message) lv.pageWidth)).sum := by
  obtain ⟨lv', as', hrun, _, _, _, _, _, hcount⟩ :=
    AppendEvents_spec evs lv [] hempty.wellFormed (fun h => absurd rfl h)
  refine ⟨lv', hrun, ?_⟩
  rw [hcount, hempty.2.2.2.2, hwrap, Nat.zero_add]
  congr 1
  apply List.map_congr_left
  intro e _
  exact appendLineCount_eq_max hpw _

/-- Witness of C3 as amended: three events, one of them empty, at page
width 2. -/
theorem append_count_wrap_witness :
    IsEmptyStore (storeOfSize 2 5) ∧ (storeOfSize 2 5).wrap = true ∧
    0 < (storeOfSize 2 5).pageWidth ∧
    ∃ lv', AppendEvents (storeOfSize 2 5)
        [mkEvent "A" "abcde", mkEvent "B" "", mkEvent "C" "ab"] = .ok lv' ∧
      lv'.eventCount =
        ([mkEvent "A" "abcde", mkEvent "B" "", mkEvent "C" "ab"].map fun e =>
          max 1 (ceilDiv (len e.Message) (storeOfSize 2 5).pageWidth)).sum :=
  ⟨by decide, rfl, by decide, append_count_wrap _ _ (by decide) rfl (by decide)⟩

/-- Counterexample to C3 as stated: one event with the empty message at page
width 1 leaves `eventCount = 1`, while `ceil(0/1) = 0`. -/
theorem append_count_wrap_counterexample :
    (storeOfSize 1 5).wrap = true ∧ 0 < (storeOfSize 1 5).pageWidth ∧
    IsEmptyStore (storeOfSize 1 5) ∧
    (AppendEvents (storeOfSize 1 5) [mkEvent "A" ""]).map (fun lv => lv.eventCount) = .ok 1 ∧
    ([mkEvent "A" ""].map fun e => ceilDiv (len e.Message) (storeOfSize 1 5).pageWidth).sum = 0 := by
  decide

/-- On a line of order 0 `deleteWrapLines` returns that line and changes
nothing. -/
theorem deleteWrapLines_order_zero (lv : LogView) (event : Nat) (e : logEventLine)
    (he : lv.heap[event]? = some e) (ho : e.order = 0) :
    deleteWrapLines lv event = .ok (lv, event) := by
  unfold deleteWrapLines
  simp only [bind, Except.bind, line_eq he, if_pos ho]
  rfl

/-- C4 (eventCount invariant), code at the failing input: append "ab" to a new
log view (page width 0) and draw at width 1, height 5.  The resize rewraps the
line into two lines; walking from `firstEvent` meets 2 lines while `eventCount`
is still 1. -/
theorem eventCount_stale_after_rewrap :
    ((append (NewLogView 0 0 0 0) (mkEvent "A" "ab") >>= fun lv => Draw lv 1 5).map
      fun lv => (lv.eventCount, lv.lineAddrs.length)) = .ok (1, 2) ∧
    ((append (NewLogView 0 0 0 0) (mkEvent "A" "ab") >>= fun lv => Draw lv 1 5).map
      fun lv => lv.shape) = .ok [⟨"A", 0, 1, 1⟩, ⟨"A", 1, 2, 2⟩] := by
  decide

/-- C5 (rewrap idempotence), code at the failing input: append "ab" to a new log
view and run rewrap-all at page width 1; it wraps the event into two lines.
Running rewrap-all again at the same width does not return: `deleteWrapLines`
dereferences the nil `next` of the last line. -/
theorem rewrap_again_panics :
    ((append (NewLogView 0 0 0 0) (mkEvent "A" "ab") >>= fun lv =>
        rewrapLines { lv with pageWidth := 1 }).map fun lv => lv.shape) =
      .ok [⟨"A", 0, 1, 1⟩, ⟨"A", 1, 2, 2⟩] ∧
    ((append (NewLogView 0 0 0 0) (mkEvent "A" "ab") >>= fun lv =>
        rewrapLines { lv with pageWidth := 1 } >>= rewrapLines).map fun lv => lv.shape) =
      .error .nilDereference := by
  decide

/-- C6 (unwrap/rewrap round trip), code at the failing inputs, page width 2.
(1) The wrapped event is last ("a", then "bbb"): `deleteWrapLines` on its
second line panics.  (2) The wrapped event has `lineCount` 1 ("aa", then "b",
"c"): `deleteWrapLines` on its line followed by `calculateWrap` on the returned
head returns a list without the line of "b". -/
theorem round_trip_fails :
    ((Draw (NewLogView 0 0 0 0) 2 5 >>= fun lv =>
        AppendEvents lv [mkEvent "A" "a", mkEvent "B" "bbb"]).map fun lv => lv.shape) =
      .ok [⟨"A", 0, 1, 0⟩, ⟨"B", 0, 2, 1⟩, ⟨"B", 2, 3, 2⟩] ∧
    ((Draw (NewLogView 0 0 0 0) 2 5 >>= fun lv =>
        AppendEvents lv [mkEvent "A" "a", mkEvent "B" "bbb"] >>= fun lv =>
        deleteWrapLines lv 2 >>= fun r => calculateWrap r.1 r.2).map fun r => r.1.shape) =
      .error .nilDereference ∧
    ((Draw (NewLogView 0 0 0 0) 2 5 >>= fun lv =>
        AppendEvents lv [mkEvent "A" "aa", mkEvent "B" "b", mkEvent "C" "c"]).map
        fun lv => lv.shape) =
      .ok [⟨"A", 0, 2, 1⟩, ⟨"B", 0, 1, 0⟩, ⟨"C", 0, 1, 0⟩] ∧
    ((Draw (NewLogView 0 0 0 0) 2 5 >>= fun lv =>
        AppendEvents lv [mkEvent "A" "aa", mkEvent "B" "b", mkEvent "C" "c"] >>= fun lv =>
        deleteWrapLines lv 0 >>= fun r => calculateWrap r.1 r.2).map fun r => r.1.shape) =
      .ok [⟨"A", 0, 2, 1⟩, ⟨"C", 0, 1, 0⟩] := by
  decide

/-- C7 (contract of `deleteWrapLines`), code at the failing inputs, page
width 2.  (1) On the head of a wrapped group that ends the list ("aaa" alone,
lines at addresses 0 and 1) it panics instead of returning the head.  (2) On
the only line of a wrapped group of `lineCount` 1 ("aa", followed by "b" and
"c") it returns the head with order 0 but removes the line of the next event
"b". -/
theorem deleteWrapLines_breaks_contract :
    ((Draw (NewLogView 0 0 0 0) 2 5 >>= fun lv =>
        append lv (mkEvent "A" "aaa")).map fun lv => lv.shape) =
      .ok [⟨"A", 0, 2, 1⟩, ⟨"A", 2, 3, 2⟩] ∧
    ((Draw (NewLogView 0 0 0 0) 2 5 >>= fun lv =>
        append lv (mkEvent "A" "aaa") >>= fun lv =>
        deleteWrapLines lv 0).map fun r => r.2) =
      .error .nilDereference ∧
    ((Draw (NewLogView 0 0 0 0) 2 5 >>= fun lv =>
        AppendEvents lv [mkEvent "A" "aa", mkEvent "B" "b", mkEvent "C" "c"] >>= fun lv =>
        deleteWrapLines lv 0).map fun r => r.2) = .ok 0 ∧
    ((Draw (NewLogView 0 0 0 0) 2 5 >>= fun lv =>
        AppendEvents lv [mkEvent "A" "aa", mkEvent "B" "b", mkEvent "C" "c"] >>= fun lv =>
        deleteWrapLines lv 0).map fun r => r.1.shape) =
      .ok [⟨"A", 0, 2, 0⟩, ⟨"C", 0, 1, 0⟩] := by
  decide

/-- C8 (events are never lost), code at the failing input: draw a new log view
at 2 by 5, append "aa", "b" and "c", and draw again at 2 by 6.  Every
operation returns; the resize rewraps, and the walk from `firstEvent` then
yields the events A and C: event B is lost. -/
theorem rewrap_loses_event :
    ((Draw (NewLogView 0 0 0 0) 2 5 >>= fun lv =>
        AppendEvents lv [mkEvent "A" "aa", mkEvent "B" "b", mkEvent "C" "c"]).map
        fun lv => lv.eventIDs) = .ok ["A", "B", "C"] ∧
    ((Draw (NewLogView 0 0 0 0) 2 5 >>= fun lv =>
        AppendEvents lv [mkEvent "A" "aa", mkEvent "B" "b", mkEvent "C" "c"] >>= fun lv =>
        Draw lv 2 6).map fun lv => lv.eventIDs) = .ok ["A", "C"] := by
  decide

/-- The least `int` as offset is the one value `atOffset_clamp` leaves out: in
the well-formed list of two lines, from the line at index 1, `-offset` wraps
to itself, the loop takes no step and `atOffset` returns the line at index 1,
while `min(max(1 + offset, 0), 1)` is index 0.  No caller passes this offset:
`atOffset` is not exported and is called with `-(pageHeight - 1)`, where
`pageHeight >= 0`, and with `int(lineCount)`, where `lineCount >= 1`. -/
theorem atOffset_least_int :
    AppendEvents (NewLogView 0 0 0 0) [mkEvent "A" "a", mkEvent "B" "b"] = .ok storeTwoLines ∧
    WellFormed storeTwoLines [0, 1] ∧
    atOffset storeTwoLines ([0, 1] : List Nat)[1]? (-2 ^ 63) = .ok (some 1) ∧
    ([0, 1] : List Nat)[(min (max ((1 : Int) + -2 ^ 63) 0) ((2 : Int) - 1)).toNat]? = some 0 :=
  ⟨rfl, by decide, by decide, by decide⟩

/-- C10 (highlighter coverage), code at the failing inputs.  (1) The message
"a" and a match without capture groups: `buildSpans` returns no span at all,
so position 0 is in no span.  (2) The message "ab" and a group "g" with a
registered style matched on [0, 1): the only span is [0, 0] and position 1 is
in no span. -/
theorem buildSpans_leaves_gap :
    buildSpans (NewLogView 0 0 0 0) "a" [] [] StyleDefault false = .ok [] ∧
    ¬ Covered [] 0 ∧
    buildSpans storeHighlightG "ab" [0, 1] ["g"] StyleDefault false =
      .ok [{ start := 0, end_ := 0, style := { fg := 7, bg := 0, attrs := 0 } }] ∧
    ¬ Covered [{ start := 0, end_ := 0, style := { fg := 7, bg := 0, attrs := 0 } }] 1 := by
  decide

/-- C11 (highlighter ordering), code at the failing input: the message "abcd"
matched by `(?P<u>b)(?P<g>c)`, group "u" on [1, 2) without a registered style
and group "g" on [2, 3) with one.  `buildSpans` emits the span before "u",
skips "u" without moving `currentPos`, and emits the span before "g" from the
same position: the spans are [0, 0], [0, 1], [2, 2], and the second starts at
the end of the first, not after it. -/
theorem buildSpans_overlap :
    buildSpans storeHighlightG "abcd" [1, 2, 2, 3] ["u", "g"] StyleDefault false =
      .ok [{ start := 0, end_ := 0, style := StyleDefault },
           { start := 0, end_ := 1, style := StyleDefault },
           { start := 2, end_ := 2, style := { fg := 7, bg := 0, attrs := 0 } }] ∧
    spansOrdered [{ start := 0, end_ := 0, style := StyleDefault },
           { start := 0, end_ := 1, style := StyleDefault },
           { start := 2, end_ := 2, style := { fg := 7, bg := 0, attrs := 0 } }] = false := by
  decide

/-- C12 (a group without a registered style counts as not matched), code at
the failing input: the message "abc" and one group "u" without a registered
style matched on [1, 2).  `buildSpans` returns the spans [0, 0] and [0, 2];
with the indices of "u" replaced by (-1, -1) it returns [0, 2] alone, so the
unregistered group caused an extra span. -/
theorem buildSpans_unregistered_group_shows :
    storeHighlightG.highlightColors "u" = none ∧
    maskUnregistered storeHighlightG.highlightColors ["u"] [1, 2] = [-1, -1] ∧
    buildSpans storeHighlightG "abc" [1, 2] ["u"] StyleDefault false =
      .ok [{ start := 0, end_ := 0, style := StyleDefault },
           { start := 0, end_ := 2, style := StyleDefault }] ∧
    buildSpans storeHighlightG "abc"
        (maskUnregistered storeHighlightG.highlightColors ["u"] [1, 2]) ["u"]
        StyleDefault false =
      .ok [{ start := 0, end_ := 2, style := StyleDefault }] := by
  decide

/-- C14 (no-match fallback), code at the failing inputs, pattern highlighting
and level highlighting enabled.  (1) An event of level Error with the message
"hello" and a pattern that does not match it: `colorize` returns at once and
the appended line has no style span.  (2) The message "a" matched by
`a(?P<g>x)?` with the group not participating: `buildSpans` emits nothing and
the appended line has no style span. -/
theorem colorize_no_match_leaves_no_span :
    ((append { newView with highlightLevels := true, highlightPattern := some patternNoMatch }
        { mkEvent "A" "hello" with Level := LogLevelError }).map
      fun lv => lv.lines.map fun l => l.styleSpans) = .ok [[]] ∧
    ((append { newView with highlightLevels := true, highlightPattern := some patternOptionalG }
        { mkEvent "A" "a" with Level := LogLevelError }).map
      fun lv => lv.lines.map fun l => l.styleSpans) = .ok [[]] := by
  decide

/-- C16 (recolorize-all unwraps first), code at the failing input: draw a new
log view at 1 by 5, append "ab" (two lines, orders 1 and 2) and call
`InvalidateHighlights`.  It runs `recolorizeLines` without `unwrapLines`, and
`colorize` panics on the first line. -/
theorem invalidateHighlights_panics_on_wrapped :
    ((Draw (NewLogView 0 0 0 0) 1 5 >>= fun lv => append lv (mkEvent "A" "ab")).map
      fun lv => lv.shape) = .ok [⟨"A", 0, 1, 1⟩, ⟨"A", 1, 2, 2⟩] ∧
    ((Draw (NewLogView 0 0 0 0) 1 5 >>= fun lv => append lv (mkEvent "A" "ab") >>=
        InvalidateHighlights).map fun lv => lv.shape) =
      .error .cannotColorizeWrappedLine := by
  decide

/-- C19 (render writes the line's slice), code at the failing input: with the
pattern `(?P<g>a)` and a style registered for "g", append "ab".  The line
gets the single span [0, 0] and the slice [0, 2); drawing it sets the cell
of "a", moves to span index 1 and then indexes the span list out of range. -/
theorem drawEvent_index_out_of_range :
    ((append { storeHighlightG with highlightPattern := some patternGroupG }
        (mkEvent "A" "ab")).map fun lv => lv.lines.map fun l => (l.start, l.end_)) =
      .ok [(0, 2)] ∧
    ((append { storeHighlightG with highlightPattern := some patternGroupG }
        (mkEvent "A" "ab")).map fun lv => lv.lines.map fun l => l.styleSpans) =
      .ok [[{ start := 0, end_ := 0, style := { fg := 7, bg := 0, attrs := 0 } }]] ∧
    (append { storeHighlightG with highlightPattern := some patternGroupG }
        (mkEvent "A" "ab") >>= fun lv => drawEvent lv [] 0 0 0) =
      .error .indexOutOfRange := by
  decide

theorem storeWrappedAB_reachable :
    (Draw (NewLogView 0 0 0 0) 1 5 >>= fun lv => append lv (mkEvent "A" "ab")) =
      .ok storeWrappedAB := by
  rfl

/-- C15 (colorize precondition).  For every line of the heap: when its order
is not 0 (so also when it is a continuation line, order > 1), `colorize`
panics with "cannot colorize wrapped line" and returns no state, so no style
span is assigned; when its order is 0, `colorize` returns. -/
theorem colorize_precondition (lv : LogView) (n : Nat) (e : logEventLine)
    (he : lv.heap[n]? = some e) :
    (e.order ≠ 0 → colorize lv n = .error .cannotColorizeWrappedLine) ∧
    (e.order = 0 → ∃ lv', colorize lv n = .ok lv') := by
  constructor
  · intro ho
    unfold colorize
    simp only [bind, Except.bind, line_eq he]
    rw [if_pos ho]
  · intro ho
    obtain ⟨spans, h⟩ := colorize_ok lv n e he ho
    exact ⟨_, h⟩

/-- Witness of C15: the second line of the message "ab" wrapped at page
width 1, a continuation line of order 2. -/
theorem colorize_precondition_witness :
    storeWrappedAB.heap[1]? = some secondLineAB ∧
    ((secondLineAB.order ≠ 0 →
        colorize storeWrappedAB 1 = .error .cannotColorizeWrappedLine) ∧
      (secondLineAB.order = 0 → ∃ lv', colorize storeWrappedAB 1 = .ok lv')) :=
  ⟨by decide, colorize_precondition storeWrappedAB 1 secondLineAB (by decide)⟩

theorem calculateWrap_off (lv : LogView) (h : lv.pageWidth = 0 ∨ lv.wrap = false) (event : Nat) :
    calculateWrap lv event = .ok (lv, event) := by
  unfold calculateWrap
  rw [if_pos]
  · rfl
  · rcases h with h | h
    · simp [h]
    · simp [h]

theorem rewrapLoop_off (lv : LogView) (h : lv.pageWidth = 0 ∨ lv.wrap = false) :
    ∀ fuel p, reachesNil lv.heap fuel p = true → rewrapLoop (fuel + 1) lv p = .ok lv := by
  intro fuel
  induction fuel with
  | zero =>
    intro p hp
    cases p with
    | none => rfl
    | some a => simp [reachesNil] at hp
  | succ k ih =>
    intro p hp
    cases p with
    | none => rfl
    | some a =>
      cases hl : lv.heap[a]? with
      | none => simp [reachesNil, hl] at hp
      | some l =>
        simp only [reachesNil, hl] at hp
        rw [rewrapLoop]
        simp only [bind, Except.bind, calculateWrap_off lv h a, line_eq hl]
        exact ih l.next hp

theorem Linked.reachesNil {heap : List logEventLine} {as : List Nat} (h : Linked heap as) :
    ∀ fuel i, as.length ≤ i + fuel → reachesNil heap fuel as[i]? = true := by
  intro fuel
  induction fuel with
  | zero =>
    intro i hi
    rw [List.getElem?_eq_none (by omega)]
    rfl
  | succ fuel ih =>
    intro i hi
    cases hai : as[i]? with
    | none => rfl
    | some a =>
      obtain ⟨l, hl, hn, _⟩ := h.get hai
      simp only [Logv.reachesNil, hl, hn]
      exact ih (i + 1) (by omega)

/-- The list of a well-formed store ends. -/
theorem WellFormed.listEnds {lv : LogView} {as : List Nat} (h : WellFormed lv as) :
    ListEnds lv := by
  unfold ListEnds
  rw [h.2.1, List.head?_eq_getElem?]
  exact h.1.reachesNil lv.heap.length 0 (by have := h.1.length_le; omega)

/-- C20 (zero width or wrapping disabled is a no-op).  For every store whose
list ends, when `pageWidth` is 0 or wrapping is disabled, `calculateWrap`
returns the line it was given and the store as it was, for every line, and
rewrap-all returns the store as it was: every line, link, slice, order and
`lineCount` is unchanged. -/
theorem rewrap_noop_when_off (lv : LogView) (hends : ListEnds lv)
    (hoff : lv.pageWidth = 0 ∨ lv.wrap = false) :
    (∀ event, calculateWrap lv event = .ok (lv, event)) ∧ rewrapLines lv = .ok lv :=
  ⟨calculateWrap_off lv hoff, rewrapLoop_off lv hoff lv.heap.length lv.firstEvent hends⟩

/-- Witness of C20: the store of two lines, whose page width is 0. -/
theorem rewrap_noop_when_off_witness :
    ListEnds storeTwoLines ∧ (storeTwoLines.pageWidth = 0 ∨ storeTwoLines.wrap = false) ∧
    (∀ event, calculateWrap storeTwoLines event = .ok (storeTwoLines, event)) ∧
    rewrapLines storeTwoLines = .ok storeTwoLines :=
  ⟨by decide, by decide, rewrap_noop_when_off storeTwoLines (by decide) (by decide)⟩

/-- C18 (ScrollToBottom).  For every well-formed store with lines at the
addresses `as` and a page height `h` with `1 ≤ h` (and `h` a Go `int`),
`ScrollToBottom` returns the same store with only `top` changed: `top` is the
line at index `n - h` cut off at 0, that is `max(0, n - h)`, which is a line of
the list when there is one; the following flag, the list and `eventCount` are
as before.  On the empty store (`as = []`) `top` is left nil. -/
theorem ScrollToBottom_top (lv : LogView) (as : List Nat) (hwf : WellFormed lv as)
    (hh : 1 ≤ lv.pageHeight) (hint : lv.pageHeight < 2 ^ 63) :
    ScrollToBottom lv = .ok { lv with top := as[as.length - lv.pageHeight]? } ∧
    (as ≠ [] → as.length - lv.pageHeight < as.length) ∧
    (as = [] → as[as.length - lv.pageHeight]? = none) := by
  refine ⟨?_, ?_, ?_⟩
  · unfold ScrollToBottom scrollToEnd
    by_cases hne : as = []
    · subst hne
      have hfirst : lv.firstEvent = none := hwf.2.1
      have hlast : lv.lastEvent = none := hwf.2.2
      have hres : atOffset lv lv.lastEvent (-((lv.pageHeight : Int) - 1)) = .ok none := by
        rw [hlast]
        unfold atOffset
        by_cases h0 : -((lv.pageHeight : Int) - 1) = 0
        · rw [if_pos h0]
        · rw [if_neg h0]
          have hneg : -((lv.pageHeight : Int) - 1) < 0 := by omega
          have hnp : ¬ -((lv.pageHeight : Int) - 1) > 0 := by omega
          simp only [if_neg hnp]
          obtain ⟨k, hk⟩ : ∃ k, (wrapInt (- -((lv.pageHeight : Int) - 1))).toNat = k + 1 := by
            refine ⟨(wrapInt (- -((lv.pageHeight : Int) - 1))).toNat - 1, ?_⟩
            unfold wrapInt
            omega
          rw [hk, atOffsetLoop, if_pos (Or.inl ⟨hfirst.symm, hneg⟩)]
      simp only [bind, Except.bind, hres, pure, Except.pure]
      rfl
    · have hpos : 0 < as.length := List.length_pos.2 hne
      have hlast : lv.lastEvent = as[as.length - 1]? := by
        rw [hwf.2.2, List.getLast?_eq_getElem?]
      have hres := atOffset_clamp hwf (as.length - 1) (by omega)
        (-((lv.pageHeight : Int) - 1)) (by omega)
      rw [← hlast] at hres
      have hidx : (min (max (((as.length - 1 : Nat) : Int) + -((lv.pageHeight : Int) - 1)) 0)
          ((as.length : Int) - 1)).toNat = as.length - lv.pageHeight := by omega
      rw [hidx] at hres
      simp only [bind, Except.bind, hres, pure, Except.pure]
  · intro hne
    have hpos : 0 < as.length := List.length_pos.2 hne
    omega
  · intro he
    subst he
    rfl

/-- Witness of C18: the well-formed store of two lines, whose `top` is the
line at index 1, at page height 2; `top` becomes the line at index 0. -/
theorem ScrollToBottom_top_witness :
    WellFormed { storeTwoLines with pageHeight := 2 } [0, 1] ∧
    ScrollToBottom { storeTwoLines with pageHeight := 2 } =
      .ok { storeTwoLines with pageHeight := 2, top := ([0, 1] : List Nat)[2 - 2]? } :=
  ⟨by decide,
    (ScrollToBottom_top { storeTwoLines with pageHeight := 2 } [0, 1] (by decide) (by decide)
      (by decide)).1⟩

theorem buildSpansLoop_styles (hc : String → Option Style) (gi : List Int) (ds : Style)
    (u : Bool) (dbg : Color) :
    ∀ (names : List String) (i : Nat) (pos : Int) (spans : List styledSpan)
      (r : Int × List styledSpan),
      buildSpansLoop hc gi ds u dbg i names pos spans = .ok r →
      ∀ s ∈ r.2, s ∈ spans ∨ s.style = ds ∨
        ∃ name st, hc name = some st ∧ s.style = if u then st.Background dbg else st := by
  intro names
  induction names with
  | nil =>
    intro i pos spans r h s hs
    simp only [buildSpansLoop, Except.ok.injEq] at h
    subst h
    exact Or.inl hs
  | cons name rest ih =>
    intro i pos spans r h s hs
    rw [buildSpansLoop] at h
    cases h1 : gi[i * 2]? with
    | none => simp [h1] at h
    | some st =>
      cases h2 : gi[i * 2 + 1]? with
      | none => simp [h1, h2] at h
      | some en =>
        simp only [h1, h2] at h
        by_cases hm : st ≠ -1 ∧ en ≠ -1
        · rw [if_pos hm] at h
          have hpre : ∀ s, s ∈ (if st ≠ pos then
              spans ++ [{ start := pos, end_ := st - 1, style := ds }] else spans) →
              s ∈ spans ∨ s.style = ds := by
            intro s hs
            by_cases hp : st ≠ pos
            · rw [if_pos hp] at hs
              rcases List.mem_append.1 hs with h' | h'
              · exact Or.inl h'
              · simp only [List.mem_singleton] at h'
                exact Or.inr (by rw [h'])
            · rw [if_neg hp] at hs
              exact Or.inl hs
          cases hcn : hc name with
          | none =>
            simp only [hcn] at h
            rcases ih _ _ _ _ h s hs with h' | h' | h'
            · rcases hpre s h' with h'' | h''
              · exact Or.inl h''
              · exact Or.inr (Or.inl h'')
            · exact Or.inr (Or.inl h')
            · exact Or.inr (Or.inr h')
          | some style =>
            simp only [hcn] at h
            rcases ih _ _ _ _ h s hs with h' | h' | h'
            · rcases List.mem_append.1 h' with h'' | h''
              · rcases hpre s h'' with h3 | h3
                · exact Or.inl h3
                · exact Or.inr (Or.inl h3)
              · simp only [List.mem_singleton] at h''
                exact Or.inr (Or.inr ⟨name, style, hcn, by rw [h'']⟩)
            · exact Or.inr (Or.inl h')
            · exact Or.inr (Or.inr h')
        · rw [if_neg hm] at h
          exact ih _ _ _ _ h s hs

theorem buildSpansLoop_mono (hc : String → Option Style) (gi : List Int) (ds : Style)
    (u : Bool) (dbg : Color) :
    ∀ (names : List String) (i : Nat) (pos : Int) (spans : List styledSpan)
      (r : Int × List styledSpan),
      buildSpansLoop hc gi ds u dbg i names pos spans = .ok r →
      ∀ s ∈ spans, s ∈ r.2 := by
  intro names
  induction names with
  | nil =>
    intro i pos spans r h s hs
    simp only [buildSpansLoop, Except.ok.injEq] at h
    subst h
    exact hs
  | cons name rest ih =>
    intro i pos spans r h s hs
    rw [buildSpansLoop] at h
    cases h1 : gi[i * 2]? with
    | none => simp [h1] at h
    | some st =>
      cases h2 : gi[i * 2 + 1]? with
      | none => simp [h1, h2] at h
      | some en =>
        simp only [h1, h2] at h
        by_cases hm : st ≠ -1 ∧ en ≠ -1
        · rw [if_pos hm] at h
          have hpre : s ∈ (if st ≠ pos then
              spans ++ [{ start := pos, end_ := st - 1, style := ds }] else spans) := by
            by_cases hp : st ≠ pos
            · rw [if_pos hp]; exact List.mem_append_left _ hs
            · rw [if_neg hp]; exact hs
          cases hcn : hc name with
          | none =>
            simp only [hcn] at h
            exact ih _ _ _ _ h s hpre
          | some style =>
            simp only [hcn] at h
            exact ih _ _ _ _ h s (List.mem_append_left _ hpre)
        · rw [if_neg hm] at h
          exact ih _ _ _ _ h s hs

theorem buildSpansLoop_group (hc : String → Option Style) (gi : List Int) (ds : Style)
    (u : Bool) (dbg : Color) :
    ∀ (names : List String) (i : Nat) (pos : Int) (spans : List styledSpan)
      (r : Int × List styledSpan),
      buildSpansLoop hc gi ds u dbg i names pos spans = .ok r →
      ∀ (j : Nat) (name : String) (st en : Int) (style : Style),
        names[j]? = some name → gi[(i + j) * 2]? = some st → gi[(i + j) * 2 + 1]? = some en →
        st ≠ -1 → en ≠ -1 → hc name = some style →
        ({ start := st, end_ := en - 1,
           style := if u then style.Background dbg else style } : styledSpan) ∈ r.2 := by
  intro names
  induction names with
  | nil =>
    intro i pos spans r _ j name st en style hj
    simp at hj
  | cons name0 rest ih =>
    intro i pos spans r h j name st en style hj hst hen hst1 hen1 hstyle
    rw [buildSpansLoop] at h
    cases j with
    | zero =>
      simp only [List.getElem?_cons_zero, Option.some.injEq] at hj
      subst hj
      simp only [Nat.add_zero] at hst hen
      simp only [hst, hen] at h
      rw [if_pos ⟨hst1, hen1⟩] at h
      simp only [hstyle] at h
      exact buildSpansLoop_mono hc gi ds u dbg _ _ _ _ _ h _
        (List.mem_append_right _ (List.mem_singleton.2 rfl))
    | succ j =>
      simp only [List.getElem?_cons_succ] at hj
      have hst' : gi[(i + 1 + j) * 2]? = some st := by
        rw [show i + 1 + j = i + (j + 1) by omega]; exact hst
      have hen' : gi[(i + 1 + j) * 2 + 1]? = some en := by
        rw [show i + 1 + j = i + (j + 1) by omega]; exact hen
      cases h1 : gi[i * 2]? with
      | none => simp [h1] at h
      | some st0 =>
        cases h2 : gi[i * 2 + 1]? with
        | none => simp [h1, h2] at h
        | some en0 =>
          simp only [h1, h2] at h
          by_cases hm : st0 ≠ -1 ∧ en0 ≠ -1
          · rw [if_pos hm] at h
            cases hcn : hc name0 with
            | none =>
              simp only [hcn] at h
              exact ih _ _ _ _ h j name st en style hj hst' hen' hst1 hen1 hstyle
            | some style0 =>
              simp only [hcn] at h
              exact ih _ _ _ _ h j name st en style hj hst' hen' hst1 hen1 hstyle
          · rw [if_neg hm] at h
            exact ih _ _ _ _ h j name st en style hj hst' hen' hst1 hen1 hstyle

theorem buildSpans_level (lv : LogView) (text : String) (gi : List Int) (names : List String)
    (ds : Style) (u : Bool) (spans : List styledSpan)
    (h : buildSpans lv text gi names ds u = .ok spans) :
    (∀ s ∈ spans, s.style = ds ∨
      ∃ name st, lv.highlightColors name = some st ∧
        s.style = if u then st.Background ds.bg else st) ∧
    (∀ (j : Nat) (name : String) (st en : Int) (style : Style),
      names[j]? = some name → gi[j * 2]? = some st → gi[j * 2 + 1]? = some en →
      st ≠ -1 → en ≠ -1 → lv.highlightColors name = some style →
      ({ start := st, end_ := en - 1,
         style := if u then style.Background ds.bg else style } : styledSpan) ∈ spans) := by
  unfold buildSpans at h
  cases hloop : buildSpansLoop lv.highlightColors gi ds u ds.Decompose.2.1 0 names 0 [] with
  | error err => simp [bind, Except.bind, hloop] at h
  | ok r =>
    have hstyles := buildSpansLoop_styles _ _ _ _ _ _ _ _ _ _ hloop
    have hgroup := buildSpansLoop_group _ _ _ _ _ _ _ _ _ _ hloop
    simp only [bind, Except.bind, hloop, pure, Except.pure] at h
    have hsub : ∀ s ∈ r.2, s ∈ spans := by
      intro s hs
      split at h
      · simp only [Except.ok.injEq] at h
        rw [← h]; exact List.mem_append_left _ hs
      · simp only [Except.ok.injEq] at h
        rw [← h]; exact hs
    have hsup : ∀ s ∈ spans, s ∈ r.2 ∨ s.style = ds := by
      intro s hs
      split at h
      · simp only [Except.ok.injEq] at h
        rw [← h] at hs
        rcases List.mem_append.1 hs with h' | h'
        · exact Or.inl h'
        · simp only [List.mem_singleton] at h'
          exact Or.inr (by rw [h'])
      · simp only [Except.ok.injEq] at h
        rw [← h] at hs
        exact Or.inl hs
    constructor
    · intro s hs
      rcases hsup s hs with h' | h'
      · rcases hstyles s h' with h'' | h'' | h''
        · simp at h''
        · exact Or.inl h''
        · exact Or.inr h''
      · exact Or.inl h'
    · intro j name st en style hj hst hen hst1 hen1 hstyle
      exact hsub _ (hgroup j name st en style hj (by simpa using hst) (by simpa using hen)
        hst1 hen1 hstyle)

/-- C13 (level background precedence).  With level highlighting and pattern
highlighting enabled, take an unwrapped line whose event has a level other
than Info and whose message the pattern matches, with a participating group
that has a registered style.  Then `colorize` returns and stores style spans
such that: the group has a span `[st, en - 1]` whose style keeps the
foreground (and attributes) of the registered style and has the level
background, which is `warningBgColor` for level Warning and `errorBgColor`
otherwise (level Error); every span has the level background, being either the
base style with that background or a registered style with it. -/
theorem level_background_precedence (lv : LogView) (n : Nat) (e : logEventLine)
    (pattern : Regexp) (i : Nat) (name : String) (st en : Int) (style : Style)
    (hlevels : lv.highlightLevels = true) (henabled : lv.highlightingEnabled = true)
    (hpat : lv.highlightPattern = some pattern)
    (he : lv.heap[n]? = some e) (ho : e.order = 0)
    (hlevel : e.LogEvent.Level ≠ LogLevelInfo)
    (hmatch : pattern.FindStringSubmatchIndex e.LogEvent.Message ≠ [])
    (hname : (pattern.SubexpNames.drop 1)[i]? = some name)
    (hst : ((pattern.FindStringSubmatchIndex e.LogEvent.Message).drop 2)[i * 2]? = some st)
    (hen : ((pattern.FindStringSubmatchIndex e.LogEvent.Message).drop 2)[i * 2 + 1]? = some en)
    (hst1 : st ≠ -1) (hen1 : en ≠ -1) (hstyle : lv.highlightColors name = some style) :
    ∃ spans,
      colorize lv n = .ok { lv with heap := lv.heap.set n { e with styleSpans := spans } } ∧
      ({ start := st, end_ := en - 1,
         style := { fg := style.fg,
                    bg := if e.LogEvent.Level = LogLevelWarning then lv.warningBgColor
                          else lv.errorBgColor,
                    attrs := style.attrs } } : styledSpan) ∈ spans ∧
      ∀ s ∈ spans,
        s.style.bg = (if e.LogEvent.Level = LogLevelWarning then lv.warningBgColor
                      else lv.errorBgColor) ∧
        (s.style = lv.defaultStyle.Background
            (if e.LogEvent.Level = LogLevelWarning then lv.warningBgColor else lv.errorBgColor) ∨
          ∃ name' st', lv.highlightColors name' = some st' ∧
            s.style = st'.Background
              (if e.LogEvent.Level = LogLevelWarning then lv.warningBgColor
               else lv.errorBgColor)) := by
  have hlen0 : ¬ (pattern.FindStringSubmatchIndex e.LogEvent.Message).length = 0 := by
    intro h
    exact hmatch (List.length_eq_zero.1 h)
  have hlen : (pattern.FindStringSubmatchIndex e.LogEvent.Message).length =
      2 * pattern.SubexpNames.length := by
    rcases pattern.index_length e.LogEvent.Message with h | h
    · exact absurd h hmatch
    · exact h
  have hn : 1 ≤ pattern.SubexpNames.length := List.length_pos.2 pattern.names_ne_nil
  have hu : (lv.highlightLevels && e.LogEvent.Level != LogLevelInfo) = true := by
    simp [hlevels, hlevel]
  have hds : (if (lv.highlightLevels && e.LogEvent.Level != LogLevelInfo) = true then
        if e.LogEvent.Level = LogLevelWarning then lv.defaultStyle.Background lv.warningBgColor
        else lv.defaultStyle.Background lv.errorBgColor
      else lv.defaultStyle) =
      lv.defaultStyle.Background
        (if e.LogEvent.Level = LogLevelWarning then lv.warningBgColor else lv.errorBgColor) := by
    rw [if_pos hu]
    split <;> rfl
  obtain ⟨spans, hs⟩ := buildSpans_ok lv e.LogEvent.Message
    ((pattern.FindStringSubmatchIndex e.LogEvent.Message).drop 2)
    (pattern.SubexpNames.drop 1)
    (lv.defaultStyle.Background
      (if e.LogEvent.Level = LogLevelWarning then lv.warningBgColor else lv.errorBgColor))
    true (by simp only [List.length_drop]; omega)
  obtain ⟨hall, hgroup⟩ := buildSpans_level _ _ _ _ _ _ _ hs
  refine ⟨spans, ?_, ?_, ?_⟩
  · unfold colorize
    simp only [bind, Except.bind, line_eq he]
    rw [if_neg (by simp [ho])]
    simp only [henabled, hpat, if_neg hlen0]
    rw [hds, hu]
    simp only [hs, update_eq _ he]
    rw [← henabled, ← hpat]
  · exact hgroup i name st en style hname hst hen hst1 hen1 hstyle
  · intro s hs'
    rcases hall s hs' with h | ⟨name', st', h1, h2⟩
    · exact ⟨by rw [h]; rfl, Or.inl h⟩
    · simp only [if_true] at h2
      exact ⟨by rw [h2]; rfl, Or.inr ⟨name', st', h1, h2⟩⟩

/-- Witness of C13: the event of level Error with the message "ab", the
pattern `(?P<g>a)` and the style of foreground 7 registered for "g"; the error
background is colour 4. -/
theorem level_background_precedence_witness :
    storeErrorLine.heap[0]? = some errorLineAB ∧
    ∃ spans,
      colorize storeErrorLine 0 = .ok { storeErrorLine with
        heap := storeErrorLine.heap.set 0 { errorLineAB with styleSpans := spans } } ∧
      ({ start := 0, end_ := 1 - 1,
         style := { fg := 7, bg := 4, attrs := 0 } } : styledSpan) ∈ spans ∧
      ∀ s ∈ spans, s.style.bg = 4 ∧
        (s.style = storeErrorLine.defaultStyle.Background 4 ∨
          ∃ name' st', storeErrorLine.highlightColors name' = some st' ∧
            s.style = st'.Background 4) :=
  ⟨by decide,
    level_background_precedence storeErrorLine 0 errorLineAB patternGroupG 0 "g" 0 1
      { fg := 7, bg := 0, attrs := 0 }
      (by decide) (by decide) rfl (by decide) (by decide) (by decide) (by decide) (by decide)
      (by decide) (by decide) (by decide) (by decide) (by decide)⟩

theorem update_top {lv lv' : LogView} {p : Option Nat} {f : logEventLine → logEventLine}
    (h : lv.update p f = .ok lv') : lv'.top = lv.top := by
  unfold LogView.update at h
  cases p with
  | none => simp at h
  | some a =>
    cases hl : lv.heap[a]? with
    | none => simp [hl] at h
    | some l =>
      simp only [hl, Except.ok.injEq] at h
      rw [← h]

theorem insertAfter_top {lv lv' : LogView} {node : Option Nat} {new r : Nat}
    (h : insertAfter lv node new = .ok (lv', r)) :
    lv'.top = if node = none then some new else lv.top := by
  unfold insertAfter at h
  cases node with
  | none =>
    simp only [Except.ok.injEq, Prod.mk.injEq] at h
    rw [← h.1]
    rfl
  | some n =>
    simp only [bind, Except.bind] at h
    cases h1 : lv.update (some new) fun l => { l with previous := some n } with
    | error err => simp [h1] at h
    | ok lv1 =>
      simp only [h1] at h
      cases h2 : lv1.line (some n) with
      | error err => simp [h2] at h
      | ok nl =>
        simp only [h2] at h
        cases h3 : lv1.update (some new) fun l => { l with next := nl.next } with
        | error err => simp [h3] at h
        | ok lv2 =>
          simp only [h3] at h
          cases h4 : lv2.line (some n) with
          | error err => simp [h4] at h
          | ok nl2 =>
            simp only [h4] at h
            rw [if_neg (by simp)]
            cases hn : nl2.next with
            | none =>
              simp only [hn, pure, Except.pure] at h
              cases h6 : lv2.update (some n) fun l => { l with next := some new } with
              | error err => simp [h6] at h
              | ok lv4 =>
                simp only [h6, Except.ok.injEq, Prod.mk.injEq] at h
                rw [← h.1, ← update_top h1, ← update_top h3, ← update_top h6]
                split <;> rfl
            | some m =>
              simp only [hn] at h
              cases h5 : lv2.update (some m) fun l => { l with previous := some new } with
              | error err => simp [h5] at h
              | ok lv3 =>
                simp only [h5] at h
                cases h6 : lv3.update (some n) fun l => { l with next := some new } with
                | error err => simp [h6] at h
                | ok lv4 =>
                  simp only [h6, pure, Except.pure, Except.ok.injEq, Prod.mk.injEq] at h
                  rw [← h.1, ← update_top h1, ← update_top h3, ← update_top h5, ← update_top h6]
                  split <;> rfl

theorem append_spec_top (lv : LogView) (as : List Nat) (ev : LogEvent) (t : Nat)
    (hwf : WellFormed lv as) (htop : as ≠ [] → t < as.length ∧ lv.top = as[t]?) :
    ∃ lv' as', append lv ev = .ok lv' ∧ WellFormed lv' as' ∧
      lv'.wrap = lv.wrap ∧ lv'.pageWidth = lv.pageWidth ∧
      lv'.following = lv.following ∧ lv'.pageHeight = lv.pageHeight ∧
      as'.length = as.length + appendLineCount lv.wrap lv.pageWidth (len ev.Message) ∧
      lv'.eventCount =
        lv.eventCount + appendLineCount lv.wrap lv.pageWidth (len ev.Message) ∧
      lv'.top = as'[if lv.following = true ∧
          lv.eventCount + appendLineCount lv.wrap lv.pageWidth (len ev.Message) > lv.pageHeight
        then min ((if as = [] then 0 else t) +
            appendLineCount lv.wrap lv.pageWidth (len ev.Message)) (as'.length - 1)
        else (if as = [] then 0 else t)]? := by
  obtain ⟨H2, top2, l2, hins, hl2, hH2n, hd2, _⟩ :=
    append_insert lv as
      { LogEvent := ev, lineID := lv.eventCount + 1, previous := none, next := none,
        styleSpans := [], start := 0, end_ := (len ev.Message : Int), order := 0, lineCount := 1 }
      hwf (fun hne => ⟨t, htop hne⟩) rfl rfl
  have htop2 : top2 = (as ++ [lv.heap.length])[if as = [] then 0 else t]? := by
    have h := insertAfter_top hins
    have h' : top2 = if lv.lastEvent = none then some lv.heap.length else lv.top := h
    rw [h', hwf.2.2]
    by_cases hne : as = []
    · subst hne
      simp
    · rw [if_neg hne, if_neg (by rwa [List.getLast?_eq_none_iff]),
        (htop hne).2, List.getElem?_append_left (htop hne).1]
  have hj : (if as = [] then 0 else t) < as.length + 1 := by
    by_cases hne : as = []
    · rw [if_pos hne]; omega
    · rw [if_neg hne]; have := (htop hne).1; omega
  generalize (if as = [] then 0 else t) = j at htop2 hj ⊢
  have ho2 : l2.order = 0 := congrArg logEventLine.order hd2
  have hlc2 : l2.lineCount = 1 := congrArg logEventLine.lineCount hd2
  have hev2 : l2.LogEvent = ev := congrArg logEventLine.LogEvent hd2
  obtain ⟨spans, hcol⟩ := colorize_ok
    { lv with heap := H2, firstEvent := (as ++ [lv.heap.length]).head?,
              lastEvent := some lv.heap.length, top := top2 }
    lv.heap.length l2 hH2n ho2
  have hl3 : Linked (H2.set lv.heap.length { l2 with styleSpans := spans })
      (as ++ [lv.heap.length]) := by
    refine hl2.frame fun b _ l hb => ?_
    by_cases hc : b = lv.heap.length
    · subst hc
      rw [hH2n] at hb
      cases hb
      exact ⟨_, getElem?_set_self _ hH2n, rfl, rfl⟩
    · exact ⟨l, by rw [List.getElem?_set_ne (Ne.symm hc), hb], rfl, rfl⟩
  obtain ⟨H4, t4, as4, l4, hcw, hl4, hlast4, hpre, hlen4, hH4n, hlc4⟩ :=
    calculateWrap_fresh
      { lv with heap := H2.set lv.heap.length { l2 with styleSpans := spans },
                firstEvent := (as ++ [lv.heap.length]).head?,
                lastEvent := some lv.heap.length, top := top2 }
      (as ++ [lv.heap.length]) lv.heap.length { l2 with styleSpans := spans }
      hl3 (List.getLast?_concat _) rfl (getElem?_set_self _ hH2n) ho2 hlc2
  simp only [hev2] at hlen4 hlc4
  have hcpos := appendLineCount_pos lv.wrap lv.pageWidth (len ev.Message)
  have hlen4' : as4.length = as.length +
      appendLineCount lv.wrap lv.pageWidth (len ev.Message) := by
    simp only [List.length_append, List.length_singleton] at hlen4
    omega
  have hfirst4 : (as ++ [lv.heap.length]).head? = as4.head? := by
    rw [List.head?_eq_getElem?, List.head?_eq_getElem?, hpre 0 (by simp)]
  have htop4 : top2 = as4[j]? := by
    rw [htop2, hpre j (by simpa using hj)]
  have hj4 : j < as4.length := by omega
  have hwf4 : ∀ c, WellFormed
      { lv with heap := H4, firstEvent := (as ++ [lv.heap.length]).head?,
                lastEvent := some t4, top := top2, eventCount := c } as4 :=
    fun _ => ⟨hl4, hfirst4, hlast4.symm⟩
  simp only [append, LogView.alloc, bind, Except.bind, pure, Except.pure, hins, hcol, hcw,
    LogView.line, hH4n]
  split
  · rename_i hcond
    have hoff := atOffset_clamp (hwf4 (lv.eventCount + l4.lineCount)) j hj4
      (l4.lineCount : Int) (by omega)
    rw [← htop4] at hoff
    simp only [hoff]
    refine ⟨_, as4, rfl, ⟨hl4, hfirst4, hlast4.symm⟩, rfl, rfl, rfl, rfl, hlen4', ?_, ?_⟩
    · show lv.eventCount + l4.lineCount = _
      rw [hlc4]
    · simp only [Bool.and_eq_true, decide_eq_true_eq] at hcond
      rw [hlc4] at hcond
      rw [if_pos hcond]
      show as4[_]? = as4[_]?
      congr 1
      rw [hlc4]
      omega
  · rename_i hcond
    refine ⟨_, as4, rfl, ⟨hl4, hfirst4, hlast4.symm⟩, rfl, rfl, rfl, rfl, hlen4', ?_, ?_⟩
    · show lv.eventCount + l4.lineCount = _
      rw [hlc4]
    · simp only [Bool.and_eq_true, decide_eq_true_eq] at hcond
      rw [hlc4] at hcond
      rw [if_neg hcond]
      exact htop4

theorem Linked.nextN {heap : List logEventLine} {as : List Nat} (h : Linked heap as) :
    ∀ k i, nextN heap k as[i]? = as[i + k]? := by
  intro k
  induction k with
  | zero => intro i; rfl
  | succ k ih =>
    intro i
    cases hai : as[i]? with
    | none =>
      have : as.length ≤ i := by
        by_contra hh
        rw [List.getElem?_eq_getElem (by omega)] at hai
        simp at hai
      rw [List.getElem?_eq_none (by omega)]
      rfl
    | some a =>
      obtain ⟨l, hl, hn, _⟩ := h.get hai
      simp only [Logv.nextN, hl, hn]
      rw [ih (i + 1)]
      congr 1
      omega

theorem AppendEvents_follow (evs : List LogEvent) :
    ∀ (lv : LogView) (as : List Nat) (t : Nat), WellFormed lv as →
      lv.eventCount = as.length → lv.following = true → 1 ≤ lv.pageHeight →
      (as ≠ [] → t < as.length ∧ lv.top = as[t]? ∧ as.length ≤ t + lv.pageHeight) →
      ∃ lv' as' t', AppendEvents lv evs = .ok lv' ∧ WellFormed lv' as' ∧
        lv'.pageHeight = lv.pageHeight ∧
        (as' ≠ [] → t' < as'.length ∧ lv'.top = as'[t']? ∧
          as'.length ≤ t' + lv.pageHeight) ∧
        as.length ≤ as'.length ∧ (as' = [] → lv' = lv) := by
  induction evs with
  | nil =>
    intro lv as t hwf _ _ _ htop
    exact ⟨lv, as, t, rfl, hwf, rfl, htop, le_refl _, fun _ => rfl⟩
  | cons e evs ih =>
    intro lv as t hwf hcount hfollow hh htop
    obtain ⟨lv1, as1, hrun1, hwf1, _, _, hf1, hp1, hlen1, hcount1, htop1⟩ :=
      append_spec_top lv as e t hwf (fun hne => ⟨(htop hne).1, (htop hne).2.1⟩)
    have hcpos := appendLineCount_pos lv.wrap lv.pageWidth (len e.Message)
    have hne1 : as1 ≠ [] := by
      intro h
      rw [h] at hlen1
      simp at hlen1
      omega
    have hj : (if as = [] then 0 else t) < as.length + 1 ∧
        as.length ≤ (if as = [] then 0 else t) + lv.pageHeight := by
      by_cases hne : as = []
      · rw [if_pos hne, hne]; simp
      · rw [if_neg hne]
        have := htop hne
        omega
    generalize (if as = [] then 0 else t) = j at htop1 hj
    obtain ⟨lv2, as2, t2, hrun2, hwf2, hp2, htop2, hmono, _⟩ :=
      ih lv1 as1
        (if lv.following = true ∧
            lv.eventCount + appendLineCount lv.wrap lv.pageWidth (len e.Message) > lv.pageHeight
          then min (j + appendLineCount lv.wrap lv.pageWidth (len e.Message)) (as1.length - 1)
          else j)
        hwf1 (by rw [hcount1, hlen1, hcount]) (hf1.trans hfollow) (by rw [hp1]; exact hh)
        (fun _ => by
          refine ⟨?_, htop1, ?_⟩
          · split <;> omega
          · rw [hp1]
            split
            · omega
            · rename_i hc
              have : ¬ lv.eventCount + appendLineCount lv.wrap lv.pageWidth (len e.Message) >
                  lv.pageHeight := fun h => hc ⟨hfollow, h⟩
              omega)
    have has2 : as2 ≠ [] := by
      intro h
      rw [h, List.length_nil] at hmono
      have := List.length_pos.2 hne1
      omega
    refine ⟨lv2, as2, t2, ?_, hwf2, hp2.trans hp1, ?_, by omega, fun h => absurd h has2⟩
    · simp only [AppendEvents, bind, Except.bind, hrun1, hrun2]
    · intro hne
      have := htop2 hne
      rw [hp1] at this
      exact this

/-- C22 (rewrap matches a fresh build), code at the failing inputs.  (1) Widening:
draw a new log view at 1 by 5, append "ab" and draw again at 3 by 5.  The
resize rewraps, but `calculateWrap` returns at once because the message is
shorter than the page width, so the event keeps its two lines of orders 1 and
2, while the same append at page width 3 gives one line of order 0.
(2) Narrowing: built at page width 2 and redrawn at width 1, the wrapped event
"abc" makes the rewrap panic, while the same append at page width 1 gives
three lines. -/
theorem rewrap_differs_from_fresh_build :
    ((Draw (NewLogView 0 0 0 0) 1 5 >>= fun lv =>
        AppendEvents lv [mkEvent "A" "ab"]).map fun lv => lv.shape) =
      .ok [⟨"A", 0, 1, 1⟩, ⟨"A", 1, 2, 2⟩] ∧
    ((Draw (NewLogView 0 0 0 0) 1 5 >>= fun lv =>
        AppendEvents lv [mkEvent "A" "ab"] >>= fun lv => Draw lv 3 5).map fun lv => lv.shape) =
      .ok [⟨"A", 0, 1, 1⟩, ⟨"A", 1, 2, 2⟩] ∧
    ((Draw (NewLogView 0 0 0 0) 1 5 >>= fun lv =>
        AppendEvents lv [mkEvent "A" "ab"] >>= fun lv =>
        rewrapLines { lv with pageWidth := 3 }).map fun lv => lv.shape) =
      .ok [⟨"A", 0, 1, 1⟩, ⟨"A", 1, 2, 2⟩] ∧
    ((Draw (NewLogView 0 0 0 0) 3 5 >>= fun lv =>
        AppendEvents lv [mkEvent "A" "ab"]).map fun lv => lv.shape) =
      .ok [⟨"A", 0, 2, 0⟩] ∧
    ((Draw (NewLogView 0 0 0 0) 2 5 >>= fun lv =>
        AppendEvents lv [mkEvent "A" "abc"] >>= fun lv => Draw lv 1 5).map fun lv => lv.shape) =
      .error .nilDereference ∧
    ((Draw (NewLogView 0 0 0 0) 1 5 >>= fun lv =>
        AppendEvents lv [mkEvent "A" "abc"]).map fun lv => lv.shape) =
      .ok [⟨"A", 0, 1, 1⟩, ⟨"A", 1, 2, 2⟩, ⟨"A", 2, 3, 3⟩] := by
  decide

/-! ## Insertion and removal inside the list -/

theorem getElem?_insert_mid (as : List Nat) (i n j : Nat) (hi : i < as.length) :
    (as.take (i + 1) ++ n :: as.drop (i + 1))[j]? =
      if j ≤ i then as[j]? else if j = i + 1 then some n else as[j - 1]? := by
  have hlen : (as.take (i + 1)).length = i + 1 := by
    rw [List.length_take]; omega
  by_cases h1 : j ≤ i
  · rw [if_pos h1, List.getElem?_append_left (by omega), List.getElem?_take_of_lt (by omega)]
  · rw [if_neg h1, List.getElem?_append_right (by omega), hlen]
    by_cases h2 : j = i + 1
    · subst h2
      simp
    · rw [if_neg h2]
      obtain ⟨d, rfl⟩ : ∃ d, j = i + 2 + d := ⟨j - (i + 2), by omega⟩
      have : i + 2 + d - (i + 1) = d + 1 := by omega
      rw [this, List.getElem?_cons_succ, List.getElem?_drop]
      congr 1
      omega

theorem getElem?_remove_mid (as : List Nat) (i k j : Nat) (hik : i ≤ k) (hk : k < as.length) :
    (as.take (i + 1) ++ as.drop (k + 1))[j]? = if j ≤ i then as[j]? else as[j + (k - i)]? := by
  have hlen : (as.take (i + 1)).length = i + 1 := by
    rw [List.length_take]; omega
  by_cases h1 : j ≤ i
  · rw [if_pos h1, List.getElem?_append_left (by omega), List.getElem?_take_of_lt (by omega)]
  · rw [if_neg h1, List.getElem?_append_right (by omega), hlen, List.getElem?_drop]
    congr 1
    omega

theorem Linked.insert {heap : List logEventLine} {as : List Nat} (heap' : List logEventLine)
    (n : Nat) (x : logEventLine) (i t : Nat) (h : Linked heap as) (hi : as[i]? = some t)
    (hn : n ∉ as) (hx : heap'[n]? = some x) (hxp : x.previous = some t)
    (hxn : x.next = as[i + 1]?)
    (hf : ∀ j a, as[j]? = some a → ∀ l, heap[a]? = some l →
      ∃ l', heap'[a]? = some l' ∧ l'.next = (if j = i then some n else l.next) ∧
        l'.previous = if j = i + 1 then some n else l.previous) :
    Linked heap' (as.take (i + 1) ++ n :: as.drop (i + 1)) := by
  have hilt := lt_of_getElem? hi
  refine Linked.of_get ?_ fun j a hj => ?_
  · rw [List.nodup_middle, List.take_append_drop]
    exact List.nodup_cons.2 ⟨hn, h.1⟩
  · rw [getElem?_insert_mid as i n j hilt] at hj
    rw [getElem?_insert_mid as i n (j + 1) hilt]
    by_cases h1 : j ≤ i
    · rw [if_pos h1] at hj
      obtain ⟨l, hl, hnx, hp⟩ := h.get hj
      obtain ⟨l', hl', hn', hp'⟩ := hf j a hj l hl
      refine ⟨l', hl', ?_, ?_⟩
      · by_cases h2 : j = i
        · subst h2
          rw [hn', if_pos rfl]
          simp
        · rw [hn', if_neg h2, if_pos (by omega), hnx]
      · rw [hp', if_neg (by omega), hp]
        by_cases h0 : j = 0
        · rw [if_pos h0, if_pos h0]
        · rw [if_neg h0, if_neg h0, getElem?_insert_mid as i n (j - 1) hilt, if_pos (by omega)]
    · rw [if_neg h1] at hj
      by_cases h2 : j = i + 1
      · subst h2
        rw [if_pos rfl] at hj
        have hna : n = a := Option.some.inj hj
        subst hna
        refine ⟨x, hx, ?_, ?_⟩
        · rw [hxn, if_neg (by omega), if_neg (by omega)]
          rfl
        · rw [hxp, if_neg (by omega), getElem?_insert_mid as i n (i + 1 - 1) hilt,
            if_pos (by omega)]
          simpa using hi.symm
      · rw [if_neg h2] at hj
        obtain ⟨l, hl, hnx, hp⟩ := h.get hj
        obtain ⟨l', hl', hn', hp'⟩ := hf (j - 1) a hj l hl
        refine ⟨l', hl', ?_, ?_⟩
        · rw [hn', if_neg (by omega), hnx, if_neg (by omega), if_neg (by omega)]
          have : j - 1 + 1 = j + 1 - 1 := by omega
          rw [this]
        · rw [if_neg (show ¬j = 0 by omega), getElem?_insert_mid as i n (j - 1) hilt, hp']
          by_cases h3 : j - 1 = i + 1
          · rw [if_pos h3, if_neg (by omega), if_pos h3]
          · rw [if_neg h3, hp, if_neg (by omega), if_neg (by omega), if_neg h3]

theorem Linked.remove {heap : List logEventLine} {as : List Nat} (heap' : List logEventLine)
    (i k hd m : Nat) (h : Linked heap as) (hi : as[i]? = some hd) (hik : i < k)
    (hm : as[k + 1]? = some m)
    (hf : ∀ j a, as[j]? = some a → (j ≤ i ∨ k < j) → ∀ l, heap[a]? = some l →
      ∃ l', heap'[a]? = some l' ∧ l'.next = (if j = i then some m else l.next) ∧
        l'.previous = if j = k + 1 then some hd else l.previous) :
    Linked heap' (as.take (i + 1) ++ as.drop (k + 1)) := by
  have hklt : k < as.length := by
    have := lt_of_getElem? hm
    omega
  have hike : i ≤ k := by omega
  refine Linked.of_get ?_ fun j a hj => ?_
  · refine h.1.sublist ?_
    have h1 : (as.take (i + 1) ++ as.drop (k + 1)).Sublist
        (as.take (i + 1) ++ as.drop (i + 1)) :=
      List.Sublist.append (List.Sublist.refl _) (List.drop_sublist_drop_left as (by omega))
    rwa [List.take_append_drop] at h1
  · rw [getElem?_remove_mid as i k j hike hklt] at hj
    rw [getElem?_remove_mid as i k (j + 1) hike hklt]
    by_cases h1 : j ≤ i
    · rw [if_pos h1] at hj
      obtain ⟨l, hl, hnx, hp⟩ := h.get hj
      obtain ⟨l', hl', hn', hp'⟩ := hf j a hj (Or.inl h1) l hl
      refine ⟨l', hl', ?_, ?_⟩
      · by_cases h2 : j = i
        · subst h2
          rw [hn', if_pos rfl, if_neg (by omega), ← hm]
          congr 1
          omega
        · rw [hn', if_neg h2, if_pos (by omega), hnx]
      · rw [hp', if_neg (by omega), hp]
        by_cases h0 : j = 0
        · rw [if_pos h0, if_pos h0]
        · rw [if_neg h0, if_neg h0, getElem?_remove_mid as i k (j - 1) hike hklt,
            if_pos (by omega)]
    · rw [if_neg h1] at hj
      obtain ⟨l, hl, hnx, hp⟩ := h.get hj
      obtain ⟨l', hl', hn', hp'⟩ := hf (j + (k - i)) a hj (Or.inr (by omega)) l hl
      refine ⟨l', hl', ?_, ?_⟩
      · rw [hn', if_neg (by omega), hnx, if_neg (by omega)]
        congr 1
        omega
      · rw [if_neg (show ¬j = 0 by omega), getElem?_remove_mid as i k (j - 1) hike hklt, hp']
        by_cases h3 : j = i + 1
        · subst h3
          rw [if_pos (by omega), if_pos (by omega)]
          simpa using hi.symm
        · rw [if_neg (by omega), hp, if_neg (by omega), if_neg (by omega)]
          congr 1
          omega

theorem insertAfter_mid_eq (lv : LogView) (t n m : Nat) (tl nl ml : logEventLine)
    (ht : lv.heap[t]? = some tl) (hn : lv.heap[n]? = some nl) (hm : lv.heap[m]? = some ml)
    (hne : t ≠ n) (hmn : m ≠ n) (hmt : m ≠ t) (htn : tl.next = some m)
    (hlast : lv.lastEvent ≠ some t) :
    insertAfter lv (some t) n = .ok ({ lv with heap := ((lv.heap.set n { nl with previous := some t, next := some m }).set m { ml with previous := some n }).set t { tl with next := some n } }, n) := by
  have hne2 : n ≠ t := Ne.symm hne
  have hmn2 : n ≠ m := Ne.symm hmn
  have hmt2 : t ≠ m := Ne.symm hmt
  simp [insertAfter, bind, Except.bind, pure, Except.pure, LogView.line, LogView.update, hn, ht, hm,
    List.getElem?_set_ne, getElem?_set_self _ hn, hne, hne2, hmn, hmn2, hmt, hmt2, htn, hlast]

theorem getLast?_eq_some_iff_of_nodup {as : List Nat} (hnd : as.Nodup) {i t : Nat}
    (hi : as[i]? = some t) : as.getLast? = some t ↔ as[i + 1]? = none := by
  have hlt := lt_of_getElem? hi
  rw [List.getLast?_eq_getElem?]
  constructor
  · intro h
    have h2 : as.length - 1 < as.length := by omega
    rw [List.getElem?_eq_getElem h2] at h
    rw [List.getElem?_eq_getElem hlt] at hi
    have := (List.Nodup.getElem_inj_iff hnd).1 ((Option.some.inj h).trans (Option.some.inj hi).symm)
    rw [List.getElem?_eq_none (by omega)]
  · intro h
    have : as.length ≤ i + 1 := by
      by_contra hh
      rw [List.getElem?_eq_getElem (by omega)] at h
      simp at h
    have h3 : as.length - 1 = i := by omega
    rw [h3, hi]

theorem insertAfter_wf (lv : LogView) (as : List Nat) (i t n : Nat) (nl : logEventLine)
    (hwf : WellFormed lv as) (hi : as[i]? = some t) (hn : lv.heap[n]? = some nl)
    (hnot : n ∉ as) :
    ∃ lv', insertAfter lv (some t) n = .ok (lv', n) ∧
      WellFormed lv' (as.take (i + 1) ++ n :: as.drop (i + 1)) := by
  obtain ⟨tl, htl, htn, htp⟩ := hwf.1.get hi
  have hilt := lt_of_getElem? hi
  have htmem : t ∈ as := List.mem_iff_getElem?.2 ⟨i, hi⟩
  have hne : t ≠ n := fun h => hnot (h ▸ htmem)
  have hidx : ∀ j a, as[j]? = some a → (a = t ↔ j = i) := fun j a hj => by
    constructor
    · intro h
      subst h
      have h1 := lt_of_getElem? hj
      rw [List.getElem?_eq_getElem h1] at hj
      rw [List.getElem?_eq_getElem hilt] at hi
      exact (List.Nodup.getElem_inj_iff hwf.1.1).1 ((Option.some.inj hj).trans (Option.some.inj hi).symm)
    · intro h
      subst h
      rw [hi] at hj
      exact (Option.some.inj hj).symm
  have hhead : (as.take (i + 1) ++ n :: as.drop (i + 1)).head? = as.head? := by
    rw [List.head?_eq_getElem?, List.head?_eq_getElem?, getElem?_insert_mid as i n 0 hilt,
      if_pos (Nat.zero_le _)]
  cases hnx : as[i + 1]? with
  | none =>
    have hlast : lv.lastEvent = some t := by
      rw [hwf.2.2]
      exact (getLast?_eq_some_iff_of_nodup hwf.1.1 hi).2 hnx
    rw [hnx] at htn
    refine ⟨_, insertAfter_tail_eq lv t n tl nl htl hn hne htn hlast, ?_, ?_, ?_⟩
    · refine Linked.insert _ n { nl with previous := some t, next := none } i t hwf.1 hi hnot
        ?_ rfl ?_ ?_
      · dsimp only
        rw [List.getElem?_set_ne hne]
        exact getElem?_set_self _ hn
      · rw [hnx]
      · dsimp only
        intro j a hj l hl
        have hja : a ≠ n := fun h => hnot (h ▸ List.mem_iff_getElem?.2 ⟨j, hj⟩)
        have hjlt := lt_of_getElem? hj
        have hlen : as.length ≤ i + 1 := by
          by_contra hh
          rw [List.getElem?_eq_getElem (by omega)] at hnx
          simp at hnx
        by_cases hji : j = i
        · have hat : a = t := (hidx j a hj).2 hji
          subst hat
          rw [htl] at hl
          have hl2 := Option.some.inj hl
          subst hl2
          refine ⟨{ tl with next := some n }, ?_, ?_, ?_⟩
          · exact getElem?_set_self _ (by rw [List.getElem?_set_ne (Ne.symm hne)]; exact htl)
          · rw [if_pos hji]
          · rw [if_neg (by omega)]
        · have hat : a ≠ t := fun h => hji ((hidx j a hj).1 h)
          refine ⟨l, ?_, ?_, ?_⟩
          · rw [List.getElem?_set_ne (Ne.symm hat), List.getElem?_set_ne (Ne.symm hja)]
            exact hl
          · rw [if_neg hji]
          · rw [if_neg (by omega)]
    · show lv.firstEvent = _
      rw [hhead]
      exact hwf.2.1
    · show some n = _
      have hlen : as.length ≤ i + 1 := by
        by_contra hh
        rw [List.getElem?_eq_getElem (by omega)] at hnx
        simp at hnx
      rw [List.drop_eq_nil_of_le hlen]
      simp
  | some m =>
    have hmmem : m ∈ as := List.mem_iff_getElem?.2 ⟨i + 1, hnx⟩
    obtain ⟨ml, hml, hmn, hmp⟩ := hwf.1.get hnx
    have hmn2 : m ≠ n := fun h => hnot (h ▸ hmmem)
    have hmt : m ≠ t := fun h => by
      have := (hidx (i + 1) m hnx).1 h
      omega
    have hlast : lv.lastEvent ≠ some t := by
      rw [hwf.2.2]
      intro h
      rw [(getLast?_eq_some_iff_of_nodup hwf.1.1 hi).1 h] at hnx
      simp at hnx
    rw [hnx] at htn
    have hidm : ∀ j a, as[j]? = some a → (a = m ↔ j = i + 1) := fun j a hj => by
      constructor
      · intro h
        subst h
        have h1 := lt_of_getElem? hj
        have h2 := lt_of_getElem? hnx
        rw [List.getElem?_eq_getElem h1] at hj
        rw [List.getElem?_eq_getElem h2] at hnx
        exact (List.Nodup.getElem_inj_iff hwf.1.1).1 ((Option.some.inj hj).trans (Option.some.inj hnx).symm)
      · intro h
        subst h
        rw [hnx] at hj
        exact (Option.some.inj hj).symm
    refine ⟨_, insertAfter_mid_eq lv t n m tl nl ml htl hn hml hne hmn2 hmt htn hlast, ?_, ?_, ?_⟩
    · refine Linked.insert _ n { nl with previous := some t, next := some m } i t hwf.1 hi hnot
        ?_ rfl ?_ ?_
      · dsimp only
        rw [List.getElem?_set_ne hne, List.getElem?_set_ne hmn2]
        exact getElem?_set_self _ hn
      · rw [hnx]
      · dsimp only
        intro j a hj l hl
        have hja : a ≠ n := fun h => hnot (h ▸ List.mem_iff_getElem?.2 ⟨j, hj⟩)
        by_cases hji : j = i
        · have hat : a = t := (hidx j a hj).2 hji
          subst hat
          rw [htl] at hl
          have hl2 := Option.some.inj hl
          subst hl2
          refine ⟨{ tl with next := some n }, ?_, ?_, ?_⟩
          · exact getElem?_set_self _ (show _ = some tl by
              rw [List.getElem?_set_ne hmt, List.getElem?_set_ne (Ne.symm hne)]
              exact htl)
          · rw [if_pos hji]
          · rw [if_neg (by omega)]
        · have hat : a ≠ t := fun h => hji ((hidx j a hj).1 h)
          by_cases hjm : j = i + 1
          · have ham : a = m := (hidm j a hj).2 hjm
            subst ham
            rw [hml] at hl
            have hl2 := Option.some.inj hl
            subst hl2
            refine ⟨{ ml with previous := some n }, ?_, ?_, ?_⟩
            · rw [List.getElem?_set_ne (Ne.symm hat)]
              exact getElem?_set_self _ (show _ = some ml by
                rw [List.getElem?_set_ne (Ne.symm hja)]
                exact hml)
            · rw [if_neg hji]
            · rw [if_pos hjm]
          · have ham : a ≠ m := fun h => hjm ((hidm j a hj).1 h)
            refine ⟨l, ?_, ?_, ?_⟩
            · rw [List.getElem?_set_ne (Ne.symm hat), List.getElem?_set_ne (Ne.symm ham),
                List.getElem?_set_ne (Ne.symm hja)]
              exact hl
            · rw [if_neg hji]
            · rw [if_neg hjm]
    · show lv.firstEvent = _
      rw [hhead]
      exact hwf.2.1
    · show lv.lastEvent = _
      rw [hwf.2.2]
      have hlt2 := lt_of_getElem? hnx
      rw [List.getLast?_eq_getElem?, List.getLast?_eq_getElem?,
        getElem?_insert_mid as i n _ hilt]
      have hl : (as.take (i + 1) ++ n :: as.drop (i + 1)).length = as.length + 1 := by
        simp
        omega
      rw [hl, if_neg (by omega), if_neg (by omega)]
      rfl

theorem wrapLoop_succ_ex (lv : LogView) (event lines k i cur : Nat) (e : logEventLine)
    (he : lv.heap[event]? = some e) :
    ∃ x, wrapLoop event lines (k + 1) i lv cur =
      (insertAfter { lv with heap := lv.heap ++ [x] } (some cur) lv.heap.length >>= fun p =>
        wrapLoop event lines k (i + 1) p.1 p.2) := by
  have hev := lt_of_getElem? he
  have h1 : ∀ x : logEventLine, (lv.heap ++ [x])[event]? = some e := fun x => by
    rw [List.getElem?_append_left hev]; exact he
  have h3 : ∀ x y : logEventLine, (lv.heap ++ [x]).set lv.heap.length y = lv.heap ++ [y] :=
    fun x y => by simp
  rw [wrapLoop]
  simp only [bind, Except.bind, pure, Except.pure, LogView.line, LogView.update, LogView.alloc, he,
    List.getElem?_concat_length, h1, h3]
  split
  · exact ⟨_, rfl⟩
  · exact ⟨_, rfl⟩

theorem wrapLoop_wf (event lines : Nat) :
    ∀ (k i : Nat) (lv : LogView) (cur : Nat) (as : List Nat), WellFormed lv as → cur ∈ as →
      event ∈ as →
      ∃ lv' t as', wrapLoop event lines k i lv cur = .ok (lv', t) ∧ WellFormed lv' as' := by
  intro k
  induction k with
  | zero =>
    intro i lv cur as hwf _ _
    exact ⟨lv, cur, as, rfl, hwf⟩
  | succ k ih =>
    intro i lv cur as hwf hcur hev
    obtain ⟨e, he⟩ := hwf.1.mem hev
    obtain ⟨x, hx⟩ := wrapLoop_succ_ex lv event lines k i cur e he
    obtain ⟨j, hj⟩ := List.mem_iff_getElem?.1 hcur
    have hjlt := lt_of_getElem? hj
    have hfresh : lv.heap.length ∉ as := fun h => by
      obtain ⟨l, hl⟩ := hwf.1.mem h
      exact absurd (lt_of_getElem? hl) (lt_irrefl _)
    have hwf1 : WellFormed { lv with heap := lv.heap ++ [x] } as := by
      refine ⟨hwf.1.frame fun a ha l hl => ⟨l, ?_, rfl, rfl⟩, hwf.2.1, hwf.2.2⟩
      show (lv.heap ++ [x])[a]? = some l
      rw [List.getElem?_append_left (lt_of_getElem? hl)]
      exact hl
    obtain ⟨lv5, h5, hwf5⟩ := insertAfter_wf { lv with heap := lv.heap ++ [x] } as j cur
      lv.heap.length x hwf1 hj (List.getElem?_concat_length _ _) hfresh
    have hsub : ∀ a ∈ as, a ∈ as.take (j + 1) ++ lv.heap.length :: as.drop (j + 1) := by
      intro a ha
      rw [← List.take_append_drop (j + 1) as] at ha
      rcases List.mem_append.1 ha with h | h
      · exact List.mem_append_left _ h
      · exact List.mem_append_right _ (List.mem_cons_of_mem _ h)
    obtain ⟨lv', t, as', h6, hwf6⟩ := ih (i + 1) lv5 lv.heap.length _ hwf5
      (List.mem_append_right _ (List.mem_cons_self _ _)) (hsub event hev)
    refine ⟨lv', t, as', ?_, hwf6⟩
    rw [hx, h5]
    exact h6

theorem nodup_index_eq {as : List Nat} (hnd : as.Nodup) {i j a : Nat} (hi : as[i]? = some a)
    (hj : as[j]? = some a) : i = j := by
  have h1 := lt_of_getElem? hi
  have h2 := lt_of_getElem? hj
  rw [List.getElem?_eq_getElem h1] at hi
  rw [List.getElem?_eq_getElem h2] at hj
  exact (List.Nodup.getElem_inj_iff hnd).1 ((Option.some.inj hi).trans (Option.some.inj hj).symm)

theorem update_inv {lv lv' : LogView} {p : Option Nat} {f : logEventLine → logEventLine}
    (h : lv.update p f = .ok lv') :
    ∃ a l, p = some a ∧ lv.heap[a]? = some l ∧ lv' = { lv with heap := lv.heap.set a (f l) } := by
  unfold LogView.update at h
  cases p with
  | none => simp at h
  | some a =>
    cases hl : lv.heap[a]? with
    | none => simp [hl] at h
    | some l =>
      simp only [hl, Except.ok.injEq] at h
      exact ⟨a, l, rfl, hl, h.symm⟩

theorem line_inv {lv : LogView} {p : Option Nat} {l : logEventLine} (h : lv.line p = .ok l) :
    ∃ a, p = some a ∧ lv.heap[a]? = some l := by
  unfold LogView.line at h
  cases p with
  | none => simp at h
  | some a =>
    cases hl : lv.heap[a]? with
    | none => simp [hl] at h
    | some l0 =>
      simp only [hl, Except.ok.injEq] at h
      exact ⟨a, rfl, by rw [← h]; exact hl⟩

theorem update_data_wf {lv lv' : LogView} {as : List Nat} {p : Option Nat}
    {f : logEventLine → logEventLine} (hwf : WellFormed lv as)
    (h : lv.update p f = .ok lv')
    (hf : ∀ l, (f l).next = l.next ∧ (f l).previous = l.previous) : WellFormed lv' as := by
  obtain ⟨a, l, _, hl, rfl⟩ := update_inv h
  refine ⟨hwf.1.frame fun b _ lb hlb => ?_, hwf.2.1, hwf.2.2⟩
  dsimp only
  by_cases hba : a = b
  · subst hba
    rw [hl] at hlb
    have := Option.some.inj hlb
    subst this
    exact ⟨f l, getElem?_set_self _ hl, (hf l).1, (hf l).2⟩
  · exact ⟨lb, by rw [List.getElem?_set_ne hba]; exact hlb, rfl, rfl⟩

theorem findFirstWrappedLine_mem {lv : LogView} {as : List Nat} (h : Linked lv.heap as) :
    ∀ (fuel j a r : Nat), as[j]? = some a → findFirstWrappedLine lv fuel a = .ok r →
      ∃ i, i ≤ j ∧ as[i]? = some r := by
  intro fuel
  induction fuel with
  | zero =>
    intro j a r _ hr
    simp [findFirstWrappedLine] at hr
  | succ fuel ih =>
    intro j a r hj hr
    obtain ⟨l, hl, _, hp⟩ := h.get hj
    rw [findFirstWrappedLine] at hr
    simp only [bind, Except.bind, line_eq hl, pure, Except.pure] at hr
    by_cases ho : l.order > 1
    · rw [if_pos ho] at hr
      by_cases h0 : j = 0
      · rw [if_pos h0] at hp
        simp only [hp, Except.ok.injEq] at hr
        exact ⟨j, le_refl _, hr ▸ hj⟩
      · rw [if_neg h0] at hp
        have hlt := lt_of_getElem? hj
        have hq : as[j - 1]? = some as[j - 1] := List.getElem?_eq_getElem (by omega)
        rw [hq] at hp
        simp only [hp] at hr
        obtain ⟨i, hi, hir⟩ := ih (j - 1) _ r hq hr
        exact ⟨i, by omega, hir⟩
    · rw [if_neg ho] at hr
      simp only [Except.ok.injEq] at hr
      exact ⟨j, le_refl _, hr ▸ hj⟩

theorem deleteWrapLoop_mem {lv : LogView} {as : List Nat} (h : Linked lv.heap as) :
    ∀ (fuel j : Nat) (r : Option Nat), deleteWrapLoop lv fuel as[j]? = .ok r →
      ∃ k a, j ≤ k ∧ as[k]? = some a ∧ r = some a := by
  intro fuel
  induction fuel with
  | zero =>
    intro j r hr
    simp [deleteWrapLoop] at hr
  | succ fuel ih =>
    intro j r hr
    rw [deleteWrapLoop] at hr
    cases hj : as[j]? with
    | none => simp [hj, bind, Except.bind, LogView.line] at hr
    | some a =>
      obtain ⟨l, hl, hn, _⟩ := h.get hj
      rw [hj] at hr
      simp only [bind, Except.bind, line_eq hl, pure, Except.pure] at hr
      cases hnx : as[j + 1]? with
      | none =>
        rw [hnx] at hn
        simp only [hn, Except.ok.injEq] at hr
        exact ⟨j, a, le_refl _, hj, hr.symm⟩
      | some nn =>
        obtain ⟨nl, hnl, _, _⟩ := h.get hnx
        rw [hnx] at hn
        simp only [hn, line_eq hnl] at hr
        by_cases ho : nl.order > 1
        · rw [if_pos ho, ← hnx] at hr
          obtain ⟨k, b, hk, hb, hrb⟩ := ih (j + 1) r hr
          exact ⟨k, b, by omega, hb, hrb⟩
        · rw [if_neg ho] at hr
          simp only [Except.ok.injEq] at hr
          exact ⟨j, a, le_refl _, hj, hr.symm⟩

theorem deleteWrapLines_wf {lv lv' : LogView} {as : List Nat} {event r : Nat}
    (hwf : WellFormed lv as) (hev : event ∈ as)
    (h : deleteWrapLines lv event = .ok (lv', r)) :
    ∃ as', WellFormed lv' as' ∧ r ∈ as' := by
  obtain ⟨e, he⟩ := hwf.1.mem hev
  obtain ⟨j0, hj0⟩ := List.mem_iff_getElem?.1 hev
  unfold deleteWrapLines at h
  simp only [bind, Except.bind, line_eq he] at h
  by_cases ho : e.order = 0
  · rw [if_pos ho] at h
    simp only [pure, Except.pure, Except.ok.injEq, Prod.mk.injEq] at h
    exact ⟨as, h.1 ▸ hwf, h.2 ▸ hev⟩
  · rw [if_neg ho] at h
    cases hff : findFirstWrappedLine lv (lv.heap.length + 1) event with
    | error err => simp [hff] at h
    | ok head =>
      simp only [hff] at h
      obtain ⟨i, _, hi⟩ := findFirstWrappedLine_mem hwf.1 _ j0 event head hj0 hff
      cases h1 : lv.update (some head) fun l => { l with order := 0 } with
      | error err => simp [h1] at h
      | ok lv1 =>
        simp only [h1] at h
        have hwf1 : WellFormed lv1 as := update_data_wf hwf h1 (fun _ => ⟨rfl, rfl⟩)
        cases h2 : lv1.update (some head) fun l => { l with start := 0 } with
        | error err => simp [h2] at h
        | ok lv2 =>
          simp only [h2] at h
          have hwf2 : WellFormed lv2 as := update_data_wf hwf1 h2 (fun _ => ⟨rfl, rfl⟩)
          cases h3 : lv2.update (some head) fun l =>
              { l with end_ := (len l.LogEvent.Message : Int) } with
          | error err => simp [h3] at h
          | ok lv3 =>
            simp only [h3] at h
            have hwf3 : WellFormed lv3 as := update_data_wf hwf2 h3 (fun _ => ⟨rfl, rfl⟩)
            obtain ⟨hl, hhl, hhn, hhp⟩ := hwf3.1.get hi
            simp only [line_eq hhl] at h
            cases h4 : deleteWrapLoop lv3 (lv3.heap.length + 1) hl.next with
            | error err => simp [h4] at h
            | ok next =>
              simp only [h4] at h
              rw [hhn] at h4
              obtain ⟨k, ak, hk, hak, hnext⟩ := deleteWrapLoop_mem hwf3.1 _ (i + 1) next h4
              subst hnext
              obtain ⟨nl, hnl, hnn, _⟩ := hwf3.1.get hak
              have hne : head ≠ ak := fun hh => by
                rw [← hh] at hak
                have := nodup_index_eq hwf3.1.1 hi hak
                omega
              simp only [line_eq hnl, update_eq _ hhl] at h
              rw [hnn] at h
              cases hm : as[k + 1]? with
              | none =>
                rw [hm] at h
                have hnl4 : ({ lv3 with heap := lv3.heap.set head { hl with next := none } } :
                    LogView).heap[ak]? = some nl := by
                  dsimp only
                  rw [List.getElem?_set_ne hne]
                  exact hnl
                simp only [line_eq hnl4] at h
                rw [hnn, hm] at h
                simp [LogView.update] at h
              | some m =>
                rw [hm] at h
                have hnl4 : ({ lv3 with heap := lv3.heap.set head { hl with next := some m } } :
                    LogView).heap[ak]? = some nl := by
                  dsimp only
                  rw [List.getElem?_set_ne hne]
                  exact hnl
                simp only [line_eq hnl4] at h
                rw [hnn, hm] at h
                obtain ⟨ml, hml, _, _⟩ := hwf3.1.get hm
                have hmh : head ≠ m := fun hh => by
                  rw [← hh] at hm
                  have := nodup_index_eq hwf3.1.1 hi hm
                  omega
                have hml4 : ({ lv3 with heap := lv3.heap.set head { hl with next := some m } } :
                    LogView).heap[m]? = some ml := by
                  dsimp only
                  rw [List.getElem?_set_ne hmh]
                  exact hml
                simp only [update_eq _ hml4, pure, Except.pure, Except.ok.injEq,
                  Prod.mk.injEq] at h
                obtain ⟨hlv, hr⟩ := h
                subst hr
                have hklt := lt_of_getElem? hm
                have hget : ∀ j, (as.take (i + 1) ++ as.drop (k + 1))[j]? =
                    if j ≤ i then as[j]? else as[j + (k - i)]? := fun j =>
                  getElem?_remove_mid as i k j (by omega) (by omega)
                refine ⟨as.take (i + 1) ++ as.drop (k + 1), ⟨?_, ?_, ?_⟩, ?_⟩
                · rw [← hlv]
                  dsimp only
                  refine Linked.remove _ i k head m hwf3.1 hi (by omega) hm ?_
                  intro j a hj hjr l hla
                  by_cases hji : j = i
                  · have hah : a = head := by
                      rw [hji, hi] at hj
                      exact (Option.some.inj hj).symm
                    rw [hah, hhl] at hla
                    have hl2 := Option.some.inj hla
                    refine ⟨{ hl with next := some m }, ?_, ?_, ?_⟩
                    · rw [hah, List.getElem?_set_ne (Ne.symm hmh)]
                      exact getElem?_set_self _ hhl
                    · rw [if_pos hji]
                    · rw [if_neg (by omega), ← hl2]
                  · have hah : head ≠ a := fun hh => by
                      rw [← hh] at hj
                      exact hji (nodup_index_eq hwf3.1.1 hj hi)
                    by_cases hjk : j = k + 1
                    · have ham : a = m := by
                        rw [hjk, hm] at hj
                        exact (Option.some.inj hj).symm
                      rw [ham, hml] at hla
                      have hl2 := Option.some.inj hla
                      refine ⟨{ ml with previous := some head }, ?_, ?_, ?_⟩
                      · rw [ham]
                        exact getElem?_set_self _ hml4
                      · rw [if_neg hji, ← hl2]
                      · rw [if_pos hjk]
                    · have ham : m ≠ a := fun hh => by
                        rw [← hh] at hj
                        exact hjk (nodup_index_eq hwf3.1.1 hj hm)
                      refine ⟨l, ?_, ?_, ?_⟩
                      · rw [List.getElem?_set_ne ham, List.getElem?_set_ne hah]
                        exact hla
                      · rw [if_neg hji]
                      · rw [if_neg hjk]
                · rw [← hlv]
                  show lv3.firstEvent = _
                  rw [hwf3.2.1, List.head?_eq_getElem?, List.head?_eq_getElem?, hget 0,
                    if_pos (Nat.zero_le _)]
                · rw [← hlv]
                  show lv3.lastEvent = _
                  rw [hwf3.2.2, List.getLast?_eq_getElem?, List.getLast?_eq_getElem?, hget]
                  have hlen : (as.take (i + 1) ++ as.drop (k + 1)).length =
                      i + 1 + (as.length - (k + 1)) := by
                    rw [List.length_append, List.length_take, List.length_drop]
                    omega
                  rw [hlen, if_neg (by omega)]
                  congr 1
                  omega
                · refine List.mem_iff_getElem?.2 ⟨i, ?_⟩
                  rw [hget i, if_pos (le_refl _)]
                  exact hi

theorem bind_ok_inv {α β : Type} {x : Except Fault α} {f : α → Except Fault β} {b : β}
    (h : (x >>= f) = .ok b) : ∃ a, x = .ok a ∧ f a = .ok b := by
  cases x with
  | error err => simp [bind, Except.bind] at h
  | ok a => exact ⟨a, rfl, h⟩

theorem calculateWrap_body_wf {lv0 lv' : LogView} {as0 : List Nat} {event r : Nat}
    (hwf0 : WellFormed lv0 as0) (hev0 : event ∈ as0)
    (h : (do
      let e0 ← lv0.line (some event)
      let lines := wrapLineCount (len e0.LogEvent.Message) lv0.pageWidth
      let lv1 ← lv0.update (some event) fun l => { l with order := 1 }
      let lv2 ← lv1.update (some event) fun l => { l with start := 0 }
      let lv3 ← lv2.update (some event) fun l => { l with end_ := (lv2.pageWidth : Int) }
      let lv4 ← lv3.update (some event) fun l => { l with lineCount := lines }
      wrapLoop event lines (lines - 1) 1 lv4 event) = .ok (lv', r)) :
    ∃ as', WellFormed lv' as' := by
  obtain ⟨e0, _, h⟩ := bind_ok_inv h
  dsimp only at h
  obtain ⟨lv1, h1, h⟩ := bind_ok_inv h
  obtain ⟨lv2, h2, h⟩ := bind_ok_inv h
  obtain ⟨lv3, h3, h⟩ := bind_ok_inv h
  obtain ⟨lv4, h4, h⟩ := bind_ok_inv h
  have hwf1 : WellFormed lv1 as0 := update_data_wf hwf0 h1 (fun _ => ⟨rfl, rfl⟩)
  have hwf2 : WellFormed lv2 as0 := update_data_wf hwf1 h2 (fun _ => ⟨rfl, rfl⟩)
  have hwf3 : WellFormed lv3 as0 := update_data_wf hwf2 h3 (fun _ => ⟨rfl, rfl⟩)
  have hwf4 : WellFormed lv4 as0 := update_data_wf hwf3 h4 (fun _ => ⟨rfl, rfl⟩)
  obtain ⟨lv5, t, as5, h5, hwf5⟩ := wrapLoop_wf event
    (wrapLineCount (len e0.LogEvent.Message) lv0.pageWidth)
    (wrapLineCount (len e0.LogEvent.Message) lv0.pageWidth - 1) 1 lv4 event as0
    hwf4 hev0 hev0
  rw [h5] at h
  simp only [Except.ok.injEq, Prod.mk.injEq] at h
  exact ⟨as5, h.1 ▸ hwf5⟩

theorem calculateWrap_wf {lv lv' : LogView} {as : List Nat} {event r : Nat}
    (hwf : WellFormed lv as) (hev : event ∈ as)
    (h : calculateWrap lv event = .ok (lv', r)) :
    ∃ as', WellFormed lv' as' := by
  unfold calculateWrap at h
  split at h
  · simp only [pure, Except.pure, Except.ok.injEq, Prod.mk.injEq] at h
    exact ⟨as, h.1 ▸ hwf⟩
  · obtain ⟨e, _, h⟩ := bind_ok_inv h
    split at h
    · simp only [pure, Except.pure, Except.ok.injEq, Prod.mk.injEq] at h
      exact ⟨as, h.1 ▸ hwf⟩
    · dsimp only at h
      by_cases ho : e.order ≠ 0
      · rw [if_pos ho] at h
        obtain ⟨p, hd, h⟩ := bind_ok_inv h
        obtain ⟨lv0, ev0⟩ := p
        obtain ⟨as0, hwf0, hev0⟩ := deleteWrapLines_wf hwf hev hd
        exact calculateWrap_body_wf hwf0 hev0 h
      · rw [if_neg ho] at h
        obtain ⟨p, hd, h⟩ := bind_ok_inv h
        obtain ⟨lv0, ev0⟩ := p
        simp only [pure, Except.pure, Except.ok.injEq, Prod.mk.injEq] at hd
        obtain ⟨h1, h2⟩ := hd
        subst h1
        subst h2
        exact calculateWrap_body_wf hwf hev h

/-! ## Validity in the words of the specification and the address list -/

theorem chain_nextN {heap : List logEventLine} {w : List Nat}
    (hch : ∀ i a, w[i]? = some a → ∃ l, heap[a]? = some l ∧ l.next = w[i + 1]?) :
    ∀ k i, nextN heap k w[i]? = w[i + k]? := by
  intro k
  induction k with
  | zero => intro i; rfl
  | succ k ih =>
    intro i
    cases hai : w[i]? with
    | none =>
      have : w.length ≤ i := by
        by_contra hh
        rw [List.getElem?_eq_getElem (by omega)] at hai
        simp at hai
      rw [List.getElem?_eq_none (by omega)]
      rfl
    | some a =>
      obtain ⟨l, hl, hn⟩ := hch i a hai
      simp only [Logv.nextN, hl, hn]
      rw [ih (i + 1)]
      congr 1
      omega

theorem chain_nodup {heap : List logEventLine} {w : List Nat}
    (hch : ∀ i a, w[i]? = some a → ∃ l, heap[a]? = some l ∧ l.next = w[i + 1]?) :
    w.Nodup := by
  rw [List.nodup_iff_getElem?_ne_getElem?]
  intro i j hij hj heq
  have h1 := chain_nextN hch (w.length - j) i
  have h2 := chain_nextN hch (w.length - j) j
  rw [heq, h2, List.getElem?_eq_none (by omega),
    List.getElem?_eq_getElem (show i + (w.length - j) < w.length by omega)] at h1
  simp at h1

theorem walk_none (heap : List logEventLine) (fuel : Nat) : walk heap fuel none = [] := by
  cases fuel <;> rfl

theorem walk_chain {heap : List logEventLine} {z : Nat} {lz : logEventLine}
    (hz : heap[z]? = some lz) (hzn : lz.next = none) :
    ∀ (fuel : Nat) (p : Option Nat), z ∈ walk heap fuel p →
      (walk heap fuel p).head? = p ∧ (walk heap fuel p).getLast? = some z ∧
      ∀ i a, (walk heap fuel p)[i]? = some a →
        ∃ l, heap[a]? = some l ∧ l.next = (walk heap fuel p)[i + 1]? := by
  intro fuel
  induction fuel with
  | zero =>
    intro p hm
    simp [walk] at hm
  | succ fuel ih =>
    intro p hm
    cases p with
    | none => simp [walk] at hm
    | some a =>
      cases hl : heap[a]? with
      | none => simp [walk, hl] at hm
      | some l =>
        have hw : walk heap (fuel + 1) (some a) = a :: walk heap fuel l.next := by
          simp only [walk, hl]
        rw [hw] at hm ⊢
        by_cases hza : z = a
        · subst hza
          rw [hz] at hl
          have hl2 := Option.some.inj hl
          subst hl2
          rw [hzn, walk_none]
          refine ⟨rfl, rfl, fun i b hi => ?_⟩
          cases i with
          | zero =>
            simp only [List.getElem?_cons_zero, Option.some.injEq] at hi
            subst hi
            exact ⟨lz, hz, by rw [hzn]; rfl⟩
          | succ i => simp at hi
        · have hm2 : z ∈ walk heap fuel l.next := by
            rcases List.mem_cons.1 hm with h | h
            · exact absurd h hza
            · exact h
          obtain ⟨hh, hlast, hch⟩ := ih l.next hm2
          refine ⟨rfl, ?_, fun i b hi => ?_⟩
          · obtain ⟨b, rest, hbr⟩ := List.exists_cons_of_ne_nil (List.ne_nil_of_mem hm2)
            rw [hbr, List.getLast?_cons_cons, ← hbr]
            exact hlast
          · cases i with
            | zero =>
              simp only [List.getElem?_cons_zero, Option.some.injEq] at hi
              subst hi
              refine ⟨l, hl, ?_⟩
              rw [List.getElem?_cons_succ, ← List.head?_eq_getElem?, hh]
            | succ i =>
              rw [List.getElem?_cons_succ] at hi
              rw [List.getElem?_cons_succ]
              exact hch i b hi

theorem ListValid.toWellFormed {lv : LogView} (h : ListValid lv) :
    WellFormed lv lv.lineAddrs := by
  obtain ⟨h1, h2, h3⟩ := h
  unfold FirstHasNoPrevious at h1
  unfold LastHasNoNext at h2
  cases hf : lv.firstEvent with
  | none =>
    rw [hf] at h1
    simp only at h1
    have hw : lv.lineAddrs = [] := by
      unfold LogView.lineAddrs
      rw [hf]
      exact walk_none _ _
    rw [hw]
    exact ⟨Linked.nil _, hf, h1⟩
  | some f =>
    rw [hf] at h1
    simp only at h1
    cases hlast : lv.lastEvent with
    | none =>
      rw [hlast] at h2
      simp only at h2
      rw [hf] at h2
      simp at h2
    | some z =>
      rw [hlast] at h2
      simp only at h2
      obtain ⟨hzn, hzm⟩ := h2
      unfold LogView.nextOf at hzn
      cases hz : lv.heap[z]? with
      | none => simp [hz] at hzn
      | some lz =>
        simp only [hz, Option.map_some', Option.some.injEq] at hzn
        have hzm2 := hzm
        unfold LogView.lineAddrs at hzm2
        obtain ⟨hhead, hl, hch⟩ := walk_chain hz hzn _ _ hzm2
        have hhead2 : lv.lineAddrs.head? = some f := by
          unfold LogView.lineAddrs
          rw [hhead, hf]
        have hl2 : lv.lineAddrs.getLast? = some z := hl
        have hch2 : ∀ i a, lv.lineAddrs[i]? = some a →
            ∃ l, lv.heap[a]? = some l ∧ l.next = lv.lineAddrs[i + 1]? := hch
        refine ⟨Linked.of_get (chain_nodup hch2) fun i a hi => ?_, hf.trans hhead2.symm,
          hlast.trans hl2.symm⟩
        obtain ⟨l, hla, hln⟩ := hch2 i a hi
        refine ⟨l, hla, hln, ?_⟩
        cases i with
        | zero =>
          rw [if_pos rfl]
          rw [List.head?_eq_getElem?, hi] at hhead2
          have haf := Option.some.inj hhead2
          subst haf
          unfold LogView.previousOf at h1
          simp only [hla, Option.map_some', Option.some.injEq] at h1
          exact h1
        | succ i =>
          rw [if_neg (by omega)]
          have hlt := lt_of_getElem? hi
          have hq : lv.lineAddrs[i]? = some lv.lineAddrs[i] :=
            List.getElem?_eq_getElem (by omega)
          obtain ⟨lq, hlq, hlqn⟩ := hch2 i _ hq
          have hb := h3 _ (List.mem_iff_getElem?.2 ⟨i, hq⟩)
          unfold NextPointsBack LogView.nextOf LogView.previousOf at hb
          rw [hi] at hlqn
          simp only [hlq, Option.map_some', hlqn, hla, Option.some.injEq] at hb
          rw [hb]
          exact hq.symm

theorem WellFormed.listValid {lv : LogView} {as : List Nat} (h : WellFormed lv as) :
    ListValid lv := by
  have hw := h.lineAddrs_eq
  refine ⟨?_, ?_, ?_⟩
  · unfold FirstHasNoPrevious
    cases hf : lv.firstEvent with
    | none =>
      simp only
      rw [h.2.1, List.head?_eq_none_iff] at hf
      rw [h.2.2, hf]
      rfl
    | some f =>
      simp only
      rw [h.2.1, List.head?_eq_getElem?] at hf
      obtain ⟨l, hl, _, hp⟩ := h.1.get hf
      unfold LogView.previousOf
      rw [hl, Option.map_some', hp, if_pos rfl]
  · unfold LastHasNoNext
    cases hz : lv.lastEvent with
    | none =>
      simp only
      rw [h.2.2, List.getLast?_eq_none_iff] at hz
      rw [h.2.1, hz]
      rfl
    | some z =>
      simp only
      rw [h.2.2] at hz
      have hz2 := hz
      rw [List.getLast?_eq_getElem?] at hz2
      obtain ⟨l, hl, hn, _⟩ := h.1.get hz2
      have hne : as ≠ [] := fun hh => by simp [hh] at hz
      have hpos : 0 < as.length := List.length_pos.2 hne
      refine ⟨?_, ?_⟩
      · unfold LogView.nextOf
        rw [hl, Option.map_some', hn, List.getElem?_eq_none (by omega)]
      · rw [hw]
        exact List.mem_of_mem_getLast? hz
  · intro a ha
    rw [hw] at ha
    obtain ⟨i, hi⟩ := List.mem_iff_getElem?.1 ha
    obtain ⟨l, hl, hn, _⟩ := h.1.get hi
    unfold NextPointsBack LogView.nextOf
    rw [hl, Option.map_some', hn]
    cases hm : as[i + 1]? with
    | none => simp only
    | some m =>
      simp only
      obtain ⟨ml, hml, _, hmp⟩ := h.1.get hm
      unfold LogView.previousOf
      rw [hml, Option.map_some', hmp, if_neg (by omega)]
      simpa using hi

/-! ## The bound of the walks is never reached on a well-formed list -/

theorem bind_ne_outOfFuel {α β : Type} {x : Except Fault α} {f : α → Except Fault β}
    (hx : x ≠ .error .outOfFuel) (hf : ∀ a, x = .ok a → f a ≠ .error .outOfFuel) :
    (x >>= f) ≠ .error .outOfFuel := by
  cases x with
  | error err =>
    intro h
    change Except.error err = _ at h
    cases h
    exact hx rfl
  | ok a => exact hf a rfl

theorem line_ne_outOfFuel (lv : LogView) (p : Option Nat) : lv.line p ≠ .error .outOfFuel := by
  unfold LogView.line
  cases p with
  | none => simp
  | some a =>
    dsimp only
    split <;> simp

theorem update_ne_outOfFuel (lv : LogView) (p : Option Nat) (f : logEventLine → logEventLine) :
    lv.update p f ≠ .error .outOfFuel := by
  unfold LogView.update
  cases p with
  | none => simp
  | some a =>
    dsimp only
    split <;> simp

theorem findFirstWrappedLine_ne_outOfFuel {lv : LogView} {as : List Nat}
    (h : Linked lv.heap as) :
    ∀ (fuel j a : Nat), as[j]? = some a → j < fuel →
      findFirstWrappedLine lv fuel a ≠ .error .outOfFuel := by
  intro fuel
  induction fuel with
  | zero =>
    intro j a _ hj
    omega
  | succ fuel ih =>
    intro j a hj hlt
    obtain ⟨l, hl, _, hp⟩ := h.get hj
    rw [findFirstWrappedLine]
    simp only [bind, Except.bind, line_eq hl, pure, Except.pure]
    by_cases ho : l.order > 1
    · rw [if_pos ho]
      by_cases h0 : j = 0
      · rw [if_pos h0] at hp
        simp [hp]
      · rw [if_neg h0] at hp
        have hlt2 := lt_of_getElem? hj
        have hq : as[j - 1]? = some as[j - 1] := List.getElem?_eq_getElem (by omega)
        rw [hq] at hp
        simp only [hp]
        exact ih (j - 1) _ hq (by omega)
    · rw [if_neg ho]
      simp

theorem deleteWrapLoop_ne_outOfFuel {lv : LogView} {as : List Nat} (h : Linked lv.heap as) :
    ∀ (fuel j : Nat), j ≤ as.length → as.length < j + fuel →
      deleteWrapLoop lv fuel as[j]? ≠ .error .outOfFuel := by
  intro fuel
  induction fuel with
  | zero =>
    intro j hj hlen
    omega
  | succ fuel ih =>
    intro j hjl hlen
    rw [deleteWrapLoop]
    cases hj : as[j]? with
    | none => simp [bind, Except.bind, LogView.line]
    | some a =>
      obtain ⟨l, hl, hn, _⟩ := h.get hj
      simp only [bind, Except.bind, line_eq hl, pure, Except.pure]
      cases hnx : as[j + 1]? with
      | none =>
        rw [hnx] at hn
        simp [hn]
      | some nn =>
        obtain ⟨nl, hnl, _, _⟩ := h.get hnx
        rw [hnx] at hn
        simp only [hn, line_eq hnl]
        by_cases ho : nl.order > 1
        · rw [if_pos ho, ← hnx]
          exact ih (j + 1) (by have := lt_of_getElem? hj; omega) (by omega)
        · rw [if_neg ho]
          simp

theorem deleteWrapLines_ne_outOfFuel {lv : LogView} {as : List Nat} {event : Nat}
    (hwf : WellFormed lv as) (hev : event ∈ as) :
    deleteWrapLines lv event ≠ .error .outOfFuel := by
  obtain ⟨j0, hj0⟩ := List.mem_iff_getElem?.1 hev
  have hlen := hwf.1.length_le
  have hj0lt := lt_of_getElem? hj0
  unfold deleteWrapLines
  refine bind_ne_outOfFuel (line_ne_outOfFuel _ _) fun e _ => ?_
  split
  · simp [pure, Except.pure]
  · refine bind_ne_outOfFuel
      (findFirstWrappedLine_ne_outOfFuel hwf.1 _ j0 event hj0 (by omega)) fun head hff => ?_
    obtain ⟨i, _, hi⟩ := findFirstWrappedLine_mem hwf.1 _ j0 event head hj0 hff
    refine bind_ne_outOfFuel (update_ne_outOfFuel _ _ _) fun lv1 h1 => ?_
    have hwf1 : WellFormed lv1 as := update_data_wf hwf h1 (fun _ => ⟨rfl, rfl⟩)
    refine bind_ne_outOfFuel (update_ne_outOfFuel _ _ _) fun lv2 h2 => ?_
    have hwf2 : WellFormed lv2 as := update_data_wf hwf1 h2 (fun _ => ⟨rfl, rfl⟩)
    refine bind_ne_outOfFuel (update_ne_outOfFuel _ _ _) fun lv3 h3 => ?_
    have hwf3 : WellFormed lv3 as := update_data_wf hwf2 h3 (fun _ => ⟨rfl, rfl⟩)
    refine bind_ne_outOfFuel (line_ne_outOfFuel _ _) fun hl hhl => ?_
    obtain ⟨l, hl2, hn, _⟩ := hwf3.1.get hi
    rw [line_eq hl2] at hhl
    have hll : l = hl := Except.ok.inj hhl
    subst hll
    have hilt := lt_of_getElem? hi
    have hlen3 := hwf3.1.length_le
    refine bind_ne_outOfFuel ?_ fun next _ => ?_
    · rw [hn]
      exact deleteWrapLoop_ne_outOfFuel hwf3.1 _ (i + 1) (by omega) (by omega)
    refine bind_ne_outOfFuel (line_ne_outOfFuel _ _) fun nl _ => ?_
    refine bind_ne_outOfFuel (update_ne_outOfFuel _ _ _) fun lv4 _ => ?_
    refine bind_ne_outOfFuel (line_ne_outOfFuel _ _) fun nl2 _ => ?_
    refine bind_ne_outOfFuel (update_ne_outOfFuel _ _ _) fun lv5 _ => ?_
    simp [pure, Except.pure]

theorem calculateWrap_body_ne_outOfFuel {lv0 : LogView} {as0 : List Nat} {event : Nat}
    (hwf0 : WellFormed lv0 as0) (hev0 : event ∈ as0) :
    (do
      let e0 ← lv0.line (some event)
      let lines := wrapLineCount (len e0.LogEvent.Message) lv0.pageWidth
      let lv1 ← lv0.update (some event) fun l => { l with order := 1 }
      let lv2 ← lv1.update (some event) fun l => { l with start := 0 }
      let lv3 ← lv2.update (some event) fun l => { l with end_ := (lv2.pageWidth : Int) }
      let lv4 ← lv3.update (some event) fun l => { l with lineCount := lines }
      wrapLoop event lines (lines - 1) 1 lv4 event) ≠ .error .outOfFuel := by
  refine bind_ne_outOfFuel (line_ne_outOfFuel _ _) fun e0 _ => ?_
  dsimp only
  refine bind_ne_outOfFuel (update_ne_outOfFuel _ _ _) fun lv1 h1 => ?_
  have hwf1 : WellFormed lv1 as0 := update_data_wf hwf0 h1 (fun _ => ⟨rfl, rfl⟩)
  refine bind_ne_outOfFuel (update_ne_outOfFuel _ _ _) fun lv2 h2 => ?_
  have hwf2 : WellFormed lv2 as0 := update_data_wf hwf1 h2 (fun _ => ⟨rfl, rfl⟩)
  refine bind_ne_outOfFuel (update_ne_outOfFuel _ _ _) fun lv3 h3 => ?_
  have hwf3 : WellFormed lv3 as0 := update_data_wf hwf2 h3 (fun _ => ⟨rfl, rfl⟩)
  refine bind_ne_outOfFuel (update_ne_outOfFuel _ _ _) fun lv4 h4 => ?_
  have hwf4 : WellFormed lv4 as0 := update_data_wf hwf3 h4 (fun _ => ⟨rfl, rfl⟩)
  obtain ⟨lv5, t, as5, h5, _⟩ := wrapLoop_wf event
    (wrapLineCount (len e0.LogEvent.Message) lv0.pageWidth)
    (wrapLineCount (len e0.LogEvent.Message) lv0.pageWidth - 1) 1 lv4 event as0
    hwf4 hev0 hev0
  rw [h5]
  simp

theorem calculateWrap_ne_outOfFuel {lv : LogView} {as : List Nat} {event : Nat}
    (hwf : WellFormed lv as) (hev : event ∈ as) :
    calculateWrap lv event ≠ .error .outOfFuel := by
  unfold calculateWrap
  split
  · simp [pure, Except.pure]
  · refine bind_ne_outOfFuel (line_ne_outOfFuel _ _) fun e _ => ?_
    split
    · simp [pure, Except.pure]
    · dsimp only
      split
      · refine bind_ne_outOfFuel (deleteWrapLines_ne_outOfFuel hwf hev) fun p hd => ?_
        obtain ⟨lv0, ev0⟩ := p
        obtain ⟨as0, hwf0, hev0⟩ := deleteWrapLines_wf hwf hev hd
        exact calculateWrap_body_ne_outOfFuel hwf0 hev0
      · refine bind_ne_outOfFuel (by simp [pure, Except.pure]) fun p hd => ?_
        obtain ⟨lv0, ev0⟩ := p
        simp only [pure, Except.pure, Except.ok.injEq, Prod.mk.injEq] at hd
        obtain ⟨h1, h2⟩ := hd
        subst h1
        subst h2
        exact calculateWrap_body_ne_outOfFuel hwf hev

theorem exists_ok_of_toBool {α : Type} {x : Except Fault α} (h : x.toBool = true) :
    ∃ a, x = .ok a := by
  cases x with
  | error err => simp [Except.toBool] at h
  | ok a => exact ⟨a, rfl⟩

theorem WellFormed.valid_ends {lv : LogView} {as : List Nat} (h : WellFormed lv as) :
    ListValid lv ∧ lv.firstEvent = lv.lineAddrs.head? ∧ lv.lastEvent = lv.lineAddrs.getLast? := by
  refine ⟨h.listValid, ?_, ?_⟩
  · rw [h.lineAddrs_eq]
    exact h.2.1
  · rw [h.lineAddrs_eq]
    exact h.2.2

theorem insertAfter_valid (lv : LogView) (hv : ListValid lv) (node : Option Nat) (new : Nat)
    (l : logEventLine) (hnode : node = lv.lastEvent ∨ ∃ a ∈ lv.lineAddrs, node = some a)
    (hnew : new ∉ lv.lineAddrs) (hl : lv.heap[new]? = some l)
    (hnil : node = none → l.previous = none ∧ l.next = none) :
    ∃ lv', insertAfter lv node new = .ok (lv', new) ∧ ListValid lv' ∧
      lv'.firstEvent = lv'.lineAddrs.head? ∧ lv'.lastEvent = lv'.lineAddrs.getLast? := by
  have hwf := hv.toWellFormed
  cases node with
  | none =>
    have hlast : lv.lastEvent = none := by
      rcases hnode with h | ⟨a, _, h⟩
      · exact h.symm
      · simp at h
    have hnil2 : lv.lineAddrs = [] := by
      have := hwf.2.2
      rw [hlast] at this
      exact List.getLast?_eq_none_iff.1 this.symm
    obtain ⟨hp, hn⟩ := hnil rfl
    refine ⟨_, insertAfter_nil_eq lv new, ?_⟩
    have hwf2 : WellFormed
        { lv with firstEvent := some new, lastEvent := some new, top := some new } [new] := by
      refine ⟨Linked.of_get (List.nodup_singleton new) fun i a hi => ?_, rfl, rfl⟩
      cases i with
      | zero =>
        simp only [List.getElem?_cons_zero, Option.some.injEq] at hi
        subst hi
        exact ⟨l, hl, by rw [hn]; rfl, by rw [hp, if_pos rfl]⟩
      | succ i => simp at hi
    exact hwf2.valid_ends
  | some t =>
    have ht : t ∈ lv.lineAddrs := by
      rcases hnode with h | ⟨a, ha, h⟩
      · rw [hwf.2.2] at h
        exact List.mem_of_mem_getLast? h.symm
      · rw [Option.some.inj h]
        exact ha
    obtain ⟨i, hi⟩ := List.mem_iff_getElem?.1 ht
    obtain ⟨lv', h1, hwf2⟩ := insertAfter_wf lv _ i t new l hwf hi hl hnew
    exact ⟨lv', h1, hwf2.valid_ends⟩

/-- C21 (list structural validity is preserved).  For every store whose list is
valid (`firstEvent` has no previous, `lastEvent` has no next, every line `l`
of the list with a next has `l.next.previous == l`, and the lines are those
reached from `firstEvent`, the line of `lastEvent` among them):
(1) `insertAfter` of a line that is not in the list, after `lastEvent` or after
any line of the list, returns and leaves a valid list (after a nil `lastEvent`,
that is into the empty list, the new line has nil links as allocated);
(2) every call of `calculateWrap` on a line of the list that returns leaves a
valid list; (3) every call of `deleteWrapLines` on a line of the list that
returns leaves a valid list.  Each time `firstEvent` and `lastEvent` are the
first and the last line of the walk over `next` in the new list.  The calls of
(2) and (3) either return or stop at a nil pointer: the bound of the walks of
the model is never what stops them. -/
theorem list_validity_preserved (lv : LogView) (hv : ListValid lv) :
    (∀ (node : Option Nat) (new : Nat) (l : logEventLine),
        (node = lv.lastEvent ∨ ∃ a ∈ lv.lineAddrs, node = some a) →
        new ∉ lv.lineAddrs → lv.heap[new]? = some l →
        (node = none → l.previous = none ∧ l.next = none) →
        ∃ lv', insertAfter lv node new = .ok (lv', new) ∧ ListValid lv' ∧
          lv'.firstEvent = lv'.lineAddrs.head? ∧ lv'.lastEvent = lv'.lineAddrs.getLast?) ∧
    (∀ event ∈ lv.lineAddrs, calculateWrap lv event ≠ .error .outOfFuel ∧
        ∀ (lv' : LogView) (r : Nat), calculateWrap lv event = .ok (lv', r) →
          ListValid lv' ∧
          lv'.firstEvent = lv'.lineAddrs.head? ∧ lv'.lastEvent = lv'.lineAddrs.getLast?) ∧
    (∀ event ∈ lv.lineAddrs, deleteWrapLines lv event ≠ .error .outOfFuel ∧
        ∀ (lv' : LogView) (r : Nat), deleteWrapLines lv event = .ok (lv', r) →
          ListValid lv' ∧
          lv'.firstEvent = lv'.lineAddrs.head? ∧ lv'.lastEvent = lv'.lineAddrs.getLast?) := by
  have hwf := hv.toWellFormed
  refine ⟨fun node new l hnode hnew hl hnil => insertAfter_valid lv hv node new l hnode hnew hl hnil,
    fun event hev => ⟨calculateWrap_ne_outOfFuel hwf hev, fun lv' r h => ?_⟩,
    fun event hev => ⟨deleteWrapLines_ne_outOfFuel hwf hev, fun lv' r h => ?_⟩⟩
  · obtain ⟨as', hwf'⟩ := calculateWrap_wf hwf hev h
    exact hwf'.valid_ends
  · obtain ⟨as', hwf', _⟩ := deleteWrapLines_wf hwf hev h
    exact hwf'.valid_ends

/-- Witness of C21: the store of the events "a", "bbb", "c" at page width 2
(lines at the addresses 0 to 3, the wrapped "bbb" at 1 and 2) is valid; on it
`calculateWrap` and `deleteWrapLines` of the continuation line at address 2
return, and so does `insertAfter` of the unlinked line at address 4 after the
line at address 1; each leaves a valid list. -/
theorem list_validity_preserved_witness :
    ListValid storeThreeEvents ∧
    storeThreeEvents.shape = [⟨"A", 0, 1, 0⟩, ⟨"B", 0, 2, 1⟩, ⟨"B", 2, 3, 2⟩, ⟨"C", 0, 1, 0⟩] ∧
    storeThreeEvents.lineAddrs = [0, 1, 2, 3] ∧
    ListValid storeFreshLine ∧ storeFreshLine.lineAddrs = [0, 1, 2, 3] ∧
    (∃ lv', insertAfter storeFreshLine (some 1) 4 = .ok (lv', 4) ∧ ListValid lv' ∧
      lv'.firstEvent = lv'.lineAddrs.head? ∧ lv'.lastEvent = lv'.lineAddrs.getLast?) ∧
    (∃ lv' r, calculateWrap storeThreeEvents 2 = .ok (lv', r) ∧ ListValid lv' ∧
      lv'.firstEvent = lv'.lineAddrs.head? ∧ lv'.lastEvent = lv'.lineAddrs.getLast?) ∧
    (∃ lv' r, deleteWrapLines storeThreeEvents 2 = .ok (lv', r) ∧ ListValid lv' ∧
      lv'.firstEvent = lv'.lineAddrs.head? ∧ lv'.lastEvent = lv'.lineAddrs.getLast?) := by
  have hv : ListValid storeThreeEvents := by decide
  have hv2 : ListValid storeFreshLine := by decide
  refine ⟨hv, by decide, by decide, hv2, by decide, ?_, ?_, ?_⟩
  · exact (list_validity_preserved storeFreshLine hv2).1 (some 1) 4
      (freshLine (mkEvent "Z" "z") 5) (Or.inr ⟨1, by decide, rfl⟩) (by decide) (by decide)
      (fun h => by simp at h)
  · obtain ⟨p, hp⟩ := exists_ok_of_toBool
      (show (calculateWrap storeThreeEvents 2).toBool = true by decide)
    exact ⟨p.1, p.2, hp,
      ((list_validity_preserved storeThreeEvents hv).2.1 2 (by decide)).2 p.1 p.2 hp⟩
  · obtain ⟨p, hp⟩ := exists_ok_of_toBool
      (show (deleteWrapLines storeThreeEvents 2).toBool = true by decide)
    exact ⟨p.1, p.2, hp,
      ((list_validity_preserved storeThreeEvents hv).2.2 2 (by decide)).2 p.1 p.2 hp⟩

/-! ## The events of the lines after appends -/

theorem event_of_data {x y : Option logEventLine}
    (h : x.map logEventLine.data = y.map logEventLine.data) :
    x.map logEventLine.LogEvent = y.map logEventLine.LogEvent := by
  cases x with
  | none =>
    cases y with
    | none => rfl
    | some b => simp at h
  | some a =>
    cases y with
    | none => simp at h
    | some b =>
      simp only [Option.map_some', Option.some.injEq] at h ⊢
      have h2 : a.data.LogEvent = b.data.LogEvent := congrArg logEventLine.LogEvent h
      exact h2

theorem update_event {lv lv' : LogView} {p : Option Nat} {f : logEventLine → logEventLine}
    (h : lv.update p f = .ok lv') (hf : ∀ l, (f l).LogEvent = l.LogEvent) :
    ∀ a : Nat,
      (lv'.heap[a]?).map logEventLine.LogEvent = (lv.heap[a]?).map logEventLine.LogEvent := by
  obtain ⟨b, l, _, hl, rfl⟩ := update_inv h
  intro a
  dsimp only
  by_cases hba : b = a
  · subst hba
    rw [getElem?_set_self _ hl, hl, Option.map_some', Option.map_some', hf]
  · rw [List.getElem?_set_ne hba]

theorem insertAfter_event {lv lv' : LogView} {node : Option Nat} {new r : Nat}
    (h : insertAfter lv node new = .ok (lv', r)) :
    ∀ a : Nat,
      (lv'.heap[a]?).map logEventLine.LogEvent = (lv.heap[a]?).map logEventLine.LogEvent := by
  unfold insertAfter at h
  cases node with
  | none =>
    simp only [Except.ok.injEq, Prod.mk.injEq] at h
    rw [← h.1]
    intro a
    rfl
  | some n =>
    dsimp only at h
    obtain ⟨lv1, h1, h⟩ := bind_ok_inv h
    obtain ⟨nl, _, h⟩ := bind_ok_inv h
    obtain ⟨lv2, h2, h⟩ := bind_ok_inv h
    obtain ⟨nl2, _, h⟩ := bind_ok_inv h
    have e1 := update_event h1 (fun _ => rfl)
    have e2 := update_event h2 (fun _ => rfl)
    have hfin : ∀ lv3 : LogView,
        (∀ a : Nat, (lv3.heap[a]?).map logEventLine.LogEvent =
          (lv2.heap[a]?).map logEventLine.LogEvent) →
        (do
          let lv4 ← lv3.update (some n) fun l => { l with next := some new }
          pure (if lv4.lastEvent = some n then { lv4 with lastEvent := some new } else lv4, new)) =
          Except.ok (lv', r) →
        ∀ a : Nat, (lv'.heap[a]?).map logEventLine.LogEvent =
          (lv.heap[a]?).map logEventLine.LogEvent := by
      intro lv3 e3 h
      obtain ⟨lv4, h4, h⟩ := bind_ok_inv h
      have e4 := update_event h4 (fun _ => rfl)
      simp only [pure, Except.pure, Except.ok.injEq, Prod.mk.injEq] at h
      intro a
      have e5 : (lv'.heap[a]?).map logEventLine.LogEvent =
          (lv4.heap[a]?).map logEventLine.LogEvent := by
        rw [← h.1]
        split <;> rfl
      rw [e5, e4, e3, e2, e1]
    cases hn : nl2.next with
    | none =>
      rw [hn] at h
      dsimp only at h
      obtain ⟨lv3, h3, h⟩ := bind_ok_inv h
      simp only [pure, Except.pure, Except.ok.injEq] at h3
      subst h3
      exact hfin lv2 (fun _ => rfl) h
    | some m =>
      rw [hn] at h
      dsimp only at h
      obtain ⟨lv3, h3, h⟩ := bind_ok_inv h
      exact hfin lv3 (update_event h3 (fun _ => rfl)) h

theorem filterMap_event (H : List logEventLine) :
    ∀ (g : List Nat) (es : List LogEvent),
      g.map (fun b => (H[b]?).map logEventLine.LogEvent) = es.map some →
      (g.filterMap fun b => H[b]?).map logEventLine.LogEvent = es := by
  intro g
  induction g with
  | nil =>
    intro es h
    cases es with
    | nil => rfl
    | cons d ds => simp at h
  | cons b g ih =>
    intro es h
    cases es with
    | nil => simp at h
    | cons d ds =>
      simp only [List.map_cons, List.cons.injEq] at h
      obtain ⟨h1, h2⟩ := h
      cases hb : H[b]? with
      | none => rw [hb] at h1; simp at h1
      | some l =>
        rw [hb] at h1
        simp only [Option.map_some', Option.some.injEq] at h1
        rw [List.filterMap_cons_some hb, List.map_cons, h1, ih ds h2]

theorem event_of_data_some {x : Option logEventLine} {d : logEventLine}
    (h : x.map logEventLine.data = some d.data) :
    x.map logEventLine.LogEvent = some d.LogEvent :=
  event_of_data (show x.map logEventLine.data = (some d).map logEventLine.data from h)

theorem append_lines (lv : LogView) (as : List Nat) (ev : LogEvent) (lv' : LogView)
    (hwf : WellFormed lv as) (htop : as ≠ [] → ∃ j, j < as.length ∧ lv.top = as[j]?)
    (hrun : append lv ev = .ok lv') :
    WellFormed lv' (as ++ List.range' lv.heap.length
      (appendLineCount lv.wrap lv.pageWidth (len ev.Message))) ∧
    (∀ a, a < lv.heap.length →
      (lv'.heap[a]?).map logEventLine.LogEvent = (lv.heap[a]?).map logEventLine.LogEvent) ∧
    (∀ j, j < appendLineCount lv.wrap lv.pageWidth (len ev.Message) →
      (lv'.heap[lv.heap.length + j]?).map logEventLine.LogEvent = some ev) := by
  obtain ⟨H2, top2, l2, hins, hl2, hH2n, hd2, _⟩ :=
    append_insert lv as
      { LogEvent := ev, lineID := lv.eventCount + 1, previous := none, next := none,
        styleSpans := [], start := 0, end_ := (len ev.Message : Int), order := 0, lineCount := 1 }
      hwf htop rfl rfl
  have hfr2 := insertAfter_event hins
  dsimp only at hfr2
  have ho2 : l2.order = 0 := congrArg logEventLine.order hd2
  have hev2 : l2.LogEvent = ev := congrArg logEventLine.LogEvent hd2
  have hlen2 : H2.length = lv.heap.length + 1 := by
    have h1 := lt_of_getElem? hH2n
    have h2 := hfr2 (lv.heap.length + 1)
    rw [List.getElem?_eq_none (show (lv.heap ++ _).length ≤ lv.heap.length + 1 by simp)] at h2
    have h3 : H2.length ≤ lv.heap.length + 1 := by
      by_contra hh
      rw [List.getElem?_eq_getElem (by omega)] at h2
      simp at h2
    omega
  obtain ⟨spans, hcol⟩ := colorize_ok
    { lv with heap := H2, firstEvent := (as ++ [lv.heap.length]).head?,
              lastEvent := some lv.heap.length, top := top2 }
    lv.heap.length l2 hH2n ho2
  have hl3 : Linked (H2.set lv.heap.length { l2 with styleSpans := spans })
      (as ++ [lv.heap.length]) := by
    refine hl2.frame fun b _ l hb => ?_
    by_cases hc : b = lv.heap.length
    · subst hc
      rw [hH2n] at hb
      cases hb
      exact ⟨_, getElem?_set_self _ hH2n, rfl, rfl⟩
    · exact ⟨l, by rw [List.getElem?_set_ne (Ne.symm hc), hb], rfl, rfl⟩
  have hfr3 : ∀ a, a < lv.heap.length →
      ((H2.set lv.heap.length { l2 with styleSpans := spans })[a]?).map logEventLine.LogEvent =
        (lv.heap[a]?).map logEventLine.LogEvent := by
    intro a ha
    rw [List.getElem?_set_ne (by omega), hfr2 a, List.getElem?_append_left ha]
  have key : ∀ (H4 : List logEventLine) (t4 : Nat) (l4 : logEventLine),
      calculateWrap
        { lv with heap := H2.set lv.heap.length { l2 with styleSpans := spans },
                  firstEvent := (as ++ [lv.heap.length]).head?,
                  lastEvent := some lv.heap.length, top := top2 } lv.heap.length =
        .ok ({ lv with heap := H4, firstEvent := (as ++ [lv.heap.length]).head?,
                       lastEvent := some t4, top := top2 }, t4) →
      H4[lv.heap.length]? = some l4 →
      lv'.heap = H4 ∧ lv'.firstEvent = (as ++ [lv.heap.length]).head? ∧
        lv'.lastEvent = some t4 := by
    intro H4 t4 l4 hcw hH4n
    simp only [append, LogView.alloc, bind, Except.bind, pure, Except.pure, hins, hcol, hcw,
      LogView.line, hH4n] at hrun
    split at hrun
    · split at hrun
      · cases hrun
      · simp only [Except.ok.injEq] at hrun
        rw [← hrun]
        exact ⟨rfl, rfl, rfl⟩
    · simp only [Except.ok.injEq] at hrun
      rw [← hrun]
      exact ⟨rfl, rfl, rfl⟩
  by_cases hc : lv.wrap = true ∧ lv.pageWidth ≠ 0 ∧ lv.pageWidth ≤ len ev.Message
  · obtain ⟨hw, hp0, hlen⟩ := hc
    have hpw : 0 < lv.pageWidth := Nat.pos_of_ne_zero hp0
    have hcount : appendLineCount lv.wrap lv.pageWidth (len ev.Message) =
        wrapLineCount (len ev.Message) lv.pageWidth := by
      unfold appendLineCount
      rw [if_pos ⟨hw, hp0, hlen⟩]
    have h1 := (wrapLineCount_bounds hpw hlen).1
    obtain ⟨H', t, hcw, hl', hlast', hlen', hfr, hhead, hnew⟩ :=
      calculateWrap_tail
        { lv with heap := H2.set lv.heap.length { l2 with styleSpans := spans },
                  firstEvent := (as ++ [lv.heap.length]).head?,
                  lastEvent := some lv.heap.length, top := top2 }
        (as ++ [lv.heap.length]) lv.heap.length { l2 with styleSpans := spans }
        hl3 (List.getLast?_concat _) rfl (getElem?_set_self _ hH2n) ho2 hw hpw
        (by show lv.pageWidth ≤ len l2.LogEvent.Message; rw [hev2]; exact hlen)
    have hmsg : len l2.LogEvent.Message = len ev.Message := by rw [hev2]
    simp only [List.length_set, hlen2, hmsg] at hl' hlast' hlen' hfr hnew
    have hlist : as ++ List.range' lv.heap.length (wrapLineCount (len ev.Message) lv.pageWidth) =
        as ++ [lv.heap.length] ++ List.range' (lv.heap.length + 1)
          (wrapLineCount (len ev.Message) lv.pageWidth - 1) := by
      obtain ⟨c, hc⟩ : ∃ c, wrapLineCount (len ev.Message) lv.pageWidth = c + 1 :=
        ⟨wrapLineCount (len ev.Message) lv.pageWidth - 1, by omega⟩
      rw [hc, List.range'_succ]
      simp
    cases h4 : H'[lv.heap.length]? with
    | none => rw [h4] at hhead; simp at hhead
    | some l4 =>
      obtain ⟨kh, kf, kl⟩ := key H' t l4 hcw h4
      rw [hcount, hlist]
      refine ⟨⟨by rw [kh]; exact hl', ?_, by rw [kl]; exact hlast'.symm⟩, ?_, ?_⟩
      · rw [kf]
        cases as <;> simp
      · intro a ha
        rw [kh, event_of_data (hfr a (by omega) (by omega)), hfr3 a ha]
      · intro j hj
        rw [kh]
        cases j with
        | zero =>
          rw [Nat.add_zero, event_of_data_some hhead]
          simp [headLine, hev2]
        | succ j =>
          have := hnew j (by omega)
          rw [show lv.heap.length + (j + 1) = lv.heap.length + 1 + j by omega,
            event_of_data_some this]
          simp [contLine, headLine, hev2]
  · have hcount : appendLineCount lv.wrap lv.pageWidth (len ev.Message) = 1 := by
      unfold appendLineCount
      rw [if_neg hc]
    have hcw := calculateWrap_noop
      { lv with heap := H2.set lv.heap.length { l2 with styleSpans := spans },
                firstEvent := (as ++ [lv.heap.length]).head?,
                lastEvent := some lv.heap.length, top := top2 }
      lv.heap.length { l2 with styleSpans := spans } (getElem?_set_self _ hH2n)
      (by show ¬ (lv.wrap = true ∧ lv.pageWidth ≠ 0 ∧ lv.pageWidth ≤ len l2.LogEvent.Message)
          rw [hev2]; exact hc)
    obtain ⟨kh, kf, kl⟩ := key _ lv.heap.length { l2 with styleSpans := spans } hcw
      (getElem?_set_self _ hH2n)
    rw [hcount]
    have hlist : List.range' lv.heap.length 1 = [lv.heap.length] := rfl
    rw [hlist]
    refine ⟨⟨by rw [kh]; exact hl3, kf, by rw [kl]; simp⟩, ?_, ?_⟩
    · intro a ha
      rw [kh]
      exact hfr3 a ha
    · intro j hj
      have hj0 : j = 0 := by omega
      subst hj0
      rw [kh, Nat.add_zero, getElem?_set_self _ hH2n]
      simp [hev2]

theorem AppendEvents_lines (evs : List LogEvent) :
    ∀ (lv : LogView) (as : List Nat) (es : List LogEvent), WellFormed lv as →
      (as ≠ [] → ∃ j, j < as.length ∧ lv.top = as[j]?) →
      as.map (fun a => (lv.heap[a]?).map logEventLine.LogEvent) = es.map some →
      ∀ lv', AppendEvents lv evs = .ok lv' →
        lv'.lines.map logEventLine.LogEvent =
          es ++ evs.flatMap fun e =>
            List.replicate (appendLineCount lv.wrap lv.pageWidth (len e.Message)) e := by
  induction evs with
  | nil =>
    intro lv as es hwf _ hes lv' hrun
    simp only [AppendEvents, Except.ok.injEq] at hrun
    subst hrun
    rw [List.flatMap_nil, List.append_nil]
    unfold LogView.lines
    rw [hwf.lineAddrs_eq]
    exact filterMap_event _ _ _ hes
  | cons e evs ih =>
    intro lv as es hwf htop hes lv' hrun
    rw [AppendEvents] at hrun
    obtain ⟨lv1, hrun1, hrun2⟩ := bind_ok_inv hrun
    obtain ⟨lv1', as1, hrun1', hwf1', htop1, hw1, hp1, _, _⟩ := append_spec lv as e hwf htop
    rw [hrun1] at hrun1'
    have hsame : lv1 = lv1' := Except.ok.inj hrun1'
    subst hsame
    obtain ⟨hwf1, hfr, hnew⟩ := append_lines lv as e lv1 hwf htop hrun1
    have has1 : as1 = as ++ List.range' lv.heap.length
        (appendLineCount lv.wrap lv.pageWidth (len e.Message)) := by
      rw [← hwf1'.lineAddrs_eq, hwf1.lineAddrs_eq]
    subst has1
    have hes1 : (as ++ List.range' lv.heap.length
          (appendLineCount lv.wrap lv.pageWidth (len e.Message))).map
          (fun a => (lv1.heap[a]?).map logEventLine.LogEvent) =
        (es ++ List.replicate (appendLineCount lv.wrap lv.pageWidth (len e.Message)) e).map
          some := by
      rw [List.map_append, List.map_append, List.map_replicate, ← hes]
      congr 1
      · apply List.map_congr_left
        intro a ha
        obtain ⟨l, hl⟩ := hwf.1.mem ha
        exact hfr a (lt_of_getElem? hl)
      · rw [List.eq_replicate_iff]
        refine ⟨by simp, fun b hb => ?_⟩
        obtain ⟨x, hx, rfl⟩ := List.mem_map.1 hb
        rw [List.mem_range'_1] at hx
        have := hnew (x - lv.heap.length) (by omega)
        rw [show lv.heap.length + (x - lv.heap.length) = x by omega] at this
        exact this
    have := ih lv1 _ _ hwf1 (fun _ => htop1) hes1 lv' hrun2
    rw [this, hw1, hp1, List.flatMap_cons, List.append_assoc]

/-- C17 (follow mode keeps the last line in view).  Starting from an empty
store with following enabled and a page height of at least 1, whatever the
page width and the wrap setting, appending any list of events returns and
leaves the page height as it was.  The list then holds the lines of the
appended events in their order, for each event as many lines as `append` makes
of its message; `lastEvent` is the last line of the list, and it is reached
from `top` in at most `pageHeight - 1` steps over `next`. -/
theorem follow_keeps_last_line_in_view (lv : LogView) (evs : List LogEvent)
    (hempty : IsEmptyStore lv) (hfollow : lv.following = true) (hh : 1 ≤ lv.pageHeight) :
    ∃ lv', AppendEvents lv evs = .ok lv' ∧ lv'.pageHeight = lv.pageHeight ∧
      lv'.lines.map logEventLine.LogEvent =
        (evs.flatMap fun e =>
          List.replicate (appendLineCount lv.wrap lv.pageWidth (len e.Message)) e) ∧
      lv'.lastEvent = lv'.lineAddrs.getLast? ∧
      ∃ k, k ≤ lv.pageHeight - 1 ∧ nextN lv'.heap k lv'.top = lv'.lastEvent := by
  obtain ⟨lv', as', t', hrun, hwf, hp, htop, _, hnil⟩ :=
    AppendEvents_follow evs lv [] 0 hempty.wellFormed
      (by rw [hempty.2.2.2.2]; rfl) hfollow hh (fun h => absurd rfl h)
  have hlines := AppendEvents_lines evs lv [] [] hempty.wellFormed (fun h => absurd rfl h) rfl
    lv' hrun
  refine ⟨lv', hrun, hp, by simpa using hlines, ?_, ?_⟩
  · rw [hwf.lineAddrs_eq, hwf.2.2]
  · by_cases hne : as' = []
    · have hsame : lv' = lv := hnil hne
      refine ⟨0, Nat.zero_le _, ?_⟩
      rw [hsame]
      show lv.top = lv.lastEvent
      rw [hempty.2.2.2.1, hempty.2.2.1]
    · obtain ⟨ht, htop', hle⟩ := htop hne
      refine ⟨as'.length - 1 - t', by omega, ?_⟩
      rw [htop', hwf.1.nextN, hwf.2.2, List.getLast?_eq_getElem?]
      congr 1
      omega

/-- Witness of C17: three events, the first wrapped into three lines, appended
to the empty store of page size 2 by 2. -/
theorem follow_keeps_last_line_in_view_witness :
    IsEmptyStore (storeOfSize 2 2) ∧ (storeOfSize 2 2).following = true ∧
    1 ≤ (storeOfSize 2 2).pageHeight ∧
    ∃ lv', AppendEvents (storeOfSize 2 2)
        [mkEvent "A" "abcde", mkEvent "B" "", mkEvent "C" "ab"] = .ok lv' ∧
      lv'.pageHeight = (storeOfSize 2 2).pageHeight ∧
      lv'.lines.map logEventLine.LogEvent =
        ([mkEvent "A" "abcde", mkEvent "B" "", mkEvent "C" "ab"].flatMap fun e =>
          List.replicate
            (appendLineCount (storeOfSize 2 2).wrap (storeOfSize 2 2).pageWidth (len e.Message))
            e) ∧
      lv'.lastEvent = lv'.lineAddrs.getLast? ∧
      ∃ k, k ≤ (storeOfSize 2 2).pageHeight - 1 ∧ nextN lv'.heap k lv'.top = lv'.lastEvent :=
  ⟨by decide, rfl, by decide, follow_keeps_last_line_in_view _ _ (by decide) rfl (by decide)⟩

end Logv
